import Mathlib

/-!
Oxide system service: the application registry (`AppsAPI`).

A shallow embedding of `src/applications/system-service/appsapi.h`.

* `QVariant`, `QMap` stand for the Qt value and container types the registry uses.
* `Application` stands for the managed Application object, whose class is declared in
  `application.h`; that header is not part of the sources at hand, so the record and the
  effect of its methods follow the specification (sections 3 and 4.1).
* `AppsAPI` is the state of the registry object: its member variables plus a `trace` of the
  steps that are visible from outside (signals emitted, calls made on Applications,
  entries added to and removed from the `applications` map).
* `Env` holds what the registry reads from its surroundings: the UUID generator of Qt and
  the existence of files.
-/

namespace Oxide

/-! ## Qt values -/

/-- UTF-16 code units of a character; `QString` stores and compares code units. -/
def utf16 (c : Char) : List Nat :=
  if c.toNat < 0x10000 then [c.toNat]
  else [0xD800 + (c.toNat - 0x10000) / 0x400, 0xDC00 + (c.toNat - 0x10000) % 0x400]

/-- Lexicographic comparison of two sequences of code units. -/
def codeUnitsLt : List Nat → List Nat → Bool
  | [], [] => false
  | [], _ :: _ => true
  | _ :: _, [] => false
  | a :: as, b :: bs => if a < b then true else if b < a then false else codeUnitsLt as bs

/-- The order `QString::operator<`, by which a `QMap<QString, T>` keeps its keys. -/
def qStringLt (a b : String) : Bool :=
  codeUnitsLt (a.data.flatMap utf16) (b.data.flatMap utf16)

/-- Whitespace skipped by `QString::toLongLong` around the number. -/
def isSpaceChar (c : Char) : Bool :=
  c.toNat = 32 || (9 ≤ c.toNat && c.toNat ≤ 13)

/-- Value of a non-empty string of decimal digits. -/
def digitsToNat : List Char → Nat → Option Nat
  | [], _ => none
  | [c], acc => if c.isDigit then some (acc * 10 + (c.toNat - 48)) else none
  | c :: cs, acc => if c.isDigit then digitsToNat cs (acc * 10 + (c.toNat - 48)) else none

/-- Strip the whitespace at both ends of a list of characters. -/
def trimChars (cs : List Char) : List Char :=
  ((cs.dropWhile isSpaceChar).reverse.dropWhile isSpaceChar).reverse

/-- The call `QString::toLongLong` in base 10: optional sign, decimal digits, surrounding
whitespace allowed; `none` when the text is no number or does not fit in 64 bits. -/
def toLongLong (s : String) : Option Int :=
  let signed : Option Int :=
    match trimChars s.data with
    | '-' :: ds => (digitsToNat ds 0).map (fun n => - (n : Int))
    | '+' :: ds => (digitsToNat ds 0).map (fun n => (n : Int))
    | ds => (digitsToNat ds 0).map (fun n => (n : Int))
  match signed with
  | some v => if - 2 ^ 63 ≤ v ∧ v < 2 ^ 63 then some v else none
  | none => none

/-- Conversion of a 64 bit value to a C++ `int` (32 bits, two's complement). -/
def toInt32 (v : Int) : Int :=
  (v + 2 ^ 31) % 2 ^ 32 - 2 ^ 31

/-- The kinds of `QVariant` the registry stores and reads: strings, integers, string
lists and maps of strings (the environment of an Application), and the invalid variant
returned for an absent key. -/
inductive QVariant where
  | invalid
  | str (s : String)
  | int (n : Int)
  | strList (l : List String)
  | map (m : List (String × String))
  deriving DecidableEq, Repr

namespace QVariant

/-- The conversion `QVariant::toString`. -/
def toString : QVariant → String
  | invalid => ""
  | str s => s
  | int n => ToString.toString n
  | strList [x] => x
  | strList _ => ""
  | map _ => ""

/-- The conversion `QVariant::toInt`. The result is a C++ `int`: a variant that holds a
wider integer, or a string that writes one, is narrowed to 32 bits. -/
def toInt : QVariant → Int
  | invalid => 0
  | str s => match toLongLong s with
    | some v => toInt32 v
    | none => 0
  | int n => toInt32 n
  | strList _ => 0
  | map _ => 0

/-- The conversion `QVariant::toStringList`. -/
def toStringList : QVariant → List String
  | invalid => []
  | str s => [s]
  | int _ => []
  | strList l => l
  | map _ => []

/-- The conversion `QVariant::toMap`. -/
def toMap : QVariant → List (String × String)
  | map m => m
  | _ => []

end QVariant

/-! ## `QMap<QString, T>` as an association list in iteration order -/

/-- A `QMap<QString, T>`: its entries in the order in which the map is iterated. -/
abbrev QMap (V : Type) := List (String × V)

namespace QMap

variable {V : Type}

/-- The call `QMap::contains`. -/
def contains (m : QMap V) (k : String) : Bool :=
  m.any (fun e => e.1 == k)

/-- Lookup of a key: the value of `m[k]` when `k` is present. -/
def find? : QMap V → String → Option V
  | [], _ => none
  | (k', v) :: rest, k => if k' = k then some v else find? rest k

/-- The call `QMap::value(key, defaultValue)`. -/
def value (m : QMap V) (k : String) (dflt : V) : V :=
  (find? m k).getD dflt

/-- The call `QMap::remove`: every entry under the key goes. -/
def remove (m : QMap V) (k : String) : QMap V :=
  m.filter (fun e => e.1 ≠ k)

/-- Put a new entry at its place in key order. -/
def place (k : String) (v : V) : QMap V → QMap V
  | [] => [(k, v)]
  | (k', v') :: rest =>
    if qStringLt k' k then (k', v') :: place k v rest else (k, v) :: (k', v') :: rest

/-- The call `QMap::insert`: the value of an existing key is replaced. -/
def insert (m : QMap V) (k : String) (v : V) : QMap V :=
  place k v (remove m k)

/-- The call `QMap::keys`. -/
def keys (m : QMap V) : List String :=
  m.map Prod.fst

/-- The call `QMap::values`. -/
def values (m : QMap V) : List V :=
  m.map Prod.snd

/-- Replace the value stored under each entry of key `k` by `f` of it: a write through
the pointer that the map holds under `k`. -/
def modify (m : QMap V) (k : String) (f : V → V) : QMap V :=
  m.map (fun e => if e.1 = k then (e.1, f e.2) else e)

end QMap

/-- A `QVariantMap`. -/
abbrev QVariantMap := QMap QVariant

/-- A `QJsonValue`. The registry reads JSON values only through `toString`, `toArray` and
`toObject`, which give the empty string, array or object for a value of another kind, so
a number carries no payload here. -/
inductive QJsonValue where
  | null
  | bool (b : Bool)
  | number
  | string (s : String)
  | array (items : List QJsonValue)
  | object (members : List (String × QJsonValue))

/-- A `QJsonObject`: its members. -/
abbrev QJsonObject := QMap QJsonValue

namespace QJsonValue

/-- The conversion `QJsonValue::toString`. -/
def toString : QJsonValue → String
  | string s => s
  | _ => ""

/-- The conversion `QJsonValue::toArray`. -/
def toArray : QJsonValue → List QJsonValue
  | array items => items
  | _ => []

/-- The conversion `QJsonValue::toObject`. -/
def toObject : QJsonValue → QJsonObject
  | object members => members
  | _ => []

end QJsonValue

/-- The expression `app[key]` on a `QJsonObject`: the member, or a null value when there
is none (the null member that `operator[]` then adds to the local copy is never looked
at). -/
def jsonAt (app : QJsonObject) (key : String) : QJsonValue :=
  QMap.value app key QJsonValue.null

/-! ## Applications -/

/-- The enumerator `AppsAPI::Foreground`. -/
abbrev Foreground : Int := 0

/-- The enumerator `AppsAPI::Background`. -/
abbrev Background : Int := 1

/-- The enumerator `AppsAPI::Backgroundable`. -/
abbrev Backgroundable : Int := 2

/-- Modelled from the spec: the lifecycle states of an Application (the enum is declared
in application.h, which is not among the sources; spec section 4.1 lists its values). -/
inductive AppState where
  | Inactive
  | InForeground
  | InBackground
  | Paused
  deriving DecidableEq, Repr

/-- Modelled from the spec: the class `Application` (application.h is not among the
sources). An Application has the object path it was constructed with, the configuration
handed to `setConfig` (spec section 3: name, bin, type, flags and the other persisted
fields) and a lifecycle state that starts as `Inactive`. -/
structure Application where
  path : String
  config : QVariantMap
  state : AppState
  deriving DecidableEq, Repr

namespace Application

/-- Modelled from the spec: `new Application(path, parent)`; the state machine starts in
`Inactive` and no configuration is set yet. -/
def create (path : String) : Application :=
  { path := path, config := [], state := AppState.Inactive }

/-- Modelled from the spec: `Application::qPath()`, the object path as a
`QDBusObjectPath`. -/
def qPath (app : Application) : String :=
  app.path

/-- Modelled from the spec: `Application::setConfig`. -/
def setConfig (app : Application) (properties : QVariantMap) : Application :=
  { app with config := properties }

/-- Modelled from the spec: `Application::getConfig`. -/
def getConfig (app : Application) : QVariantMap :=
  app.config

/-- Modelled from the spec: `Application::name()`, the `name` field of the
configuration. -/
def name (app : Application) : String :=
  (QMap.value app.config "name" QVariant.invalid).toString

/-- Modelled from the spec: `Application::type()`, the `type` field of the
configuration. -/
def type (app : Application) : Int :=
  (QMap.value app.config "type" (QVariant.int Foreground)).toInt

/-- Modelled from the spec: `Application::systemApp()`; the flag `"system"` marks a system
application. -/
def systemApp (app : Application) : Bool :=
  (QMap.value app.config "flags" QVariant.invalid).toStringList.contains "system"

/-- Modelled from the spec: the state in which `pause` leaves an Application (section
4.1): from `InForeground` or `InBackground` a Backgroundable Application goes to
`InBackground`, any other goes to `Inactive`; in the other states nothing changes. -/
def pausedState (app : Application) : AppState :=
  match app.state with
  | AppState.InForeground | AppState.InBackground =>
    if app.type = Backgroundable then AppState.InBackground else AppState.Inactive
  | st => st

end Application

/-! ## The registry object -/

/-- The signals of `AppsAPI` that the registry itself emits. -/
inductive Signal where
  | applicationRegistered (path : String)
  | applicationUnregistered (path : String)
  deriving DecidableEq, Repr

/-- The methods of `Application` that the registry calls for their effect. -/
inductive Method where
  | registerPath
  | unregisterPath
  | launch
  | pause (arg : Bool)
  | stop
  | waitForFinished
  | deleteLater
  deriving DecidableEq, Repr

/-- One visible step of the registry: an entry added to or removed from `applications`, a
signal emitted, or a method called on the Application held under a key. -/
inductive Action where
  | inserted (name : String)
  | removed (name : String)
  | emitted (sig : Signal)
  | called (key : String) (m : Method)
  deriving DecidableEq, Repr

/-- What the registry reads from outside itself. -/
structure Env where
  /-- The text of `QUuid::createUuidV5(NS, name).toString(QUuid::Id128)` -/
  createUuidV5 : String → String
  /-- The call `QFile::exists` -/
  fileExists : String → Bool
  /-- The call `QString::toLower` -/
  toLower : String → String
  /-- The entries of `/opt/usr/share/applications/` that match `*.oxide`, in the order of
  `entryInfoList`: the complete base name of each file and, when the file can be opened,
  the JSON object read from it -/
  descriptors : List (String × Option QJsonObject)

/-- The member variables of `AppsAPI`, and the trace of its visible steps. -/
structure AppsAPI where
  m_stopping : Bool
  m_enabled : Bool
  applications : QMap Application
  settings : QMap QVariant
  m_startupApplication : String
  m_sleeping : Bool
  trace : List Action
  deriving DecidableEq, Repr

/-- The macro `OXIDE_SERVICE_PATH` of dbussettings.h. -/
def OXIDE_SERVICE_PATH : String := "/codes/eeems/oxide1"

namespace Application

/-- Modelled from the spec: `Application::stop()` called on the Application under `key`:
it ends in `Inactive`. -/
def stop (s : AppsAPI) (key : String) : AppsAPI :=
  { s with
    applications := QMap.modify s.applications key
      (fun a => { a with state := AppState.Inactive })
    trace := s.trace ++ [Action.called key Method.stop] }

/-- Modelled from the spec: `Application::pause(arg)` called on the Application under
`key`; the state moves as `pausedState` says. The spec names relaunch side effects that
the argument governs but does not define them; they are left out. -/
def pause (s : AppsAPI) (key : String) (arg : Bool) : AppsAPI :=
  { s with
    applications := QMap.modify s.applications key
      (fun a => { a with state := a.pausedState })
    trace := s.trace ++ [Action.called key (Method.pause arg)] }

/-- Modelled from the spec: `Application::launch()` called on the Application under
`key`: it becomes `InForeground`, and whichever other Application holds `InForeground`
is paused. -/
def launch (s : AppsAPI) (key : String) : AppsAPI :=
  { s with
    applications := s.applications.map (fun e =>
      if e.1 = key then (e.1, { e.2 with state := AppState.InForeground })
      else if e.2.state = AppState.InForeground then (e.1, { e.2 with state := e.2.pausedState })
      else e)
    trace := s.trace ++ [Action.called key Method.launch] }

/-- Modelled from the spec: a call of `registerPath`, `unregisterPath`, `waitForFinished`
or `deleteLater` on the Application under `key`; these concern the IPC surface and the
lifetime of the object, and leave the fields of the registry alone. -/
def call (s : AppsAPI) (key : String) (m : Method) : AppsAPI :=
  { s with trace := s.trace ++ [Action.called key m] }

end Application

namespace AppsAPI

/-- The method `AppsAPI::getPath`: the object path derived from the name. -/
def getPath (env : Env) (name : String) : String :=
  OXIDE_SERVICE_PATH ++ "/apps/" ++ env.createUuidV5 name

/-- One pass of the inner loop of `writeApplications`: every key of the configuration of
the Application at array index `i` is stored. -/
def writeConfig (settings : QMap QVariant) (i : Nat) (config : QVariantMap) : QMap QVariant :=
  (QMap.keys config).foldl
    (fun st key =>
      QMap.insert st ("applications/" ++ toString (i + 1) ++ "/" ++ key)
        (QMap.value config key QVariant.invalid))
    settings

/-- The method `AppsAPI::writeApplications`: the array `applications` of the settings gets
its size and, for each Application in turn, the keys of its configuration. -/
def writeApplications (s : AppsAPI) : AppsAPI :=
  let apps := QMap.values s.applications
  let size := apps.length
  let start := QMap.insert s.settings "applications/size" (QVariant.int size)
  { s with
    settings := (List.range size).foldl
      (fun st i =>
        match apps.get? i with
        | some app => writeConfig st i app.getConfig
        | none => st)
      start }

/-- The method `AppsAPI::getApplication(QDBusObjectPath)`: the first Application, in the
order of the map, whose path is the given one, with the key it is held under. -/
def getApplication (s : AppsAPI) (path : String) : Option (String × Application) :=
  List.find? (fun e => e.2.path == path) s.applications

/-- The method `AppsAPI::getApplication(QString)`. -/
def getApplicationByName (s : AppsAPI) (name : String) : Option Application :=
  QMap.find? s.applications name

/-- The method `AppsAPI::getApplicationPath`. -/
def getApplicationPath (s : AppsAPI) (name : String) : String :=
  match getApplicationByName s name with
  | none => "/"
  | some app => app.qPath

/-- The expression `properties.value("name", "").toString()`. -/
def propName (properties : QVariantMap) : String :=
  (QMap.value properties "name" (QVariant.str "")).toString

/-- The expression `properties.value("bin", "").toString()`. -/
def propBin (properties : QVariantMap) : String :=
  (QMap.value properties "bin" (QVariant.str "")).toString

/-- The expression `properties.value("type", Foreground).toInt()`. -/
def propType (properties : QVariantMap) : Int :=
  (QMap.value properties "type" (QVariant.int Foreground)).toInt

/-- The method `AppsAPI::registerApplication`: the object path returned and the registry
after the call. -/
def registerApplication (env : Env) (s : AppsAPI) (properties : QVariantMap) :
    String × AppsAPI :=
  let name := propName properties
  let bin := propBin properties
  let type := propType properties
  if type < Foreground ∨ type > Background ∨ name.isEmpty = true ∨ bin.isEmpty = true
      ∨ env.fileExists bin = false then
    ("/", s)
  else
    match QMap.find? s.applications name with
    | some existing => (existing.qPath, s)
    | none =>
      let path := getPath env name
      let app := (Application.create path).setConfig properties
      let s1 := { s with
        applications := QMap.insert s.applications name app
        trace := s.trace ++ [Action.inserted name] }
      let s2 := writeApplications s1
      let s3 := Application.call s2 name Method.registerPath
      (path, { s3 with trace := s3.trace ++ [Action.emitted (Signal.applicationRegistered path)] })

/-- The method `AppsAPI::unregisterApplication(Application*)`, for the Application `app`
held under `key`. -/
def unregisterApplicationPtr (s : AppsAPI) (key : String) (app : Application) : AppsAPI :=
  let name := app.name
  if QMap.contains s.applications name then
    let s1 := { s with
      applications := QMap.remove s.applications name
      trace := s.trace ++
        [Action.removed name, Action.emitted (Signal.applicationUnregistered app.qPath)] }
    let s2 := Application.call s1 key Method.deleteLater
    writeApplications s2
  else
    s

/-- The method `AppsAPI::unregisterApplication(QDBusObjectPath)`: the result and the
registry after the call. -/
def unregisterApplication (s : AppsAPI) (path : String) : Bool × AppsAPI :=
  match getApplication s path with
  | none => (true, s)
  | some (key, app) =>
    if app.systemApp then (false, s)
    else (true, unregisterApplicationPtr s key app)

/-- The method `AppsAPI::startupApplication`. -/
def startupApplication (s : AppsAPI) : String :=
  s.m_startupApplication

/-- The method `AppsAPI::setStartupApplication`. -/
def setStartupApplication (s : AppsAPI) (path : String) : AppsAPI :=
  match getApplication s path with
  | some _ =>
    { s with
      m_startupApplication := path
      settings := QMap.insert s.settings "startupApplication" (QVariant.str path) }
  | none => s

/-- The method `AppsAPI::currentApplication`. -/
def currentApplication (s : AppsAPI) : String :=
  match List.find? (fun e => e.2.state == AppState.InForeground) s.applications with
  | some e => e.2.qPath
  | none => "/"

/-- The method `AppsAPI::pauseAll`. -/
def pauseAll (s : AppsAPI) : AppsAPI :=
  (QMap.keys s.applications).foldl (fun st key => Application.pause st key false) s

/-- The method `AppsAPI::resumeIfNone`. -/
def resumeIfNone (s : AppsAPI) : AppsAPI :=
  if s.m_stopping then s
  else if List.any s.applications (fun e => e.2.state == AppState.InForeground) then s
  else
    match getApplication s s.m_startupApplication with
    | some (key, _) => Application.launch s key
    | none => s

/-- The destructor `AppsAPI::~AppsAPI`. -/
def destructor (s : AppsAPI) : AppsAPI :=
  let s1 := writeApplications { s with m_stopping := true }
  let s2 := (QMap.keys s1.applications).foldl (fun st key => Application.stop st key) s1
  let s3 := (QMap.keys s2.applications).foldl
    (fun st key =>
      Application.call (Application.call st key Method.waitForFinished) key Method.deleteLater)
    s2
  { s3 with applications := [] }

/-- The signals emitted so far, in order. -/
def events (s : AppsAPI) : List Signal :=
  s.trace.filterMap (fun a => match a with
    | Action.emitted sig => some sig
    | _ => none)

end AppsAPI

/-! ## The buttons -/

namespace AppsAPI

/-- The slot `AppsAPI::leftHeld`. The pointer returned for the current Application is
dereferenced without a test; `none` is the fault of dereferencing the null pointer that
`getApplication` returns when the path names no Application. -/
def leftHeld (s : AppsAPI) : Option AppsAPI :=
  match getApplication s (currentApplication s) with
  | none => none
  | some (_, current) =>
    if current.state ≠ AppState.Inactive ∧ current.path = s.m_startupApplication then some s
    else
      match getApplication s s.m_startupApplication with
      | some (key, _) => some (Application.launch s key)
      | none => some s

/-- The slot `AppsAPI::homeHeld`. -/
def homeHeld (s : AppsAPI) : AppsAPI :=
  match getApplicationByName s "codes.eeems.erode" with
  | none => s
  | some app =>
    if app.state = AppState.InForeground then s
    else Application.launch s "codes.eeems.erode"

end AppsAPI

/-! ## Reconciliation -/

namespace Application

/-- Modelled from the spec: `Application::unregister()`, by which reconciliation
unregisters an Application: the Application held under `key` is taken out of the registry
by `unregisterApplication(Application*)`. -/
def unregister (s : AppsAPI) (key : String) (app : Application) : AppsAPI :=
  AppsAPI.unregisterApplicationPtr s key app

end Application

namespace AppsAPI

/-- The number that a list of decimal digits writes. -/
def decimalValue : List Char → Nat
  | [] => 0
  | c :: cs => (c.toNat - 48) * 10 ^ cs.length + decimalValue cs

/-- The group of `settings` inside the array `applications` after `setArrayIndex(i)`. -/
def arrayGroup (i : Nat) : String :=
  "applications/" ++ toString (i + 1) ++ "/"

/-- The inner loop of `writeApplications` when `settings` is inside the group `group`. -/
def writeConfigIn (group : String) (settings : QMap QVariant) (i : Nat) (config : QVariantMap) :
    QMap QVariant :=
  (QMap.keys config).foldl
    (fun st key =>
      QMap.insert st (group ++ arrayGroup i ++ key) (QMap.value config key QVariant.invalid))
    settings

/-- The method `AppsAPI::writeApplications` called while `settings` is inside the group
`group`: `beginWriteArray` adds its array to the current group, so the array is written
below `group`. -/
def writeApplicationsIn (group : String) (s : AppsAPI) : AppsAPI :=
  let apps := QMap.values s.applications
  let size := apps.length
  let start := QMap.insert s.settings (group ++ "applications/size") (QVariant.int size)
  { s with
    settings := (List.range size).foldl
      (fun st i =>
        match apps.get? i with
        | some app => writeConfigIn group st i app.getConfig
        | none => st)
      start }

/-- The method `AppsAPI::registerApplication` called while `settings` is inside the group
`group`. -/
def registerApplicationIn (group : String) (env : Env) (s : AppsAPI)
    (properties : QVariantMap) : String × AppsAPI :=
  let name := propName properties
  let bin := propBin properties
  let type := propType properties
  if type < Foreground ∨ type > Background ∨ name.isEmpty = true ∨ bin.isEmpty = true
      ∨ env.fileExists bin = false then
    ("/", s)
  else
    match QMap.find? s.applications name with
    | some existing => (existing.qPath, s)
    | none =>
      let path := getPath env name
      let app := (Application.create path).setConfig properties
      let s1 := { s with
        applications := QMap.insert s.applications name app
        trace := s.trace ++ [Action.inserted name] }
      let s2 := writeApplicationsIn group s1
      let s3 := Application.call s2 name Method.registerPath
      (path, { s3 with trace := s3.trace ++ [Action.emitted (Signal.applicationRegistered path)] })

/-- The call `settings.beginReadArray("applications")`: the stored size, as the number of
rounds of a loop `for(int i = 0; i < size; ++i)`. -/
def beginReadArray (s : AppsAPI) : Nat :=
  (QMap.value s.settings "applications/size" QVariant.invalid).toInt.toNat

/-- The call `settings.value(key, dflt)` at index `i` of the array. -/
def recordValue (s : AppsAPI) (i : Nat) (key : String) (dflt : QVariant) : QVariant :=
  QMap.value s.settings (arrayGroup i ++ key) dflt

/-- The call `settings.contains(key)` at index `i` of the array. -/
def recordContains (s : AppsAPI) (i : Nat) (key : String) : Bool :=
  QMap.contains s.settings (arrayGroup i ++ key)

/-- The names of the persisted records, as step 1 of `readApplications` collects them. -/
def persistedNames (s : AppsAPI) : List String :=
  (List.range (beginReadArray s)).map
    (fun i => (recordValue s i "name" QVariant.invalid).toString)

/-- Step 1 of `readApplications` (lines 287 to 301): in a registry that is not empty,
every Application that is not system-flagged and whose name is not among the persisted
names is unregistered. `applications[name]` for a key that has left the map puts a null
pointer into the map, which is dereferenced here or in the loop over
`applications.values()` further down; `none` is that fault. -/
def unregisterAbsent (s : AppsAPI) : Option AppsAPI :=
  if s.applications.isEmpty then some s
  else
    let names := persistedNames s
    (QMap.keys s.applications).foldlM
      (fun st name =>
        match QMap.find? st.applications name with
        | none => none
        | some app =>
          if !names.contains name && !app.systemApp then some (Application.unregister st name app)
          else some st)
      s

/-- The test of step 1 of `readApplications`: an Application stays when its name is among
the persisted names or it is system-flagged. -/
def keptByStep1 (names : List String) (e : String × Application) : Bool :=
  names.contains e.1 || e.2.systemApp

/-- A `QMap` built from an initializer list. -/
def ofList {V : Type} (l : List (String × V)) : QMap V :=
  l.foldl (fun m e => QMap.insert m e.1 e.2) []

/-- The properties that step 2 of `readApplications` builds from the record at index `i`
(lines 305 to 331); `none` when the record is skipped. -/
def recordProperties (s : AppsAPI) (i : Nat) : Option QVariantMap :=
  let name := (recordValue s i "name" QVariant.invalid).toString
  let displayName := (recordValue s i "displayName" (QVariant.str name)).toString
  let type := (recordValue s i "type" (QVariant.int Foreground)).toInt
  let bin := (recordValue s i "bin" QVariant.invalid).toString
  if type < Foreground ∨ type > Background ∨ name.isEmpty = true ∨ bin.isEmpty = true then none
  else
    let properties : QVariantMap := ofList
      [("name", QVariant.str name),
       ("displayName", QVariant.str displayName),
       ("description",
          QVariant.str (recordValue s i "description" (QVariant.str displayName)).toString),
       ("bin", QVariant.str bin),
       ("type", QVariant.int type),
       ("flags", QVariant.strList (recordValue s i "flags" (QVariant.strList [])).toStringList),
       ("icon", QVariant.str (recordValue s i "icon" (QVariant.str "")).toString),
       ("onPause", QVariant.str (recordValue s i "onPause" (QVariant.str "")).toString),
       ("onResume", QVariant.str (recordValue s i "onResume" (QVariant.str "")).toString),
       ("onStop", QVariant.str (recordValue s i "onStop" (QVariant.str "")).toString),
       ("environment", QVariant.map (recordValue s i "environment" (QVariant.map [])).toMap),
       ("workingDirectory",
          QVariant.str (recordValue s i "workingDirectory" (QVariant.str "")).toString)]
    let properties :=
      if recordContains s i "user" then
        QMap.insert properties "user"
          (QVariant.str (recordValue s i "user" (QVariant.str "")).toString)
      else properties
    let properties :=
      if recordContains s i "group" then
        QMap.insert properties "group"
          (QVariant.str (recordValue s i "group" (QVariant.str "")).toString)
      else properties
    some properties

/-- One round of the loop of step 2 of `readApplications` (lines 303 to 338). The loop
runs between `beginReadArray` and `endArray`, so what `writeApplications` writes in it
goes below the group of the record that is being read. -/
def readRecord (env : Env) (s : AppsAPI) (i : Nat) : AppsAPI :=
  match recordProperties s i with
  | none => s
  | some properties =>
    let name := (recordValue s i "name" QVariant.invalid).toString
    if QMap.contains s.applications name then
      writeApplicationsIn (arrayGroup i)
        { s with applications :=
            QMap.modify s.applications name (fun a => a.setConfig properties) }
    else
      (registerApplicationIn (arrayGroup i) env s properties).2

/-- Step 2 of `readApplications`: every persisted record in turn. -/
def readPersisted (env : Env) (s : AppsAPI) : AppsAPI :=
  (List.range (beginReadArray s)).foldl (readRecord env) s

/-- The scan of the descriptor directory (lines 340 to 353): the map `apps` from the
complete base name of each descriptor that can be opened to its JSON object, with the
member `name` set to that base name. -/
def scanDescriptors (env : Env) : QMap QJsonObject :=
  env.descriptors.foldl
    (fun apps entry =>
      match entry.2 with
      | none => apps
      | some app => QMap.insert apps entry.1 (QMap.insert app "name" (QJsonValue.string entry.1)))
    []

/-- One round of the loop over `applications.values()` (lines 355 to 363), on the registry
and the map `apps` as they stand. -/
def matchDescriptor (acc : AppsAPI × QMap QJsonObject) (entry : String × Application) :
    AppsAPI × QMap QJsonObject :=
  let name := entry.2.name
  if !QMap.contains acc.2 name then acc
  else if !entry.2.systemApp then (Application.unregister acc.1 entry.1 entry.2, acc.2)
  else (acc.1, QMap.remove acc.2 name)

/-- The loop over `applications.values()` (lines 354 to 364): an Application without a
descriptor is passed over, an Application with a descriptor that is not system-flagged is
unregistered, and the descriptor of a system-flagged Application leaves `apps`. -/
def matchDescriptors (s : AppsAPI) (apps : QMap QJsonObject) : AppsAPI × QMap QJsonObject :=
  s.applications.foldl matchDescriptor (s, apps)

/-- The type string of a descriptor (line 368). -/
def descriptorTypeString (env : Env) (app : QJsonObject) : String :=
  if QMap.contains app "type" then env.toLower (jsonAt app "type").toString else ""

/-- The application type that lines 367 to 375 derive from a descriptor. -/
def descriptorType (env : Env) (app : QJsonObject) : Int :=
  if descriptorTypeString env app = "background" then Background
  else if descriptorTypeString env app = "backgroundable" then Backgroundable
  else Foreground

/-- The flags that lines 381 to 389 build from a descriptor. -/
def descriptorFlags (app : QJsonObject) : List String :=
  if QMap.contains app "flags" then
    (jsonAt app "flags").toArray.foldl
      (fun flags flag =>
        if !flag.toString.isEmpty && flag.toString != "system" then flags ++ [flag.toString]
        else flags)
      ["system"]
  else ["system"]

/-- The flags a descriptor declares: the strings of the array under `flags`. -/
def declaredFlags (app : QJsonObject) : List String :=
  if QMap.contains app "flags" then (jsonAt app "flags").toArray.map QJsonValue.toString
  else []

/-- The statement `if(app.contains(key)){ properties.insert(target, app[key].toString()); }`
of lines 396 to 413. -/
def insertMember (app : QJsonObject) (key : String) (properties : QVariantMap) : QVariantMap :=
  if QMap.contains app key then
    QMap.insert properties key (QVariant.str (jsonAt app key).toString)
  else properties

/-- The loop over `events.keys()` (lines 416 to 424). -/
def insertEvents (events : QJsonObject) (properties : QVariantMap) : QVariantMap :=
  (QMap.keys events).foldl
    (fun props event =>
      if event = "stop" then
        QMap.insert props "onStop" (QVariant.str (jsonAt events event).toString)
      else if event = "pause" then
        QMap.insert props "pause" (QVariant.str (jsonAt events event).toString)
      else if event = "resume" then
        QMap.insert props "resume" (QVariant.str (jsonAt events event).toString)
      else props)
    properties

/-- The properties that lines 366 to 432 build from a descriptor; `none` when the binary
does not exist and the descriptor is skipped. The map built from the member `environment`
(lines 426 to 432) is never put into the properties, so it does not appear here. -/
def descriptorProperties (env : Env) (app : QJsonObject) : Option QVariantMap :=
  let name := (jsonAt app "name").toString
  let type := descriptorType env app
  let bin := (jsonAt app "bin").toString
  if env.fileExists bin = false then none
  else
    let flags := descriptorFlags app
    let properties : QVariantMap := ofList
      [("name", QVariant.str name), ("bin", QVariant.str bin), ("type", QVariant.int type),
       ("flags", QVariant.strList flags)]
    let properties := insertMember app "displayName" properties
    let properties := insertMember app "description" properties
    let properties := insertMember app "icon" properties
    let properties := insertMember app "user" properties
    let properties := insertMember app "group" properties
    let properties := insertMember app "workingDirectory" properties
    let properties :=
      if QMap.contains app "events" then insertEvents (jsonAt app "evnets").toObject properties
      else properties
    some properties

/-- One round of the loop over the descriptors left in `apps` (lines 365 to 439). -/
def registerDescriptor (env : Env) (s : AppsAPI) (app : QJsonObject) : AppsAPI :=
  match descriptorProperties env app with
  | none => s
  | some properties =>
    let name := (jsonAt app "name").toString
    if QMap.contains s.applications name then
      writeApplications
        { s with applications :=
            QMap.modify s.applications name (fun a => a.setConfig properties) }
    else
      (registerApplication env s properties).2

/-- The loop over the descriptors left in `apps`. -/
def registerDescriptors (env : Env) (s : AppsAPI) (apps : QMap QJsonObject) : AppsAPI :=
  (QMap.values apps).foldl (registerDescriptor env) s

/-- The method `AppsAPI::readApplications`. The call `settings.sync()` rereads the store
from disk; the store is taken as it stands in `settings`. -/
def readApplications (env : Env) (s : AppsAPI) : Option AppsAPI :=
  match unregisterAbsent s with
  | none => none
  | some s1 =>
    let s2 := readPersisted env s1
    let matched := matchDescriptors s2 (scanDescriptors env)
    some (registerDescriptors env matched.1 matched.2)

/-- The method `AppsAPI::reload`. -/
def reload (env : Env) (s : AppsAPI) : Option AppsAPI :=
  (readApplications env s).map writeApplications

/-- The Application held under `key` is system-flagged once steps 1 and 2 of
`readApplications` have run. -/
def systemAfterStep2 (env : Env) (s : AppsAPI) (key : String) : Bool :=
  match unregisterAbsent s with
  | none => false
  | some s1 =>
    match QMap.find? (readPersisted env s1).applications key with
    | none => false
    | some app => app.systemApp

/-- The macro `OXIDE_SETTINGS_VERSION`. -/
def OXIDE_SETTINGS_VERSION : Int := 1

end AppsAPI

/-! ## The settings of the lock screen -/

namespace Controller

end Controller

/-- A call of one of the three methods that change the registry or the startup
Application. -/
inductive Op where
  | register (properties : QVariantMap)
  | unregister (path : String)
  | setStartup (path : String)
  deriving DecidableEq, Repr

/-- The registry after one call. -/
def step (env : Env) (s : AppsAPI) : Op → AppsAPI
  | Op.register properties => (AppsAPI.registerApplication env s properties).2
  | Op.unregister path => (AppsAPI.unregisterApplication s path).2
  | Op.setStartup path => AppsAPI.setStartupApplication s path

/-- The registry after a sequence of calls. -/
def run (env : Env) (s : AppsAPI) (ops : List Op) : AppsAPI :=
  ops.foldl (step env) s

/-- The states a sequence of calls passes through, the first and the last included. -/
def statesAlong (env : Env) (s : AppsAPI) : List Op → List AppsAPI
  | [] => [s]
  | op :: ops => s :: statesAlong env (step env s op) ops

/-- A call that the registry can receive: a method of `AppsAPI`, a button, or `launch`,
`pause` and `stop` on the Application held under a key. -/
inductive Call where
  | registerApplication (properties : QVariantMap)
  | unregisterApplication (path : String)
  | launch (key : String)
  | pause (key : String) (arg : Bool)
  | stop (key : String)
  | pauseAll
  | resumeIfNone
  | leftHeld
  | homeHeld

/-- The registry after one call; `none` when the call faults. -/
def perform (env : Env) (s : AppsAPI) : Call → Option AppsAPI
  | Call.registerApplication properties => some (AppsAPI.registerApplication env s properties).2
  | Call.unregisterApplication path => some (AppsAPI.unregisterApplication s path).2
  | Call.launch key => some (Application.launch s key)
  | Call.pause key arg => some (Application.pause s key arg)
  | Call.stop key => some (Application.stop s key)
  | Call.pauseAll => some (AppsAPI.pauseAll s)
  | Call.resumeIfNone => some (AppsAPI.resumeIfNone s)
  | Call.leftHeld => AppsAPI.leftHeld s
  | Call.homeHeld => some (AppsAPI.homeHeld s)

/-- The registry after a sequence of calls; `none` when one of them faults. -/
def performAll (env : Env) (s : AppsAPI) : List Call → Option AppsAPI
  | [] => some s
  | call :: calls =>
    match perform env s call with
    | none => none
    | some s1 => performAll env s1 calls

/-- The number of registered Applications whose state is `InForeground`. -/
def foregroundCount (s : AppsAPI) : Nat :=
  (s.applications.filter (fun e => e.2.state == AppState.InForeground)).length

/-- The registry seen from outside: for each registered name, the object path and the
lifecycle state of its Application. -/
def registered (s : AppsAPI) : List (String × String × AppState) :=
  s.applications.map (fun e => (e.1, e.2.path, e.2.state))

/-- The registry keeps its keys from `s` to `s1`. -/
def KeysKept (s s1 : AppsAPI) : Prop :=
  ∀ k, QMap.contains s.applications k = true → QMap.contains s1.applications k = true

/-- No Application is held under the empty name. -/
def NamedKeys (s : AppsAPI) : Prop :=
  ∀ e ∈ s.applications, e.1 ≠ ""

instance (s : AppsAPI) : Decidable (NamedKeys s) := by
  unfold NamedKeys
  infer_instance

/-- No startup Application is set: the path is the empty path of a default-constructed
`QDBusObjectPath`, or the path `/` that the registry uses for "no Application". -/
def isUnset (path : String) : Bool :=
  path == "" || path == "/"

/-- The path resolves to a registered Application. -/
def resolves (s : AppsAPI) (path : String) : Bool :=
  (AppsAPI.getApplication s path).isSome

/-- Every Application is held under its own name, as `registerApplication` stores it. -/
def KeyedByName (s : AppsAPI) : Prop :=
  ∀ e ∈ s.applications, e.2.name = e.1

instance (s : AppsAPI) : Decidable (KeyedByName s) := by
  unfold KeyedByName
  infer_instance

/-- No two entries of the registry have the same key. -/
def UniqueKeys (s : AppsAPI) : Prop :=
  (QMap.keys s.applications).Nodup

/-- The invariant of the foreground: distinct keys, and at most one Application whose
state is `InForeground`. -/
def OneForeground (s : AppsAPI) : Prop :=
  UniqueKeys s ∧ foregroundCount s ≤ 1

/-- The registry is well-formed: every Application is held under its own name, the keys
are distinct, and none of them is empty. Every registry reached from the empty one by the
methods of `AppsAPI` is. -/
def WellFormed (s : AppsAPI) : Prop :=
  KeyedByName s ∧ UniqueKeys s ∧ NamedKeys s

/-- The validation of `registerApplication` (line 76) turns the properties down. -/
def refuses (env : Env) (properties : QVariantMap) : Prop :=
  AppsAPI.propType properties < Foreground ∨ AppsAPI.propType properties > Background
    ∨ (AppsAPI.propName properties).isEmpty = true
    ∨ (AppsAPI.propBin properties).isEmpty = true
    ∨ env.fileExists (AppsAPI.propBin properties) = false

/-- Reconciliation cannot register the descriptor: its binary does not exist, or the
validation of `registerApplication` turns its properties down. -/
def Refused (env : Env) (app : QJsonObject) : Prop :=
  match AppsAPI.descriptorProperties env app with
  | none => True
  | some properties => refuses env properties

/-- The registry is reconciled with the descriptor directory: it is well-formed, every
Application whose name has a descriptor is system-flagged, and every descriptor whose
name is not registered cannot be registered. -/
def Reconciled (env : Env) (s : AppsAPI) : Prop :=
  WellFormed s
  ∧ (∀ e ∈ s.applications,
      QMap.contains (AppsAPI.scanDescriptors env) e.1 = true → e.2.systemApp = true)
  ∧ (∀ e ∈ AppsAPI.scanDescriptors env,
      QMap.contains s.applications e.1 = false → Refused env e.2)

/-- The registry `st` follows the registry `t` as `writeApplications` has persisted it:
the same names with the same object paths and lifecycle states, the same trace, the names
and the flags of the records as `writeApplications` wrote them for `t`, every Application
that is system-flagged in `t` system-flagged in `st`, and `st` well-formed. -/
def Follows (t st : AppsAPI) : Prop :=
  registered st = registered t
  ∧ st.trace = t.trace
  ∧ (∀ m f, (f = "name" ∨ f = "flags") →
      QMap.find? st.settings (AppsAPI.arrayGroup m ++ f)
        = QMap.find? (AppsAPI.writeApplications t).settings (AppsAPI.arrayGroup m ++ f))
  ∧ (∀ k a a1, (k, a) ∈ t.applications → (k, a1) ∈ st.applications →
      a.systemApp = true → a1.systemApp = true)
  ∧ WellFormed st

/-- The name occurs among the names of the persisted records: at an index below the size
stored for the array `applications`, the store holds a record whose `name` reads as the
name. This is stated on the keys of the store as `QSettings` lays an array out,
`applications/size` and `applications/<index + 1>/name`. -/
def persistedIn (settings : QMap QVariant) (name : String) : Prop :=
  ∃ i : Nat, (i : Int) < (QMap.value settings "applications/size" QVariant.invalid).toInt
    ∧ (QMap.value settings ("applications/" ++ toString (i + 1) ++ "/name")
        QVariant.invalid).toString = name

/-- The number of Applications the registry holds under a name. -/
def countUnder (s : AppsAPI) (name : String) : Nat :=
  (s.applications.filter (fun e => e.1 == name)).length

/-- Some Application is in the foreground. -/
def anyInForeground (s : AppsAPI) : Bool :=
  List.any s.applications (fun e => e.2.state == AppState.InForeground)

/-- In a sequence of steps, a `stop` of the Application under `key` comes before the
removal of `name` from the map. -/
def stopPrecedesRemoval (key name : String) : List Action → Bool
  | [] => false
  | a :: rest =>
    if a = Action.called key Method.stop then rest.contains (Action.removed name)
    else stopPrecedesRemoval key name rest

/-! ## Concrete registries -/

/-- Lower case of the letters `A` to `Z`, the other characters left as they are. -/
def asciiLower (s : String) : String :=
  String.mk (s.data.map Char.toLower)

/-- An environment in which the binaries of `reader` and `clock` exist and the descriptor
directory is empty. -/
def env0 : Env :=
  { createUuidV5 := fun name => "uuid5-" ++ name
    fileExists := fun p => p == "/opt/bin/reader" || p == "/opt/bin/clock"
    toLower := asciiLower
    descriptors := [] }

/-- The registry with no Application, no setting and no startup Application. -/
def emptyRegistry : AppsAPI :=
  { m_stopping := false, m_enabled := true, applications := [], settings := [],
    m_startupApplication := "/", m_sleeping := false, trace := [] }

/-- The properties `{name:"reader", bin:"/opt/bin/reader", type:Foreground}`. -/
def readerProps : QVariantMap :=
  [("bin", QVariant.str "/opt/bin/reader"), ("name", QVariant.str "reader"),
   ("type", QVariant.int Foreground)]

/-- The properties `{name:"clock", bin:"/opt/bin/clock", type:Backgroundable}`. -/
def clockProps : QVariantMap :=
  [("bin", QVariant.str "/opt/bin/clock"), ("name", QVariant.str "clock"),
   ("type", QVariant.int Backgroundable)]

/-- The properties of a system application, as reconciliation builds them. -/
def erodeProps : QVariantMap :=
  [("bin", QVariant.str "/opt/bin/erode"), ("flags", QVariant.strList ["system"]),
   ("name", QVariant.str "codes.eeems.erode"), ("type", QVariant.int Background)]

/-- The object path of `reader` in `env0`. -/
def readerPath : String := "/codes/eeems/oxide1/apps/uuid5-reader"

/-- The object path of the system application in `env0`. -/
def erodePath : String := "/codes/eeems/oxide1/apps/uuid5-codes.eeems.erode"

/-- The descriptor `codes.eeems.erode.oxide`: a background application with the hooks
`stop`, `pause` and `resume` and two declared flags. -/
def erodeDescriptor : QJsonObject :=
  [("bin", QJsonValue.string "/opt/bin/erode"),
   ("events", QJsonValue.object
      [("pause", QJsonValue.string "erode --pause"),
       ("resume", QJsonValue.string "erode --resume"),
       ("stop", QJsonValue.string "erode --stop")]),
   ("flags", QJsonValue.array [QJsonValue.string "system", QJsonValue.string "chroot"]),
   ("type", QJsonValue.string "Background")]

/-- The descriptor `clock.oxide`: no type, no flags. -/
def clockDescriptor : QJsonObject :=
  [("bin", QJsonValue.string "/opt/bin/clock")]

/-- An environment like `env0` in which the binary of the process manager exists too and
the descriptor directory holds `codes.eeems.erode.oxide`. -/
def env1 : Env :=
  { env0 with
    fileExists := fun p => p == "/opt/bin/reader" || p == "/opt/bin/clock" || p == "/opt/bin/erode"
    descriptors := [("codes.eeems.erode", some erodeDescriptor)] }

/-- An environment like `env0` whose descriptor directory holds `codes.eeems.erode.oxide`,
while the binary the descriptor names does not exist. -/
def env3 : Env :=
  { env0 with descriptors := [("codes.eeems.erode", some erodeDescriptor)] }

/-- An environment like `env0` whose descriptor directory holds `clock.oxide`. -/
def env2 : Env :=
  { env0 with descriptors := [("clock", some clockDescriptor)] }

/-- The Application `reader`, in the foreground. -/
def readerApp : Application :=
  { path := readerPath, config := readerProps, state := AppState.InForeground }

/-- The system application, not running. -/
def erodeApp : Application :=
  { path := erodePath, config := erodeProps, state := AppState.Inactive }

/-- A registry that holds the system application alone, with a persisted record of its
name that carries no flags. -/
def erodeWithoutFlags : AppsAPI :=
  { emptyRegistry with
    applications := [("codes.eeems.erode", erodeApp)]
    settings :=
      [("applications/1/bin", QVariant.str "/opt/bin/erode"),
       ("applications/1/name", QVariant.str "codes.eeems.erode"),
       ("applications/1/type", QVariant.int Background),
       ("applications/size", QVariant.int 1)] }

/-- A registry that holds `reader`, in the foreground, and one system application. -/
def twoApps : AppsAPI :=
  { emptyRegistry with
    applications := [("codes.eeems.erode", erodeApp), ("reader", readerApp)] }

/-- A registry that holds the system application alone, with nothing in the store. -/
def erodeAlone : AppsAPI :=
  { emptyRegistry with applications := [("codes.eeems.erode", erodeApp)] }

/-- The descriptor `reader.oxide`: the binary and a display name. -/
def readerDescriptor : QJsonObject :=
  [("bin", QJsonValue.string "/opt/bin/reader"),
   ("displayName", QJsonValue.string "Reader")]

/-- An environment like `env0` whose descriptor directory holds `reader.oxide`. -/
def env4 : Env :=
  { env0 with descriptors := [("reader", some readerDescriptor)] }

/-- A registry that holds `reader` alone, in the foreground and not system-flagged, with
its record persisted. -/
def readerAlone : AppsAPI :=
  AppsAPI.writeApplications { emptyRegistry with applications := [("reader", readerApp)] }

/-- The Application `clock`, of type Foreground, not running. -/
def clockApp : Application :=
  { path := "/codes/eeems/oxide1/apps/uuid5-clock"
    config := [("bin", QVariant.str "/opt/bin/clock"), ("name", QVariant.str "clock"),
      ("type", QVariant.int Foreground)]
    state := AppState.Inactive }

/-- A registry that holds `clock`, the system application and `reader`, with a store that
holds one record, the record of `reader`. -/
def threeApps : AppsAPI :=
  { emptyRegistry with
    applications :=
      [("clock", clockApp), ("codes.eeems.erode", erodeApp), ("reader", readerApp)]
    settings :=
      [("applications/1/bin", QVariant.str "/opt/bin/reader"),
       ("applications/1/name", QVariant.str "reader"),
       ("applications/1/type", QVariant.int Foreground),
       ("applications/size", QVariant.int 1)] }

/-! ## Facts about the map operations -/

namespace QMap

variable {V : Type}

theorem find?_remove_self (m : QMap V) (k : String) : find? (remove m k) k = none := by
  induction m with
  | nil => rfl
  | cons e rest ih =>
    obtain ⟨k', v⟩ := e
    by_cases h : k' = k
    · simpa [remove, h] using ih
    · simpa [remove, h, find?] using ih

theorem find?_remove_other (m : QMap V) {k k' : String} (h : k' ≠ k) :
    find? (remove m k) k' = find? m k' := by
  induction m with
  | nil => rfl
  | cons e rest ih =>
    obtain ⟨k₁, v⟩ := e
    by_cases h₁ : k₁ = k
    · subst h₁
      simpa [remove, find?, Ne.symm h] using ih
    · by_cases h₂ : k₁ = k'
      · subst h₂
        simp [remove, h₁, find?]
      · simpa [remove, h₁, find?, h₂] using ih

theorem find?_place_self (m : QMap V) (k : String) (v : V) (h : find? m k = none) :
    find? (place k v m) k = some v := by
  induction m with
  | nil => simp [place, find?]
  | cons e rest ih =>
    obtain ⟨k', v'⟩ := e
    by_cases hk : k' = k
    · simp [find?, hk] at h
    · simp only [find?, hk, if_false] at h
      by_cases hlt : qStringLt k' k = true
      · simp [place, hlt, find?, hk, ih h]
      · simp [place, hlt, find?]

theorem find?_place_other (m : QMap V) {k k' : String} (v : V) (h : k' ≠ k) :
    find? (place k v m) k' = find? m k' := by
  induction m with
  | nil => simp [place, find?, Ne.symm h]
  | cons e rest ih =>
    obtain ⟨k₁, v₁⟩ := e
    by_cases hlt : qStringLt k₁ k = true
    · by_cases h₂ : k₁ = k'
      · subst h₂
        simp [place, hlt, find?]
      · simp [place, hlt, find?, h₂, ih]
    · simp [place, hlt, find?, Ne.symm h]

theorem find?_insert_self (m : QMap V) (k : String) (v : V) :
    find? (insert m k v) k = some v :=
  find?_place_self _ k v (find?_remove_self m k)

theorem find?_insert_other (m : QMap V) {k k' : String} (v : V) (h : k' ≠ k) :
    find? (insert m k v) k' = find? m k' := by
  rw [insert, find?_place_other _ v h, find?_remove_other m h]

theorem contains_eq_isSome (m : QMap V) (k : String) :
    contains m k = (find? m k).isSome := by
  induction m with
  | nil => rfl
  | cons e rest ih =>
    obtain ⟨k', v⟩ := e
    by_cases h : k' = k
    · simp [contains, find?, h]
    · simp only [contains, List.any_cons, find?, h, if_false] at ih ⊢
      simp [h, ih]

theorem mem_of_find? (m : QMap V) {k : String} {v : V} (h : find? m k = some v) :
    (k, v) ∈ m := by
  induction m with
  | nil => simp [find?] at h
  | cons e rest ih =>
    obtain ⟨k', v'⟩ := e
    by_cases hk : k' = k
    · simp only [find?, hk, if_true, Option.some.injEq] at h
      simp [hk, h]
    · simp only [find?, hk, if_false] at h
      exact List.mem_cons_of_mem _ (ih h)

theorem find?_isSome_of_mem (m : QMap V) {e : String × V} (h : e ∈ m) :
    (find? m e.1).isSome = true := by
  induction m with
  | nil => simp at h
  | cons e' rest ih =>
    obtain ⟨k', v'⟩ := e'
    by_cases hk : k' = e.1
    · simp [find?, hk]
    · rcases List.mem_cons.1 h with h | h
      · exact absurd (by rw [h]) hk
      · simpa [find?, hk] using ih h

theorem mem_place (k : String) (v : V) (m : QMap V) (e : String × V) :
    e ∈ place k v m ↔ e = (k, v) ∨ e ∈ m := by
  induction m with
  | nil => simp [place]
  | cons e' rest ih =>
    obtain ⟨k', v'⟩ := e'
    by_cases hlt : qStringLt k' k = true
    · simp only [place, hlt, if_true, List.mem_cons, ih]
      tauto
    · simp [place, hlt]

theorem mem_insert (m : QMap V) (k : String) (v : V) (e : String × V) :
    e ∈ insert m k v ↔ e = (k, v) ∨ (e ∈ m ∧ e.1 ≠ k) := by
  simp [insert, mem_place, remove, List.mem_filter]

theorem count_place (k : String) (v : V) (m : QMap V) :
    ((place k v m).filter (fun e => e.1 == k)).length
      = (m.filter (fun e => e.1 == k)).length + 1 := by
  induction m with
  | nil => simp [place]
  | cons e' rest ih =>
    obtain ⟨k', v'⟩ := e'
    by_cases hlt : qStringLt k' k = true
    · by_cases hk : k' = k
      · subst hk
        simp only [place, hlt, if_true, List.filter_cons, beq_self_eq_true, List.length_cons, ih]
      · simp [place, hlt, hk, List.filter_cons, ih]
    · simp [place, hlt, List.filter_cons]

theorem count_remove (m : QMap V) (k : String) :
    ((remove m k).filter (fun e => e.1 == k)).length = 0 := by
  simp [remove, List.filter_filter]

theorem count_of_nodup (m : QMap V) (k : String) (hnd : (keys m).Nodup)
    (h : (find? m k).isSome = true) : (m.filter (fun e => e.1 == k)).length = 1 := by
  induction m with
  | nil => simp [find?] at h
  | cons e' rest ih =>
    obtain ⟨k', v'⟩ := e'
    simp only [keys, List.map_cons, List.nodup_cons] at hnd
    by_cases hk : k' = k
    · subst hk
      have hnone : rest.filter (fun e => e.1 == k') = [] := by
        rw [List.filter_eq_nil_iff]
        intro e he hek
        exact hnd.1 (List.mem_map.2 ⟨e, he, by simpa using hek⟩)
      simp [List.filter_cons, hnone]
    · simp only [find?, hk, if_false] at h
      simpa [List.filter_cons, hk] using ih hnd.2 h

end QMap

/-! ## Registration -/

namespace AppsAPI

theorem writeApplications_applications (s : AppsAPI) :
    (writeApplications s).applications = s.applications := rfl

theorem writeApplications_trace (s : AppsAPI) :
    (writeApplications s).trace = s.trace := rfl

theorem writeApplications_startup (s : AppsAPI) :
    (writeApplications s).m_startupApplication = s.m_startupApplication := rfl

/-- A registration that fails validation returns `/` and the registry as it was. -/
theorem registerApplication_of_invalid (env : Env) (s : AppsAPI) (properties : QVariantMap)
    (h : propType properties < Foreground ∨ propType properties > Background
      ∨ (propName properties).isEmpty = true ∨ (propBin properties).isEmpty = true
      ∨ env.fileExists (propBin properties) = false) :
    registerApplication env s properties = ("/", s) := by
  unfold registerApplication
  simp only [if_pos h]

/-- A valid registration of a name that is already registered returns the path of the
Application held under it and the registry as it was. -/
theorem registerApplication_of_existing (env : Env) (s : AppsAPI) (properties : QVariantMap)
    (existing : Application)
    (h : ¬ (propType properties < Foreground ∨ propType properties > Background
      ∨ (propName properties).isEmpty = true ∨ (propBin properties).isEmpty = true
      ∨ env.fileExists (propBin properties) = false))
    (hfind : QMap.find? s.applications (propName properties) = some existing) :
    registerApplication env s properties = (existing.qPath, s) := by
  unfold registerApplication
  simp only [if_neg h, hfind]

/-- A valid registration of a new name: the path, the new map, the trace and the startup
Application. -/
theorem registerApplication_of_new (env : Env) (s : AppsAPI) (properties : QVariantMap)
    (h : ¬ (propType properties < Foreground ∨ propType properties > Background
      ∨ (propName properties).isEmpty = true ∨ (propBin properties).isEmpty = true
      ∨ env.fileExists (propBin properties) = false))
    (hfind : QMap.find? s.applications (propName properties) = none) :
    (registerApplication env s properties).1 = getPath env (propName properties)
    ∧ (registerApplication env s properties).2.applications
        = QMap.insert s.applications (propName properties)
            ((Application.create (getPath env (propName properties))).setConfig properties)
    ∧ (registerApplication env s properties).2.trace
        = s.trace ++ [Action.inserted (propName properties),
            Action.called (propName properties) Method.registerPath,
            Action.emitted (Signal.applicationRegistered (getPath env (propName properties)))]
    ∧ (registerApplication env s properties).2.m_startupApplication
        = s.m_startupApplication := by
  unfold registerApplication
  simp only [if_neg h, hfind]
  refine ⟨trivial, rfl, ?_, rfl⟩
  simp [Application.call, writeApplications]

/-- Registering twice with properties that pass the validation of `registerApplication`
(type `Foreground` or `Background`, non-empty name, non-empty bin that exists): both calls
return the same path, the second call leaves the registry as the first left it, and the
registry then holds exactly one Application under the name. -/
theorem registerApplication_twice_accepted (env : Env) (s : AppsAPI)
    (properties : QVariantMap)
    (hnd : (QMap.keys s.applications).Nodup)
    (htype : Foreground ≤ propType properties ∧ propType properties ≤ Background)
    (hname : (propName properties).isEmpty = false)
    (hbin : (propBin properties).isEmpty = false)
    (hfile : env.fileExists (propBin properties) = true) :
    (registerApplication env (registerApplication env s properties).2 properties).1
        = (registerApplication env s properties).1
    ∧ registerApplication env (registerApplication env s properties).2 properties
        = ((registerApplication env s properties).1, (registerApplication env s properties).2)
    ∧ countUnder (registerApplication env (registerApplication env s properties).2
        properties).2 (propName properties) = 1 := by
  have hvalid : ¬ (propType properties < Foreground ∨ propType properties > Background
      ∨ (propName properties).isEmpty = true ∨ (propBin properties).isEmpty = true
      ∨ env.fileExists (propBin properties) = false) := by
    simp only [hname, hbin, hfile, gt_iff_lt]
    simp only [Bool.false_eq_true, Bool.true_eq_false, or_false, not_or, not_lt]
    exact htype
  cases hfind : QMap.find? s.applications (propName properties) with
  | some existing =>
    have h1 := registerApplication_of_existing env s properties existing hvalid hfind
    rw [h1]
    simp only [h1]
    exact ⟨trivial, trivial, QMap.count_of_nodup _ _ hnd (by rw [hfind]; rfl)⟩
  | none =>
    obtain ⟨hp, ha, _, _⟩ := registerApplication_of_new env s properties hvalid hfind
    have hfind2 : QMap.find? (registerApplication env s properties).2.applications
        (propName properties)
        = some ((Application.create (getPath env (propName properties))).setConfig
            properties) := by
      rw [ha]; exact QMap.find?_insert_self _ _ _
    have h2 := registerApplication_of_existing env _ properties _ hvalid hfind2
    have hq : ((Application.create (getPath env (propName properties))).setConfig
        properties).qPath = (registerApplication env s properties).1 := by
      rw [hp]; rfl
    rw [h2, hq]
    refine ⟨rfl, rfl, ?_⟩
    simp only [countUnder, ha, QMap.insert, QMap.count_place, QMap.count_remove]

/-- C1 (evaluation of the code at a Backgroundable registration): `clock` has a name, an
existing binary and the type `Backgroundable`; registering it twice in the empty registry
returns `/` both times and leaves no Application under the name `clock`, where the
property asks for exactly one. -/
theorem registerApplication_twice_backgroundable :
    (propName clockProps = "clock" ∧ env0.fileExists (propBin clockProps) = true
      ∧ propType clockProps = Backgroundable)
    ∧ (registerApplication env0 emptyRegistry clockProps).1 = "/"
    ∧ (registerApplication env0 (registerApplication env0 emptyRegistry clockProps).2
        clockProps).1 = "/"
    ∧ countUnder (registerApplication env0
        (registerApplication env0 emptyRegistry clockProps).2 clockProps).2 "clock" = 0 := by
  decide

/-- C2 (evaluation of the code): every registration whose type is `Backgroundable` is
refused, whatever the registry, the name and the binary: the call returns `/` and the
registry is as before, so the name is not registered by it. -/
theorem registerApplication_backgroundable_refused (env : Env) (s : AppsAPI)
    (properties : QVariantMap) (h : propType properties = Backgroundable) :
    registerApplication env s properties = ("/", s) := by
  apply registerApplication_of_invalid
  right; left
  rw [h]
  decide

/-- C2, at `{name:"clock", bin:"/opt/bin/clock", type:Backgroundable}` with the binary in
place. -/
theorem registerApplication_backgroundable_refused_witness :
    (propName clockProps = "clock" ∧ env0.fileExists (propBin clockProps) = true
      ∧ propType clockProps = Backgroundable)
    ∧ registerApplication env0 emptyRegistry clockProps = ("/", emptyRegistry) :=
  ⟨by decide, registerApplication_backgroundable_refused env0 emptyRegistry clockProps
    (by decide)⟩

/-- C3, as the code has it: when the name is empty, the bin is empty, the bin does not
exist, or the type as line 75 reads it, `properties.value("type", Foreground).toInt()`, a
32 bit `int`, is outside the range of `ApplicationType`, `registerApplication` returns
the invalid path `/` and the registry after the call is the registry before it: same
applications, same settings, same events. -/
theorem registerApplication_invalid_unchanged (env : Env) (s : AppsAPI)
    (properties : QVariantMap)
    (h : (propName properties).isEmpty = true ∨ (propBin properties).isEmpty = true
      ∨ env.fileExists (propBin properties) = false
      ∨ propType properties < Foreground ∨ propType properties > Backgroundable) :
    (registerApplication env s properties).1 = "/"
    ∧ (registerApplication env s properties).2 = s
    ∧ (registerApplication env s properties).2.applications = s.applications
    ∧ (registerApplication env s properties).2.settings = s.settings
    ∧ events (registerApplication env s properties).2 = events s := by
  have h1 : registerApplication env s properties = ("/", s) := by
    apply registerApplication_of_invalid
    rcases h with h | h | h | h | h
    · exact Or.inr (Or.inr (Or.inl h))
    · exact Or.inr (Or.inr (Or.inr (Or.inl h)))
    · exact Or.inr (Or.inr (Or.inr (Or.inr h)))
    · exact Or.inl h
    · refine Or.inr (Or.inl ?_)
      have : (Background : Int) < Backgroundable := by decide
      exact lt_trans this h
  rw [h1]
  exact ⟨rfl, rfl, rfl, rfl, rfl⟩

/-- C3 at three registrations in a registry that holds two Applications: one with no
name, one of type 3 and one of type -1. Each returns `/` and leaves the registry as it
was. -/
theorem registerApplication_invalid_unchanged_witness :
    ((propName [("bin", QVariant.str "/opt/bin/clock")]).isEmpty = true
      ∧ (registerApplication env0 twoApps [("bin", QVariant.str "/opt/bin/clock")]).1 = "/"
      ∧ (registerApplication env0 twoApps [("bin", QVariant.str "/opt/bin/clock")]).2
          = twoApps)
    ∧ (propType [("bin", QVariant.str "/opt/bin/clock"), ("name", QVariant.str "clock"),
          ("type", QVariant.int 3)] = 3
      ∧ registerApplication env0 twoApps
          [("bin", QVariant.str "/opt/bin/clock"), ("name", QVariant.str "clock"),
           ("type", QVariant.int 3)] = ("/", twoApps))
    ∧ (propType [("bin", QVariant.str "/opt/bin/clock"), ("name", QVariant.str "clock"),
          ("type", QVariant.int (-1))] = -1
      ∧ registerApplication env0 twoApps
          [("bin", QVariant.str "/opt/bin/clock"), ("name", QVariant.str "clock"),
           ("type", QVariant.int (-1))] = ("/", twoApps)) :=
  ⟨⟨by decide,
    (registerApplication_invalid_unchanged env0 twoApps [("bin", QVariant.str "/opt/bin/clock")]
      (Or.inl (by decide))).1,
    (registerApplication_invalid_unchanged env0 twoApps [("bin", QVariant.str "/opt/bin/clock")]
      (Or.inl (by decide))).2.1⟩,
   ⟨by decide,
    Prod.ext
      (registerApplication_invalid_unchanged env0 twoApps
        [("bin", QVariant.str "/opt/bin/clock"), ("name", QVariant.str "clock"),
         ("type", QVariant.int 3)]
        (Or.inr (Or.inr (Or.inr (Or.inr (by decide)))))).1
      (registerApplication_invalid_unchanged env0 twoApps
        [("bin", QVariant.str "/opt/bin/clock"), ("name", QVariant.str "clock"),
         ("type", QVariant.int 3)]
        (Or.inr (Or.inr (Or.inr (Or.inr (by decide)))))).2.1⟩,
   ⟨by decide,
    Prod.ext
      (registerApplication_invalid_unchanged env0 twoApps
        [("bin", QVariant.str "/opt/bin/clock"), ("name", QVariant.str "clock"),
         ("type", QVariant.int (-1))]
        (Or.inr (Or.inr (Or.inr (Or.inl (by decide)))))).1
      (registerApplication_invalid_unchanged env0 twoApps
        [("bin", QVariant.str "/opt/bin/clock"), ("name", QVariant.str "clock"),
         ("type", QVariant.int (-1))]
        (Or.inr (Or.inr (Or.inr (Or.inl (by decide)))))).2.1⟩⟩

/-- C3 as stated fails. The properties name `clock`, whose binary exists, and carry the
type 4294967296, which is outside the range of `ApplicationType`, once as a 64 bit integer
and once as text. Line 75 converts the value to an `int`, which is 0, so the validation
passes: the call returns the object path of a new Application, `clock` is registered and
`applicationRegistered` is emitted. -/
theorem registerApplication_wide_type_accepted :
    (QMap.find? [("bin", QVariant.str "/opt/bin/clock"), ("name", QVariant.str "clock"),
        ("type", QVariant.int 4294967296)] "type" = some (QVariant.int 4294967296)
      ∧ propType [("bin", QVariant.str "/opt/bin/clock"), ("name", QVariant.str "clock"),
        ("type", QVariant.int 4294967296)] = Foreground
      ∧ (registerApplication env0 emptyRegistry
          [("bin", QVariant.str "/opt/bin/clock"), ("name", QVariant.str "clock"),
           ("type", QVariant.int 4294967296)]).1 = "/codes/eeems/oxide1/apps/uuid5-clock"
      ∧ QMap.keys (registerApplication env0 emptyRegistry
          [("bin", QVariant.str "/opt/bin/clock"), ("name", QVariant.str "clock"),
           ("type", QVariant.int 4294967296)]).2.applications = ["clock"]
      ∧ events (registerApplication env0 emptyRegistry
          [("bin", QVariant.str "/opt/bin/clock"), ("name", QVariant.str "clock"),
           ("type", QVariant.int 4294967296)]).2
          = [Signal.applicationRegistered "/codes/eeems/oxide1/apps/uuid5-clock"])
    ∧ (propType [("bin", QVariant.str "/opt/bin/clock"), ("name", QVariant.str "clock"),
        ("type", QVariant.str "4294967296")] = Foreground
      ∧ (registerApplication env0 emptyRegistry
          [("bin", QVariant.str "/opt/bin/clock"), ("name", QVariant.str "clock"),
           ("type", QVariant.str "4294967296")]).1 = "/codes/eeems/oxide1/apps/uuid5-clock"
      ∧ QMap.keys (registerApplication env0 emptyRegistry
          [("bin", QVariant.str "/opt/bin/clock"), ("name", QVariant.str "clock"),
           ("type", QVariant.str "4294967296")]).2.applications = ["clock"]) :=
  ⟨⟨by decide, by decide, by decide, by decide, by decide⟩,
   ⟨by decide, by decide, by decide⟩⟩

/-! ## Unregistration -/

theorem getApplication_some (s : AppsAPI) (path key : String) (app : Application)
    (h : getApplication s path = some (key, app)) :
    (key, app) ∈ s.applications ∧ app.path = path := by
  unfold getApplication at h
  refine ⟨List.mem_of_find?_eq_some h, ?_⟩
  simpa using List.find?_some h

/-- The method `unregisterApplication(Application*)` on an Application that is held under
its own name: the entry goes, and three steps are added to the trace. -/
theorem unregisterApplicationPtr_of_keyed (s : AppsAPI) (key : String) (app : Application)
    (hwf : KeyedByName s) (hmem : (key, app) ∈ s.applications) :
    (unregisterApplicationPtr s key app).applications = QMap.remove s.applications app.name
    ∧ (unregisterApplicationPtr s key app).trace
        = s.trace ++ [Action.removed app.name,
            Action.emitted (Signal.applicationUnregistered app.path),
            Action.called key Method.deleteLater]
    ∧ (unregisterApplicationPtr s key app).m_startupApplication = s.m_startupApplication := by
  have hname : app.name = key := hwf (key, app) hmem
  have hc : QMap.contains s.applications app.name = true := by
    rw [QMap.contains_eq_isSome, hname]
    exact QMap.find?_isSome_of_mem _ hmem
  unfold unregisterApplicationPtr
  simp only [hc, if_true]
  refine ⟨rfl, ?_, rfl⟩
  simp [Application.call, writeApplications, Application.qPath]

/-- C4: `unregisterApplication(p)` returns false exactly when `p` resolves to a registered
Application that is system-flagged; when `p` resolves to a system-flagged Application
(result false) or to no Application (result true), the registry after the call is the
registry before it, with its applications, settings and events. -/
theorem unregisterApplication_false_iff_system (s : AppsAPI) (path : String) :
    ((unregisterApplication s path).1 = false
      ↔ ∃ key app, getApplication s path = some (key, app) ∧ app.systemApp = true)
    ∧ ((∃ key app, getApplication s path = some (key, app) ∧ app.systemApp = true)
      → unregisterApplication s path = (false, s))
    ∧ (getApplication s path = none → unregisterApplication s path = (true, s)) := by
  unfold unregisterApplication
  cases hget : getApplication s path with
  | none => simp
  | some e =>
    obtain ⟨key, app⟩ := e
    by_cases hsys : app.systemApp = true
    · simp only [hsys, if_true, Option.some.injEq, Prod.mk.injEq, reduceCtorEq, false_implies,
        and_true, true_iff, forall_const]
      exact ⟨⟨key, app, ⟨rfl, rfl⟩, hsys⟩, fun _ => trivial⟩
    · simp [hsys]

/-- C4, at the system application of `twoApps` and at a path that names nothing. -/
theorem unregisterApplication_false_iff_system_witness :
    unregisterApplication twoApps erodePath = (false, twoApps)
    ∧ unregisterApplication twoApps "/nowhere" = (true, twoApps) :=
  ⟨(unregisterApplication_false_iff_system twoApps erodePath).2.1
      ⟨"codes.eeems.erode", erodeApp, by decide, by decide⟩,
   (unregisterApplication_false_iff_system twoApps "/nowhere").2.2 (by decide)⟩

/-- C5: when `p` resolves to a registered Application that is not system-flagged (in a
registry that holds every Application under its own name), `unregisterApplication(p)`
returns true; afterwards the name of that Application is no key of the registry, every
other key holds what it held, and exactly one event has been emitted by the call,
`applicationUnregistered` carrying `p`. -/
theorem unregisterApplication_removes (s : AppsAPI) (path key : String) (app : Application)
    (hwf : KeyedByName s)
    (hget : getApplication s path = some (key, app))
    (hsys : app.systemApp = false) :
    (unregisterApplication s path).1 = true
    ∧ QMap.contains (unregisterApplication s path).2.applications app.name = false
    ∧ (∀ k, k ≠ app.name →
        QMap.find? (unregisterApplication s path).2.applications k
          = QMap.find? s.applications k)
    ∧ (unregisterApplication s path).2.applications
        = s.applications.filter (fun e => e.1 ≠ app.name)
    ∧ events (unregisterApplication s path).2
        = events s ++ [Signal.applicationUnregistered path] := by
  obtain ⟨hmem, hpath⟩ := getApplication_some s path key app hget
  obtain ⟨ha, ht, _⟩ := unregisterApplicationPtr_of_keyed s key app hwf hmem
  have hres : unregisterApplication s path = (true, unregisterApplicationPtr s key app) := by
    unfold unregisterApplication
    simp [hget, hsys]
  rw [hres]
  refine ⟨rfl, ?_, ?_, ?_, ?_⟩
  · simp only [ha, QMap.contains_eq_isSome, QMap.find?_remove_self]
    rfl
  · intro k hk
    simp only [ha]
    exact QMap.find?_remove_other _ hk
  · simp only [ha, QMap.remove]
  · simp only [events, ht, hpath, List.filterMap_append]
    rfl

/-- C5, at `reader` in `twoApps`. -/
theorem unregisterApplication_removes_witness :
    (unregisterApplication twoApps readerPath).1 = true
    ∧ QMap.contains (unregisterApplication twoApps readerPath).2.applications "reader" = false
    ∧ QMap.keys (unregisterApplication twoApps readerPath).2.applications
        = ["codes.eeems.erode"]
    ∧ events (unregisterApplication twoApps readerPath).2
        = [Signal.applicationUnregistered readerPath] :=
  have h := unregisterApplication_removes twoApps readerPath "reader" readerApp
    (by decide) (by decide) (by decide)
  ⟨h.1, h.2.1, by decide, h.2.2.2.2⟩

/-- C6 (evaluation of the code): on a registered Application that is not system-flagged,
`unregisterApplication` performs exactly three steps: it removes the entry, emits
`applicationUnregistered` and calls `deleteLater`. No `stop` of the Application is among
them, so none precedes the removal. -/
theorem unregisterApplication_steps (s : AppsAPI) (path key : String) (app : Application)
    (hwf : KeyedByName s)
    (hget : getApplication s path = some (key, app))
    (hsys : app.systemApp = false) :
    (unregisterApplication s path).2.trace
        = s.trace ++ [Action.removed app.name,
            Action.emitted (Signal.applicationUnregistered path),
            Action.called key Method.deleteLater]
    ∧ stopPrecedesRemoval key app.name [Action.removed app.name,
        Action.emitted (Signal.applicationUnregistered path),
        Action.called key Method.deleteLater] = false := by
  obtain ⟨hmem, hpath⟩ := getApplication_some s path key app hget
  obtain ⟨_, ht, _⟩ := unregisterApplicationPtr_of_keyed s key app hwf hmem
  have hres : unregisterApplication s path = (true, unregisterApplicationPtr s key app) := by
    unfold unregisterApplication
    simp [hget, hsys]
  rw [hres]
  refine ⟨by simp only [ht, hpath], ?_⟩
  simp [stopPrecedesRemoval]

/-- C6, at `reader` of `twoApps`, which is in the foreground when it is unregistered: the
call adds a removal, a signal and `deleteLater` to the trace, and no `stop`. -/
theorem unregisterApplication_steps_witness :
    readerApp.state = AppState.InForeground
    ∧ (unregisterApplication twoApps readerPath).2.trace
        = [Action.removed "reader",
            Action.emitted (Signal.applicationUnregistered readerPath),
            Action.called "reader" Method.deleteLater]
    ∧ Action.called "reader" Method.stop ∉ (unregisterApplication twoApps readerPath).2.trace :=
  ⟨rfl,
   (unregisterApplication_steps twoApps readerPath "reader" readerApp
      (by decide) (by decide) (by decide)).1,
   by decide⟩

/-- The destructor of the registry does stop every Application before it deletes it. -/
theorem destructor_stops_before_delete :
    (destructor twoApps).trace
      = [Action.called "codes.eeems.erode" Method.stop,
         Action.called "reader" Method.stop,
         Action.called "codes.eeems.erode" Method.waitForFinished,
         Action.called "codes.eeems.erode" Method.deleteLater,
         Action.called "reader" Method.waitForFinished,
         Action.called "reader" Method.deleteLater] := by
  decide

/-! ## The startup Application -/

/-- C7: if `p` resolves to a registered Application, `setStartupApplication(p)` makes
`startupApplication()` return `p` and stores `p` under the settings key
`startupApplication`; if `p` resolves to no registered Application the call changes
nothing: startup Application, settings and registry are as before. -/
theorem setStartupApplication_spec (s : AppsAPI) (path : String) :
    (resolves s path = true →
      startupApplication (setStartupApplication s path) = path
      ∧ QMap.find? (setStartupApplication s path).settings "startupApplication"
          = some (QVariant.str path)
      ∧ (setStartupApplication s path).applications = s.applications)
    ∧ (resolves s path = false → setStartupApplication s path = s) := by
  unfold resolves setStartupApplication startupApplication
  cases hget : getApplication s path with
  | none => simp
  | some e => simp [QMap.find?_insert_self]

/-- C7, at the path of `reader` and at a path that names nothing. -/
theorem setStartupApplication_spec_witness :
    startupApplication (setStartupApplication twoApps readerPath) = readerPath
    ∧ QMap.find? (setStartupApplication twoApps readerPath).settings "startupApplication"
        = some (QVariant.str readerPath)
    ∧ setStartupApplication twoApps "/nowhere" = twoApps :=
  ⟨((setStartupApplication_spec twoApps readerPath).1 (by decide)).1,
   ((setStartupApplication_spec twoApps readerPath).1 (by decide)).2.1,
   (setStartupApplication_spec twoApps "/nowhere").2 (by decide)⟩

end AppsAPI

/-! ## Invariants of the registry -/

theorem name_of_created (path : String) (properties : QVariantMap) :
    ((Application.create path).setConfig properties).name = AppsAPI.propName properties := by
  unfold Application.name Application.setConfig Application.create AppsAPI.propName QMap.value
  cases QMap.find? properties "name" <;> rfl

theorem nodup_keys_remove {V : Type} (m : QMap V) (k : String) (h : (QMap.keys m).Nodup) :
    (QMap.keys (QMap.remove m k)).Nodup := by
  unfold QMap.keys QMap.remove
  exact h.sublist ((List.filter_sublist m).map Prod.fst)

theorem nodup_keys_place {V : Type} (k : String) (v : V) (m : QMap V)
    (h : (QMap.keys m).Nodup) (hk : k ∉ QMap.keys m) :
    (QMap.keys (QMap.place k v m)).Nodup := by
  induction m with
  | nil => simp [QMap.place, QMap.keys]
  | cons e rest ih =>
    obtain ⟨k', v'⟩ := e
    simp only [QMap.keys, List.map_cons, List.nodup_cons, List.mem_cons, not_or] at h hk
    by_cases hlt : qStringLt k' k = true
    · simp only [QMap.place, hlt, if_true, QMap.keys, List.map_cons, List.nodup_cons]
      refine ⟨?_, ih h.2 hk.2⟩
      intro hmem
      obtain ⟨e, he, hek⟩ := List.mem_map.1 hmem
      rcases (QMap.mem_place k v rest e).1 he with rfl | he'
      · exact hk.1 hek
      · exact h.1 (List.mem_map.2 ⟨e, he', hek⟩)
    · have hf : QMap.place k v ((k', v') :: rest) = (k, v) :: (k', v') :: rest := by
        simp [QMap.place, hlt]
      rw [hf]
      simp only [QMap.keys, List.map_cons, List.nodup_cons, List.mem_cons, not_or]
      exact ⟨⟨hk.1, hk.2⟩, h.1, h.2⟩

theorem nodup_keys_insert {V : Type} (m : QMap V) (k : String) (v : V)
    (h : (QMap.keys m).Nodup) : (QMap.keys (QMap.insert m k v)).Nodup := by
  apply nodup_keys_place _ _ _ (nodup_keys_remove m k h)
  intro hmem
  obtain ⟨e, he, hek⟩ := List.mem_map.1 hmem
  simp only [QMap.remove, List.mem_filter] at he
  simp [hek] at he

/-- Every call keeps the Applications under their own names and the keys distinct. -/
theorem step_invariant (env : Env) (s : AppsAPI) (op : Op)
    (h : KeyedByName s ∧ UniqueKeys s) :
    KeyedByName (step env s op) ∧ UniqueKeys (step env s op) := by
  obtain ⟨hk, hu⟩ := h
  cases op with
  | register properties =>
    simp only [step]
    by_cases hv : AppsAPI.propType properties < Foreground
      ∨ AppsAPI.propType properties > Background
      ∨ (AppsAPI.propName properties).isEmpty = true
      ∨ (AppsAPI.propBin properties).isEmpty = true
      ∨ env.fileExists (AppsAPI.propBin properties) = false
    · rw [AppsAPI.registerApplication_of_invalid env s properties hv]
      exact ⟨hk, hu⟩
    · cases hfind : QMap.find? s.applications (AppsAPI.propName properties) with
      | some existing =>
        rw [AppsAPI.registerApplication_of_existing env s properties existing hv hfind]
        exact ⟨hk, hu⟩
      | none =>
        have ha := (AppsAPI.registerApplication_of_new env s properties hv hfind).2.1
        refine ⟨?_, ?_⟩
        · intro e he
          rw [ha] at he
          rcases (QMap.mem_insert _ _ _ e).1 he with rfl | ⟨he', _⟩
          · exact name_of_created _ _
          · exact hk e he'
        · unfold UniqueKeys
          rw [ha]
          exact nodup_keys_insert _ _ _ hu
  | unregister path =>
    simp only [step, AppsAPI.unregisterApplication]
    cases AppsAPI.getApplication s path with
    | none => exact ⟨hk, hu⟩
    | some e =>
      by_cases hsys : e.2.systemApp = true
      · simp only [hsys, if_true]
        exact ⟨hk, hu⟩
      · simp only [hsys, AppsAPI.unregisterApplicationPtr]
        by_cases hc : QMap.contains s.applications e.2.name = true
        · simp only [hc, if_true]
          refine ⟨?_, ?_⟩
          · intro e' he'
            have : e' ∈ QMap.remove s.applications e.2.name := he'
            exact hk e' (List.mem_of_mem_filter this)
          · exact nodup_keys_remove _ _ hu
        · simp only [hc]
          exact ⟨hk, hu⟩
  | setStartup path =>
    simp only [step, AppsAPI.setStartupApplication]
    cases AppsAPI.getApplication s path with
    | none => exact ⟨hk, hu⟩
    | some e => exact ⟨hk, hu⟩

/-- The registries reached from the empty one hold every Application under its own name,
with distinct keys. -/
theorem run_invariant (env : Env) (ops : List Op) :
    ∀ s : AppsAPI, KeyedByName s ∧ UniqueKeys s →
      KeyedByName (run env s ops) ∧ UniqueKeys (run env s ops) := by
  induction ops with
  | nil => intro s h; exact h
  | cons op ops ih => intro s h; exact ih _ (step_invariant env s op h)

theorem emptyRegistry_invariant : KeyedByName emptyRegistry ∧ UniqueKeys emptyRegistry := by
  refine ⟨?_, ?_⟩
  · intro e he
    cases he
  · exact List.nodup_nil

/-- One call either leaves the startup Application as it was or sets it to a path that
resolves in the registry the call was made on. -/
theorem step_startup (env : Env) (s : AppsAPI) (op : Op) :
    (step env s op).m_startupApplication = s.m_startupApplication
    ∨ resolves s (step env s op).m_startupApplication = true := by
  cases op with
  | register properties =>
    left
    simp only [step]
    by_cases h : AppsAPI.propType properties < Foreground
      ∨ AppsAPI.propType properties > Background
      ∨ (AppsAPI.propName properties).isEmpty = true
      ∨ (AppsAPI.propBin properties).isEmpty = true
      ∨ env.fileExists (AppsAPI.propBin properties) = false
    · rw [AppsAPI.registerApplication_of_invalid env s properties h]
    · cases hfind : QMap.find? s.applications (AppsAPI.propName properties) with
      | some existing =>
        rw [AppsAPI.registerApplication_of_existing env s properties existing h hfind]
      | none => exact (AppsAPI.registerApplication_of_new env s properties h hfind).2.2.2
  | unregister path =>
    left
    simp only [step, AppsAPI.unregisterApplication]
    cases AppsAPI.getApplication s path with
    | none => rfl
    | some e =>
      by_cases hsys : e.2.systemApp = true
      · simp [hsys]
      · simp only [hsys, AppsAPI.unregisterApplicationPtr]
        by_cases hc : QMap.contains s.applications e.2.name = true
        · simp only [hc, if_true]
          rfl
        · simp only [hc]
          rfl
  | setStartup path =>
    simp only [step, AppsAPI.setStartupApplication, resolves]
    cases hget : AppsAPI.getApplication s path with
    | none => left; rfl
    | some e => right; simp [hget]

/-- The invariant behind C8, with the states already passed through carried along. -/
theorem run_startup_aux (env : Env) (ops : List Op) :
    ∀ (past : List AppsAPI) (s : AppsAPI),
      (isUnset s.m_startupApplication = true
        ∨ ∃ t ∈ past ++ [s], resolves t s.m_startupApplication = true) →
      (isUnset (run env s ops).m_startupApplication = true
        ∨ ∃ t ∈ past ++ statesAlong env s ops,
            resolves t (run env s ops).m_startupApplication = true) := by
  induction ops with
  | nil => intro past s h; simpa [run, statesAlong] using h
  | cons op ops ih =>
    intro past s h
    have hstep : isUnset (step env s op).m_startupApplication = true
        ∨ ∃ t ∈ (past ++ [s]) ++ [step env s op],
            resolves t (step env s op).m_startupApplication = true := by
      rcases step_startup env s op with heq | hres
      · rw [heq]
        rcases h with h | ⟨t, ht, hr⟩
        · exact Or.inl h
        · exact Or.inr ⟨t, List.mem_append_left _ ht, hr⟩
      · exact Or.inr ⟨s, by simp, hres⟩
    have := ih (past ++ [s]) (step env s op) hstep
    simpa [run, statesAlong] using this

/-- C8 (what the code does): a sequence of `registerApplication`, `unregisterApplication`
and `setStartupApplication` calls setting out from a registry whose startup Application is
unset or registered ends in a state whose startup Application is unset, or is the path of
an Application that is registered in some state the sequence passed through, the last
included; it need not be registered in the last one. -/
theorem startupApplication_was_registered (env : Env) (s : AppsAPI) (ops : List Op)
    (h : isUnset s.m_startupApplication = true ∨ resolves s s.m_startupApplication = true) :
    isUnset (run env s ops).m_startupApplication = true
    ∨ ∃ t ∈ statesAlong env s ops, resolves t (run env s ops).m_startupApplication = true := by
  have := run_startup_aux env ops [] s
    (by
      rcases h with h | h
      · exact Or.inl h
      · exact Or.inr ⟨s, by simp, h⟩)
  simpa using this

/-- C8 (amended), at the sequence register `reader`, make it the startup Application,
unregister it: the startup Application is the path `reader` had. -/
theorem startupApplication_was_registered_witness :
    isUnset emptyRegistry.m_startupApplication = true
    ∧ (run env0 emptyRegistry [Op.register readerProps, Op.setStartup readerPath,
        Op.unregister readerPath]).m_startupApplication = readerPath
    ∧ (isUnset (run env0 emptyRegistry [Op.register readerProps, Op.setStartup readerPath,
          Op.unregister readerPath]).m_startupApplication = true
      ∨ ∃ t ∈ statesAlong env0 emptyRegistry [Op.register readerProps,
          Op.setStartup readerPath, Op.unregister readerPath],
          resolves t (run env0 emptyRegistry [Op.register readerProps,
            Op.setStartup readerPath, Op.unregister readerPath]).m_startupApplication = true) :=
  ⟨by decide, by decide,
   startupApplication_was_registered env0 emptyRegistry
     [Op.register readerProps, Op.setStartup readerPath, Op.unregister readerPath]
     (Or.inl (by decide))⟩

/-- C8 (counterexample): from the empty registry, whose startup Application is unset,
register `reader`, make it the startup Application and unregister it; the startup
Application is then neither unset nor the path of a registered Application. -/
theorem startupApplication_dangles :
    isUnset emptyRegistry.m_startupApplication = true
    ∧ isUnset (run env0 emptyRegistry [Op.register readerProps, Op.setStartup readerPath,
        Op.unregister readerPath]).m_startupApplication = false
    ∧ resolves (run env0 emptyRegistry [Op.register readerProps, Op.setStartup readerPath,
        Op.unregister readerPath])
        (run env0 emptyRegistry [Op.register readerProps, Op.setStartup readerPath,
          Op.unregister readerPath]).m_startupApplication = false := by
  decide

/-! ## Pausing and resuming -/

theorem pause_foldl_trace (keys : List String) :
    ∀ st : AppsAPI,
      (keys.foldl (fun st key => Application.pause st key false) st).trace
        = st.trace ++ keys.map (fun key => Action.called key (Method.pause false)) := by
  induction keys with
  | nil => intro st; simp
  | cons k ks ih =>
    intro st
    simp only [List.foldl_cons, ih, List.map_cons]
    simp [Application.pause]

/-- C9 (what the code does): `pauseAll` calls `pause` once for each entry of the registry,
in the order of the map, and nothing else; each of these calls passes `false` as the
argument. -/
theorem pauseAll_calls (s : AppsAPI) :
    (AppsAPI.pauseAll s).trace
      = s.trace ++ (QMap.keys s.applications).map
          (fun key => Action.called key (Method.pause false)) :=
  pause_foldl_trace _ s

/-- C9 (counterexample): in a registry that holds two Applications, `pauseAll` calls
`pause(false)` on each; the call on `reader` does not pass `true`. -/
theorem pauseAll_passes_false :
    (AppsAPI.pauseAll twoApps).trace
      = [Action.called "codes.eeems.erode" (Method.pause false),
         Action.called "reader" (Method.pause false)]
    ∧ ¬ (∀ key arg, Action.called key (Method.pause arg) ∈ (AppsAPI.pauseAll twoApps).trace →
          arg = true) := by
  refine ⟨by decide, fun h => ?_⟩
  have := h "reader" false (by decide)
  cases this

theorem launch_ne (s : AppsAPI) (key : String) : Application.launch s key ≠ s := by
  intro h
  have := congrArg (fun t => t.trace.length) h
  simp [Application.launch] at this

/-- C10: `resumeIfNone` launches the startup Application exactly when the stopping flag is
not set, no registered Application is `InForeground` and `startupApplication` resolves to
a registered Application: in that case the result is the launch of the Application the
path resolves to, in every other case the registry is left as it was; in particular
nothing is launched and nothing changes when the stopping flag is set or some Application
is `InForeground`. -/
theorem resumeIfNone_spec (s : AppsAPI) :
    ((s.m_stopping = false ∧ anyInForeground s = false
        ∧ resolves s s.m_startupApplication = true) →
      ∃ key app, AppsAPI.getApplication s s.m_startupApplication = some (key, app)
        ∧ AppsAPI.resumeIfNone s = Application.launch s key)
    ∧ (AppsAPI.resumeIfNone s ≠ s ↔
        (s.m_stopping = false ∧ anyInForeground s = false
          ∧ resolves s s.m_startupApplication = true))
    ∧ ((s.m_stopping = true ∨ anyInForeground s = true) → AppsAPI.resumeIfNone s = s) := by
  unfold AppsAPI.resumeIfNone anyInForeground resolves
  by_cases hstop : s.m_stopping = true
  · simp [hstop]
  · by_cases hfg : List.any s.applications (fun e => e.2.state == AppState.InForeground) = true
    · simp [hstop, hfg]
    · cases hget : AppsAPI.getApplication s s.m_startupApplication with
      | none => simp [hstop, hfg]
      | some e =>
        obtain ⟨key, app⟩ := e
        simp only [hstop, hfg, Bool.false_eq_true, if_false, Option.isSome_some, and_true,
          Bool.not_eq_true, true_and, ne_eq, launch_ne, not_false_eq_true, iff_true, or_self,
          false_implies, Option.some.injEq, Prod.mk.injEq]
        simp only [Bool.not_eq_true] at hstop hfg
        simp [hstop, hfg]

/-- C10, at a registry with nothing in the foreground whose startup Application is the
system application, and at `twoApps`, where `reader` is in the foreground. -/
theorem resumeIfNone_spec_witness :
    (∃ key app,
      AppsAPI.getApplication
        { twoApps with applications := [("codes.eeems.erode", erodeApp)],
                       m_startupApplication := erodePath } erodePath = some (key, app)
      ∧ AppsAPI.resumeIfNone
          { twoApps with applications := [("codes.eeems.erode", erodeApp)],
                         m_startupApplication := erodePath }
        = Application.launch
          { twoApps with applications := [("codes.eeems.erode", erodeApp)],
                         m_startupApplication := erodePath } key)
    ∧ AppsAPI.resumeIfNone twoApps = twoApps :=
  ⟨(resumeIfNone_spec
      { twoApps with applications := [("codes.eeems.erode", erodeApp)],
                     m_startupApplication := erodePath }).1 (by decide),
   (resumeIfNone_spec twoApps).2.2 (Or.inr (by decide))⟩

/-! ## The left button -/

theorem currentApplication_of_none (s : AppsAPI) (h : anyInForeground s = false) :
    AppsAPI.currentApplication s = "/" := by
  unfold anyInForeground at h
  unfold AppsAPI.currentApplication
  have hnone : List.find? (fun e => e.2.state == AppState.InForeground) s.applications = none := by
    rw [List.find?_eq_none]
    intro e he
    have := List.any_eq_false.1 h e he
    simpa using this
  rw [hnone]

/-- With an Application in the foreground `leftHeld` does complete. -/
theorem leftHeld_of_foreground (s : AppsAPI) (h : anyInForeground s = true) :
    ∃ s1, AppsAPI.leftHeld s = some s1 := by
  unfold anyInForeground at h
  obtain ⟨e, he, hfg⟩ := List.any_eq_true.1 h
  have hcur : ∃ e1, List.find? (fun e => e.2.state == AppState.InForeground) s.applications
      = some e1 := by
    cases hf : List.find? (fun e => e.2.state == AppState.InForeground) s.applications with
    | none => exact absurd hfg (by simpa using List.find?_eq_none.1 hf e he)
    | some e1 => exact ⟨e1, rfl⟩
  obtain ⟨e1, hf⟩ := hcur
  have hmem : e1 ∈ s.applications := List.mem_of_find?_eq_some hf
  have hget : ∃ e2, AppsAPI.getApplication s (AppsAPI.currentApplication s) = some e2 := by
    unfold AppsAPI.currentApplication AppsAPI.getApplication
    rw [hf]
    cases hg : List.find? (fun e => e.2.path == e1.2.qPath) s.applications with
    | none =>
      have := List.find?_eq_none.1 hg e1 hmem
      simp [Application.qPath] at this
    | some e2 => exact ⟨e2, rfl⟩
  obtain ⟨e2, hg⟩ := hget
  unfold AppsAPI.leftHeld
  rw [hg]
  simp only
  split
  · exact ⟨_, rfl⟩
  · split <;> exact ⟨_, rfl⟩

/-- C11 (evaluation of the code): when no Application is in the foreground,
`currentApplication()` is `/`, `getApplication` returns the null pointer for it, and
`leftHeld` dereferences that pointer: the slot faults instead of launching the startup
Application or doing nothing. -/
theorem leftHeld_faults (s : AppsAPI) (hfg : anyInForeground s = false)
    (hroot : resolves s "/" = false) : AppsAPI.leftHeld s = none := by
  unfold AppsAPI.leftHeld
  rw [currentApplication_of_none s hfg]
  unfold resolves at hroot
  cases hget : AppsAPI.getApplication s "/" with
  | none => rfl
  | some e => simp [hget] at hroot

/-- C11, at a registry that holds one Application, which is not running and is the
startup Application: nothing is in the foreground, the startup Application resolves, and
`leftHeld` faults. -/
theorem leftHeld_faults_witness :
    resolves { twoApps with applications := [("codes.eeems.erode", erodeApp)],
                            m_startupApplication := erodePath } erodePath = true
    ∧ AppsAPI.leftHeld { twoApps with applications := [("codes.eeems.erode", erodeApp)],
                                      m_startupApplication := erodePath } = none :=
  ⟨by decide,
   leftHeld_faults
     { twoApps with applications := [("codes.eeems.erode", erodeApp)],
                    m_startupApplication := erodePath } (by decide) (by decide)⟩

/-! ## The properties built from a descriptor -/

theorem find?_insertMember_other (app : QJsonObject) (key k : String)
    (properties : QVariantMap) (h : k ≠ key) :
    QMap.find? (AppsAPI.insertMember app key properties) k = QMap.find? properties k := by
  unfold AppsAPI.insertMember
  split
  · exact QMap.find?_insert_other _ _ h
  · rfl

theorem find?_insertEvents_other (events : QJsonObject) (k : String)
    (h : k ≠ "onStop" ∧ k ≠ "pause" ∧ k ≠ "resume") :
    ∀ properties : QVariantMap,
      QMap.find? (AppsAPI.insertEvents events properties) k = QMap.find? properties k := by
  unfold AppsAPI.insertEvents
  induction QMap.keys events with
  | nil => intro properties; rfl
  | cons event rest ih =>
    intro properties
    simp only [List.foldl_cons]
    rw [ih]
    split
    · exact QMap.find?_insert_other _ _ h.1
    · split
      · exact QMap.find?_insert_other _ _ h.2.1
      · split
        · exact QMap.find?_insert_other _ _ h.2.2
        · rfl

/-- What a descriptor whose binary exists contributes under a key of the initializer list
that none of the later statements writes. -/
theorem descriptorProperties_find? (env : Env) (app : QJsonObject)
    (hbin : env.fileExists (jsonAt app "bin").toString = true) :
    ∃ properties, AppsAPI.descriptorProperties env app = some properties
      ∧ QMap.find? properties "name" = some (QVariant.str (jsonAt app "name").toString)
      ∧ QMap.find? properties "bin" = some (QVariant.str (jsonAt app "bin").toString)
      ∧ QMap.find? properties "type" = some (QVariant.int (AppsAPI.descriptorType env app))
      ∧ QMap.find? properties "flags"
          = some (QVariant.strList (AppsAPI.descriptorFlags app)) := by
  unfold AppsAPI.descriptorProperties
  simp only [hbin, Bool.true_eq_false, if_false]
  refine ⟨_, rfl, ?_, ?_, ?_, ?_⟩
  all_goals
    split
    all_goals
      simp [find?_insertEvents_other, find?_insertMember_other, AppsAPI.ofList,
        QMap.find?_insert_self, QMap.find?_insert_other]

/-- A value that fits in 32 bits is not changed by the conversion to `int`. -/
theorem toInt32_of_fits (n : Int) (h1 : -2147483648 ≤ n) (h2 : n < 2147483648) :
    toInt32 n = n := by
  unfold toInt32
  omega

theorem propType_of_find? (properties : QVariantMap) (n : Int)
    (h : QMap.find? properties "type" = some (QVariant.int n)) :
    AppsAPI.propType properties = toInt32 n := by
  unfold AppsAPI.propType QMap.value
  rw [h]
  rfl

/-- C15: for a descriptor whose binary exists the properties are built (the descriptor is
not skipped, whatever its type string) and their type is the one derived from the
lower-cased type string alone: `background` gives Background, `backgroundable` gives
Backgroundable, every other string and an absent type field give Foreground. -/
theorem descriptorProperties_type (env : Env) (app : QJsonObject)
    (hbin : env.fileExists (jsonAt app "bin").toString = true) :
    (∃ properties, AppsAPI.descriptorProperties env app = some properties
      ∧ AppsAPI.propType properties = AppsAPI.descriptorType env app)
    ∧ (QMap.contains app "type" = true →
        AppsAPI.descriptorTypeString env app = env.toLower (jsonAt app "type").toString)
    ∧ (AppsAPI.descriptorTypeString env app = "background" →
        AppsAPI.descriptorType env app = Background)
    ∧ (AppsAPI.descriptorTypeString env app = "backgroundable" →
        AppsAPI.descriptorType env app = Backgroundable)
    ∧ (AppsAPI.descriptorTypeString env app ≠ "background" →
        AppsAPI.descriptorTypeString env app ≠ "backgroundable" →
        AppsAPI.descriptorType env app = Foreground)
    ∧ (QMap.contains app "type" = false → AppsAPI.descriptorType env app = Foreground) := by
  obtain ⟨properties, hsome, _, _, htype, _⟩ := descriptorProperties_find? env app hbin
  have hfits : toInt32 (AppsAPI.descriptorType env app) = AppsAPI.descriptorType env app := by
    unfold AppsAPI.descriptorType
    split
    · rfl
    · split <;> rfl
  refine ⟨⟨properties, hsome, (propType_of_find? _ _ htype).trans hfits⟩, ?_, ?_, ?_, ?_, ?_⟩
  · intro h
    simp [AppsAPI.descriptorTypeString, h]
  · intro h
    simp [AppsAPI.descriptorType, h]
  · intro h
    simp [AppsAPI.descriptorType, h]
  · intro h1 h2
    simp [AppsAPI.descriptorType, h1, h2]
  · intro h
    simp [AppsAPI.descriptorType, AppsAPI.descriptorTypeString, h]

/-- C15, at the descriptor of the process manager, whose type is written `Background`,
and at the descriptor of `clock`, which declares no type. -/
theorem descriptorProperties_type_witness :
    (∃ properties, AppsAPI.descriptorProperties env1 erodeDescriptor = some properties
      ∧ AppsAPI.propType properties = Background)
    ∧ AppsAPI.descriptorType env0 clockDescriptor = Foreground :=
  ⟨by
    obtain ⟨properties, h1, h2⟩ :=
      (descriptorProperties_type env1 erodeDescriptor (by decide)).1
    exact ⟨properties, h1, h2.trans (by decide)⟩,
   (descriptorProperties_type env0 clockDescriptor (by decide)).2.2.2.2.2 (by decide)⟩

theorem descriptorFlags_foldl (items : List QJsonValue) :
    ∀ acc : List String,
      items.foldl
        (fun flags flag =>
          if !flag.toString.isEmpty && flag.toString != "system" then flags ++ [flag.toString]
          else flags)
        acc
      = acc ++ (items.map QJsonValue.toString).filter
          (fun v => !v.isEmpty && v != "system") := by
  induction items with
  | nil => intro acc; simp
  | cons item rest ih =>
    intro acc
    simp only [List.foldl_cons, ih, List.map_cons, List.filter_cons]
    split <;> simp

theorem descriptorFlags_eq (app : QJsonObject) :
    AppsAPI.descriptorFlags app
      = "system" :: (AppsAPI.declaredFlags app).filter (fun v => !v.isEmpty && v != "system") := by
  unfold AppsAPI.descriptorFlags AppsAPI.declaredFlags
  split
  · rw [descriptorFlags_foldl]; rfl
  · rfl

/-- C16: for a descriptor whose binary exists the flags of the properties are the list
that starts with `system` and goes on with the declared flags that are neither empty nor
`system`: it holds `system` exactly once, every declared flag that is not empty, and
nothing that is neither `system` nor a declared flag. -/
theorem descriptorProperties_flags (env : Env) (app : QJsonObject)
    (hbin : env.fileExists (jsonAt app "bin").toString = true) :
    (∃ properties, AppsAPI.descriptorProperties env app = some properties
      ∧ QMap.find? properties "flags"
          = some (QVariant.strList (AppsAPI.descriptorFlags app)))
    ∧ (AppsAPI.descriptorFlags app).count "system" = 1
    ∧ (∀ flag ∈ AppsAPI.declaredFlags app, flag.isEmpty = false →
        flag ∈ AppsAPI.descriptorFlags app)
    ∧ (∀ flag ∈ AppsAPI.descriptorFlags app,
        flag = "system" ∨ flag ∈ AppsAPI.declaredFlags app) := by
  obtain ⟨properties, hsome, _, _, _, hflags⟩ := descriptorProperties_find? env app hbin
  refine ⟨⟨properties, hsome, hflags⟩, ?_, ?_, ?_⟩
  · rw [descriptorFlags_eq, List.count_cons_self, List.count_eq_zero.2]
    intro hmem
    have := (List.mem_filter.1 hmem).2
    simp at this
  · intro flag hmem hne
    rw [descriptorFlags_eq]
    by_cases hsys : flag = "system"
    · simp [hsys]
    · exact List.mem_cons_of_mem _ (List.mem_filter.2 ⟨hmem, by simp [hne, hsys]⟩)
  · intro flag hmem
    rw [descriptorFlags_eq] at hmem
    rcases List.mem_cons.1 hmem with h | h
    · exact Or.inl h
    · exact Or.inr (List.mem_filter.1 h).1

/-- C16, at the descriptor of the process manager, which declares `system` and `chroot`,
and at the descriptor of `clock`, which declares no flags. -/
theorem descriptorProperties_flags_witness :
    AppsAPI.descriptorFlags erodeDescriptor = ["system", "chroot"]
    ∧ (AppsAPI.descriptorFlags erodeDescriptor).count "system" = 1
    ∧ AppsAPI.descriptorFlags clockDescriptor = ["system"]
    ∧ (AppsAPI.descriptorFlags clockDescriptor).count "system" = 1 :=
  ⟨by decide, (descriptorProperties_flags env1 erodeDescriptor (by decide)).2.1,
   by decide, (descriptorProperties_flags env0 clockDescriptor (by decide)).2.1⟩

/-- C17 (evaluation of the code): a descriptor with an `events` mapping, and without a
member spelt `evnets`, gets no hook at all: the loop reads `app["evnets"]`, which is
empty, so the properties carry neither `onStop` nor `onPause` nor `onResume`. -/
theorem descriptorProperties_without_hooks (env : Env) (app : QJsonObject)
    (hbin : env.fileExists (jsonAt app "bin").toString = true)
    (hevents : QMap.contains app "events" = true)
    (htypo : QMap.contains app "evnets" = false) :
    ∃ properties, AppsAPI.descriptorProperties env app = some properties
      ∧ QMap.find? properties "onStop" = none
      ∧ QMap.find? properties "onPause" = none
      ∧ QMap.find? properties "onResume" = none := by
  have hnull : jsonAt app "evnets" = QJsonValue.null := by
    unfold jsonAt QMap.value
    rw [QMap.contains_eq_isSome] at htypo
    cases hf : QMap.find? app "evnets" with
    | none => rfl
    | some v => simp [hf] at htypo
  unfold AppsAPI.descriptorProperties
  simp only [hbin, Bool.true_eq_false, if_false, hevents, if_true, hnull]
  refine ⟨_, rfl, ?_, ?_, ?_⟩
  all_goals
    simp [QJsonValue.toObject, AppsAPI.insertEvents, QMap.keys, find?_insertMember_other,
      AppsAPI.ofList, QMap.find?_insert_other, QMap.find?]

/-- C17, at the descriptor of the process manager, which declares the three hooks: the
properties built from it are the name, the binary, the type and the flags. -/
theorem descriptorProperties_without_hooks_witness :
    QMap.contains erodeDescriptor "events" = true
    ∧ (∃ properties, AppsAPI.descriptorProperties env1 erodeDescriptor = some properties
        ∧ QMap.find? properties "onStop" = none
        ∧ QMap.find? properties "onPause" = none
        ∧ QMap.find? properties "onResume" = none)
    ∧ (AppsAPI.descriptorProperties env1 erodeDescriptor).map QMap.keys
        = some ["bin", "flags", "name", "type"] :=
  ⟨by decide, descriptorProperties_without_hooks env1 erodeDescriptor (by decide) (by decide)
    (by decide), by decide⟩

/-- The loop over the events puts the hook of `pause` under `pause` and that of `resume`
under `resume`; only `stop` goes to the field `onStop` of the Application. -/
theorem insertEvents_keys :
    QMap.keys (AppsAPI.insertEvents
      [("pause", QJsonValue.string "erode --pause"),
       ("resume", QJsonValue.string "erode --resume"),
       ("stop", QJsonValue.string "erode --stop")] [])
      = ["onStop", "pause", "resume"] := by
  decide

/-! ## Migration of the settings -/

theorem pausedState_ne_foreground (app : Application) :
    app.pausedState ≠ AppState.InForeground := by
  unfold Application.pausedState
  cases h : app.state <;> simp <;> split <;> simp

theorem count_map_le {V : Type} (p : String × V → Bool) (g : String × V → String × V)
    (hg : ∀ e, p (g e) = true → p e = true) (l : List (String × V)) :
    ((l.map g).filter p).length ≤ (l.filter p).length := by
  induction l with
  | nil => simp
  | cons e rest ih =>
    simp only [List.map_cons, List.filter_cons]
    by_cases h : p (g e) = true
    · simp only [h, hg e h, if_true, List.length_cons]
      omega
    · by_cases h2 : p e = true
      · simp only [h, h2, if_true, Bool.false_eq_true, if_false, List.length_cons]
        omega
      · simp only [h, h2, Bool.false_eq_true, if_false]
        exact ih

theorem count_place_pred {V : Type} (p : String × V → Bool) (k : String) (v : V)
    (m : QMap V) :
    ((QMap.place k v m).filter p).length
      = (m.filter p).length + (if p (k, v) = true then 1 else 0) := by
  induction m with
  | nil => simp [QMap.place, List.filter_cons]; split <;> simp
  | cons e rest ih =>
    obtain ⟨k', v'⟩ := e
    by_cases hlt : qStringLt k' k = true
    · simp only [QMap.place, hlt, if_true, List.filter_cons]
      split
      · simp only [List.length_cons, ih]; omega
      · exact ih
    · have hf : QMap.place k v ((k', v') :: rest) = (k, v) :: (k', v') :: rest := by
        simp [QMap.place, hlt]
      rw [hf]
      simp only [List.filter_cons]
      split <;> split <;> simp

theorem count_remove_le {V : Type} (p : String × V → Bool) (k : String) (m : QMap V) :
    ((QMap.remove m k).filter p).length ≤ (m.filter p).length := by
  unfold QMap.remove
  exact ((List.filter_sublist m).filter p).length_le

theorem count_key_le_one {V : Type} (key : String) (m : QMap V) (h : (QMap.keys m).Nodup) :
    (m.filter (fun e => e.1 == key)).length ≤ 1 := by
  induction m with
  | nil => simp
  | cons e rest ih =>
    obtain ⟨k', v'⟩ := e
    simp only [QMap.keys, List.map_cons, List.nodup_cons] at h
    by_cases hk : k' = key
    · subst hk
      have hnone : rest.filter (fun e => e.1 == k') = [] := by
        rw [List.filter_eq_nil_iff]
        intro e he hek
        exact h.1 (List.mem_map.2 ⟨e, he, by simpa using hek⟩)
      simp [List.filter_cons, hnone]
    · simpa [List.filter_cons, hk] using ih h.2

theorem keys_map_of_fst {V : Type} (g : String × V → String × V) (hg : ∀ e, (g e).1 = e.1)
    (m : QMap V) : QMap.keys (m.map g) = QMap.keys m := by
  unfold QMap.keys
  rw [List.map_map]
  exact List.map_congr_left (fun e _ => hg e)

theorem keys_modify {V : Type} (m : QMap V) (k : String) (f : V → V) :
    QMap.keys (QMap.modify m k f) = QMap.keys m := by
  unfold QMap.modify
  apply keys_map_of_fst
  intro e
  split <;> rfl

theorem launch_oneForeground (s : AppsAPI) (key : String) (h : UniqueKeys s) :
    OneForeground (Application.launch s key) := by
  refine ⟨?_, ?_⟩
  · unfold UniqueKeys Application.launch
    simp only
    rw [keys_map_of_fst]
    · exact h
    · intro e
      split
      · rfl
      · split <;> rfl
  · unfold foregroundCount Application.launch
    simp only
    refine le_trans ?_ (count_key_le_one key s.applications h)
    have hcount : ∀ l : List (String × Application),
        ((l.map (fun e =>
          if e.1 = key then (e.1, { e.2 with state := AppState.InForeground })
          else if e.2.state = AppState.InForeground then
            (e.1, { e.2 with state := e.2.pausedState })
          else e)).filter (fun e => e.2.state == AppState.InForeground)).length
        = (l.filter (fun e => e.1 == key)).length := by
      intro l
      induction l with
      | nil => rfl
      | cons e rest ih =>
        simp only [List.map_cons, List.filter_cons]
        by_cases hk : e.1 = key
        · simp [hk, ih]
        · by_cases hfg : e.2.state = AppState.InForeground
          · simp [hk, hfg, ih, pausedState_ne_foreground]
          · simp [hk, hfg, ih]
    rw [hcount]

theorem modify_oneForeground (s : AppsAPI) (key : String) (f : Application → Application)
    (trace : List Action)
    (hf : ∀ a, (f a).state = AppState.InForeground → a.state = AppState.InForeground)
    (h : OneForeground s) :
    OneForeground { s with applications := QMap.modify s.applications key f, trace := trace } := by
  refine ⟨?_, ?_⟩
  · unfold UniqueKeys
    simp only [keys_modify]
    exact h.1
  · unfold foregroundCount
    simp only
    refine le_trans (count_map_le _ _ ?_ _) h.2
    intro e
    split
    · intro he
      simpa using hf e.2 (by simpa using he)
    · exact id

theorem pause_oneForeground (s : AppsAPI) (key : String) (arg : Bool) (h : OneForeground s) :
    OneForeground (Application.pause s key arg) := by
  unfold Application.pause
  apply modify_oneForeground _ _ _ _ _ h
  intro a ha
  exact absurd ha (pausedState_ne_foreground a)

theorem stop_oneForeground (s : AppsAPI) (key : String) (h : OneForeground s) :
    OneForeground (Application.stop s key) := by
  unfold Application.stop
  apply modify_oneForeground _ _ _ _ _ h
  intro a ha
  simp at ha

theorem register_oneForeground (env : Env) (s : AppsAPI) (properties : QVariantMap)
    (h : OneForeground s) :
    OneForeground (AppsAPI.registerApplication env s properties).2 := by
  by_cases hv : AppsAPI.propType properties < Foreground
    ∨ AppsAPI.propType properties > Background
    ∨ (AppsAPI.propName properties).isEmpty = true
    ∨ (AppsAPI.propBin properties).isEmpty = true
    ∨ env.fileExists (AppsAPI.propBin properties) = false
  · rw [AppsAPI.registerApplication_of_invalid env s properties hv]
    exact h
  · cases hfind : QMap.find? s.applications (AppsAPI.propName properties) with
    | some existing =>
      rw [AppsAPI.registerApplication_of_existing env s properties existing hv hfind]
      exact h
    | none =>
      have ha := (AppsAPI.registerApplication_of_new env s properties hv hfind).2.1
      refine ⟨?_, ?_⟩
      · unfold UniqueKeys
        rw [ha]
        exact nodup_keys_insert _ _ _ h.1
      · unfold foregroundCount
        rw [ha, QMap.insert, count_place_pred]
        have hnot : ((AppsAPI.propName properties,
            (Application.create (AppsAPI.getPath env (AppsAPI.propName properties))).setConfig
              properties).2.state == AppState.InForeground) = false := by
          simp [Application.create, Application.setConfig]
        simp only [hnot, Bool.false_eq_true, if_false, Nat.add_zero]
        exact le_trans (count_remove_le _ _ _) h.2

theorem unregisterPtr_oneForeground (s : AppsAPI) (key : String) (app : Application)
    (h : OneForeground s) : OneForeground (AppsAPI.unregisterApplicationPtr s key app) := by
  unfold AppsAPI.unregisterApplicationPtr
  by_cases hc : QMap.contains s.applications app.name = true
  · simp only [hc, if_true]
    exact ⟨nodup_keys_remove _ _ h.1, le_trans (count_remove_le _ _ _) h.2⟩
  · simp only [hc]
    exact h

theorem unregister_oneForeground (s : AppsAPI) (path : String) (h : OneForeground s) :
    OneForeground (AppsAPI.unregisterApplication s path).2 := by
  unfold AppsAPI.unregisterApplication
  cases AppsAPI.getApplication s path with
  | none => exact h
  | some e =>
    by_cases hsys : e.2.systemApp = true
    · simp only [hsys, if_true]
      exact h
    · simp only [hsys]
      exact unregisterPtr_oneForeground s e.1 e.2 h

theorem pauseAll_oneForeground (keys : List String) :
    ∀ s : AppsAPI, OneForeground s →
      OneForeground (keys.foldl (fun st key => Application.pause st key false) s) := by
  induction keys with
  | nil => intro s h; exact h
  | cons k ks ih => intro s h; exact ih _ (pause_oneForeground s k false h)

/-- One call keeps the invariant of the foreground. -/
theorem perform_oneForeground (env : Env) (s s1 : AppsAPI) (call : Call)
    (h : OneForeground s) (hcall : perform env s call = some s1) : OneForeground s1 := by
  cases call with
  | registerApplication properties =>
    simp only [perform, Option.some.injEq] at hcall
    rw [← hcall]; exact register_oneForeground env s properties h
  | unregisterApplication path =>
    simp only [perform, Option.some.injEq] at hcall
    rw [← hcall]; exact unregister_oneForeground s path h
  | launch key =>
    simp only [perform, Option.some.injEq] at hcall
    rw [← hcall]; exact launch_oneForeground s key h.1
  | pause key arg =>
    simp only [perform, Option.some.injEq] at hcall
    rw [← hcall]; exact pause_oneForeground s key arg h
  | stop key =>
    simp only [perform, Option.some.injEq] at hcall
    rw [← hcall]; exact stop_oneForeground s key h
  | pauseAll =>
    simp only [perform, Option.some.injEq] at hcall
    rw [← hcall]; exact pauseAll_oneForeground _ s h
  | resumeIfNone =>
    simp only [perform, Option.some.injEq, AppsAPI.resumeIfNone] at hcall
    rw [← hcall]
    split
    · exact h
    · split
      · exact h
      · split
        · exact launch_oneForeground s _ h.1
        · exact h
  | leftHeld =>
    simp only [perform, AppsAPI.leftHeld] at hcall
    split at hcall
    · cases hcall
    · split at hcall
      · cases hcall; exact h
      · split at hcall
        · cases hcall; exact launch_oneForeground s _ h.1
        · cases hcall; exact h
  | homeHeld =>
    simp only [perform, Option.some.injEq, AppsAPI.homeHeld] at hcall
    rw [← hcall]
    split
    · exact h
    · split
      · exact h
      · exact launch_oneForeground s _ h.1

theorem performAll_oneForeground (env : Env) (calls : List Call) :
    ∀ s s1 : AppsAPI, OneForeground s → performAll env s calls = some s1 →
      OneForeground s1 := by
  induction calls with
  | nil =>
    intro s s1 h hrun
    simp only [performAll, Option.some.injEq] at hrun
    rw [← hrun]; exact h
  | cons call calls ih =>
    intro s s1 h hrun
    simp only [performAll] at hrun
    cases hp : perform env s call with
    | none => simp [hp] at hrun
    | some s2 =>
      simp only [hp] at hrun
      exact ih s2 s1 (perform_oneForeground env s s2 call h hp) hrun

/-- C19: in every registry state reached from the empty registry by a sequence of
`registerApplication`, `unregisterApplication`, `launch`, `pause`, `stop`, `pauseAll`,
`resumeIfNone`, `leftHeld` and `homeHeld` calls, at most one registered Application has
the state `InForeground`. -/
theorem foreground_at_most_one (env : Env) (calls : List Call) (s : AppsAPI)
    (h : performAll env emptyRegistry calls = some s) : foregroundCount s ≤ 1 :=
  (performAll_oneForeground env calls emptyRegistry s
    ⟨List.nodup_nil, Nat.zero_le 1⟩ h).2

/-- C19, at a sequence that registers `reader` and a second Application, launches both in
turn and holds the left button. -/
theorem foreground_at_most_one_witness :
    (performAll env0 emptyRegistry
      [Call.registerApplication readerProps,
       Call.launch "reader",
       Call.registerApplication
         [("bin", QVariant.str "/opt/bin/clock"), ("name", QVariant.str "clock")],
       Call.launch "clock",
       Call.leftHeld]).isSome = true
    ∧ ∀ s, performAll env0 emptyRegistry
      [Call.registerApplication readerProps,
       Call.launch "reader",
       Call.registerApplication
         [("bin", QVariant.str "/opt/bin/clock"), ("name", QVariant.str "clock")],
       Call.launch "clock",
       Call.leftHeld] = some s → foregroundCount s ≤ 1 :=
  ⟨by decide, fun s h => foreground_at_most_one env0 _ s h⟩

/-! ## Reconciliation, step 1 -/

theorem value_of_unique {V : Type} (m : QMap V) (k : String) (v v1 : V)
    (hnd : (QMap.keys m).Nodup) (hfind : QMap.find? m k = some v) (hmem : (k, v1) ∈ m) :
    v1 = v := by
  induction m with
  | nil => simp at hmem
  | cons e rest ih =>
    obtain ⟨k', v'⟩ := e
    simp only [QMap.keys, List.map_cons, List.nodup_cons] at hnd
    by_cases hk : k' = k
    · subst hk
      simp only [QMap.find?, if_true, Option.some.injEq] at hfind
      rcases List.mem_cons.1 hmem with h | h
      · simp only [Prod.mk.injEq, true_and] at h
        rw [h, hfind]
      · exact absurd (List.mem_map.2 ⟨(k', v1), h, rfl⟩) hnd.1
    · simp only [QMap.find?, hk, if_false] at hfind
      rcases List.mem_cons.1 hmem with h | h
      · simp only [Prod.mk.injEq] at h
        exact absurd h.1.symm hk
      · exact ih hnd.2 hfind h

theorem keyedByName_of_subset (s s1 : AppsAPI) (h : KeyedByName s)
    (hsub : ∀ e ∈ s1.applications, e ∈ s.applications) : KeyedByName s1 :=
  fun e he => h e (hsub e he)

/-- The loop of step 1 over a list of keys that are all in the map. -/
theorem unregisterAbsent_loop (names : List String) (ks : List String) :
    ∀ st : AppsAPI, KeyedByName st → UniqueKeys st → ks.Nodup →
      (∀ k ∈ ks, (QMap.find? st.applications k).isSome = true) →
      ∃ st1,
        ks.foldlM
          (fun st name =>
            match QMap.find? st.applications name with
            | none => none
            | some app =>
              if !names.contains name && !app.systemApp then
                some (Application.unregister st name app)
              else some st)
          st = some st1
        ∧ st1.applications
            = st.applications.filter
                (fun e => !ks.contains e.1 || AppsAPI.keptByStep1 names e) := by
  induction ks with
  | nil =>
    intro st _ _ _ _
    exact ⟨st, rfl, by simp⟩
  | cons k ks ih =>
    intro st hk hu hnd hall
    obtain ⟨hk_notin, hnd'⟩ := List.nodup_cons.1 hnd
    cases hfind : QMap.find? st.applications k with
    | none =>
      have := hall k (List.mem_cons_self _ _)
      simp [hfind] at this
    | some app =>
      have hmem : (k, app) ∈ st.applications := QMap.mem_of_find? _ hfind
      have hname : app.name = k := hk (k, app) hmem
      simp only [List.foldlM_cons, hfind]
      by_cases hrm : (!names.contains k && !app.systemApp) = true
      · simp only [hrm, if_true, Option.bind_eq_bind, Option.some_bind]
        obtain ⟨ha, _, _⟩ := AppsAPI.unregisterApplicationPtr_of_keyed st k app hk hmem
        rw [hname] at ha
        have hk1 : KeyedByName (Application.unregister st k app) := by
          apply keyedByName_of_subset st _ hk
          intro e he
          have : e ∈ QMap.remove st.applications k := by
            rw [← ha]; exact he
          exact List.mem_of_mem_filter this
        have hu1 : UniqueKeys (Application.unregister st k app) := by
          unfold UniqueKeys
          have : (Application.unregister st k app).applications
              = QMap.remove st.applications k := ha
          rw [this]
          exact nodup_keys_remove _ _ hu
        have hall1 : ∀ k' ∈ ks,
            (QMap.find? (Application.unregister st k app).applications k').isSome = true := by
          intro k' hk'
          have hne : k' ≠ k := fun h => hk_notin (h ▸ hk')
          have : (Application.unregister st k app).applications
              = QMap.remove st.applications k := ha
          rw [this, QMap.find?_remove_other _ hne]
          exact hall k' (List.mem_cons_of_mem _ hk')
        obtain ⟨st1, hrun, happs⟩ := ih _ hk1 hu1 hnd' hall1
        refine ⟨st1, hrun, ?_⟩
        rw [happs]
        have : (Application.unregister st k app).applications
            = QMap.remove st.applications k := ha
        rw [this, QMap.remove, List.filter_filter]
        apply List.filter_congr
        intro e he
        by_cases hek : e.1 = k
        · have he2 : e.2 = app :=
            value_of_unique _ k app e.2 hu hfind (by rw [← hek]; exact he)
          have hkept : AppsAPI.keptByStep1 names e = false := by
            unfold AppsAPI.keptByStep1
            rw [hek, he2]
            simpa using hrm
          simp [hek, hkept]
        · simp [hek]
      · simp only [hrm, Bool.false_eq_true, if_false, Option.bind_eq_bind, Option.some_bind]
        have hall1 : ∀ k' ∈ ks, (QMap.find? st.applications k').isSome = true :=
          fun k' hk' => hall k' (List.mem_cons_of_mem _ hk')
        obtain ⟨st1, hrun, happs⟩ := ih st hk hu hnd' hall1
        refine ⟨st1, hrun, ?_⟩
        rw [happs]
        apply List.filter_congr
        intro e he
        by_cases hek : e.1 = k
        · have he2 : e.2 = app :=
            value_of_unique _ k app e.2 hu hfind (by rw [← hek]; exact he)
          have hkept : AppsAPI.keptByStep1 names e = true := by
            unfold AppsAPI.keptByStep1
            rw [hek, he2]
            revert hrm
            cases names.contains k <;> cases app.systemApp <;> simp
          simp [hkept]
        · simp [hek]

/-- Step 1 of `readApplications` completes on a registry that holds every Application
under its own name, with distinct keys, and leaves the Applications that `keptByStep1`
keeps. -/
theorem unregisterAbsent_kept (s : AppsAPI) (hk : KeyedByName s) (hu : UniqueKeys s) :
    ∃ s1, AppsAPI.unregisterAbsent s = some s1
      ∧ s1.applications
          = s.applications.filter
              (fun e => (AppsAPI.persistedNames s).contains e.1 || e.2.systemApp)
      ∧ (∀ e ∈ s.applications,
          (e.2.systemApp = true ∨ (AppsAPI.persistedNames s).contains e.1 = true) →
          e ∈ s1.applications) := by
  have hmain : ∃ s1, AppsAPI.unregisterAbsent s = some s1
      ∧ s1.applications
          = s.applications.filter (AppsAPI.keptByStep1 (AppsAPI.persistedNames s)) := by
    unfold AppsAPI.unregisterAbsent
    by_cases hempty : s.applications.isEmpty = true
    · simp only [hempty, if_true]
      refine ⟨s, rfl, ?_⟩
      have : s.applications = [] := List.isEmpty_iff.1 hempty
      rw [this]; rfl
    · simp only [hempty, Bool.false_eq_true, if_false]
      obtain ⟨s1, hrun, happs⟩ := unregisterAbsent_loop (AppsAPI.persistedNames s)
        (QMap.keys s.applications) s hk hu hu
        (fun k hk' => by
          obtain ⟨e, he, hek⟩ := List.mem_map.1 hk'
          rw [← hek]
          exact QMap.find?_isSome_of_mem _ he)
      refine ⟨s1, hrun, ?_⟩
      rw [happs]
      apply List.filter_congr
      intro e he
      have : (QMap.keys s.applications).contains e.1 = true :=
        List.elem_iff.2 (List.mem_map.2 ⟨e, he, rfl⟩)
      rw [this]
      rfl
  obtain ⟨s1, hrun, happs⟩ := hmain
  refine ⟨s1, hrun, ?_, ?_⟩
  · rw [happs]; rfl
  · intro e he hkeep
    rw [happs]
    apply List.mem_filter.2
    refine ⟨he, ?_⟩
    unfold AppsAPI.keptByStep1
    rcases hkeep with h | h <;> rw [h]
    · exact Bool.or_true _
    · exact Bool.true_or _

/-- The names that step 1 collects are the names of the records of the store. -/
theorem persistedNames_contains_iff (s : AppsAPI) (name : String) :
    (AppsAPI.persistedNames s).contains name = true ↔ persistedIn s.settings name := by
  have hkey : ∀ i : Nat, AppsAPI.arrayGroup i ++ "name"
      = "applications/" ++ toString (i + 1) ++ "/name" := by
    intro i
    unfold AppsAPI.arrayGroup
    rw [String.append_assoc]
    rfl
  unfold AppsAPI.persistedNames persistedIn AppsAPI.beginReadArray AppsAPI.recordValue
  refine Iff.trans List.elem_iff ?_
  rw [List.mem_map]
  constructor
  · rintro ⟨i, hi, hn⟩
    refine ⟨i, Int.lt_toNat.1 (List.mem_range.1 hi), ?_⟩
    rw [← hkey]
    exact hn
  · rintro ⟨i, hi, hn⟩
    refine ⟨i, List.mem_range.2 (Int.lt_toNat.2 hi), ?_⟩
    rw [hkey]
    exact hn

/-- C20: in a registry that holds every Application under its own name, with distinct
keys, step 1 of `reload` completes; every Application that is not system-flagged and
whose name is the name of no record of the store is unregistered; every Application that
is system-flagged or whose name is the name of a record of the store stays as it is; and
the step adds no Application and keeps the order of those that stay. -/
theorem unregisterAbsent_spec (s : AppsAPI) (hk : KeyedByName s) (hu : UniqueKeys s) :
    ∃ s1, AppsAPI.unregisterAbsent s = some s1
      ∧ (∀ e ∈ s.applications,
          e.2.systemApp = false → ¬ persistedIn s.settings e.1 →
          QMap.contains s1.applications e.1 = false)
      ∧ (∀ e ∈ s.applications,
          (e.2.systemApp = true ∨ persistedIn s.settings e.1) → e ∈ s1.applications)
      ∧ List.Sublist s1.applications s.applications := by
  obtain ⟨s1, hrun, happs, hkeep⟩ := unregisterAbsent_kept s hk hu
  refine ⟨s1, hrun, ?_, ?_, ?_⟩
  · intro e he hsys hnot
    have hnot1 : (AppsAPI.persistedNames s).contains e.1 = false := by
      cases hc : (AppsAPI.persistedNames s).contains e.1 with
      | false => rfl
      | true => exact absurd ((persistedNames_contains_iff s e.1).1 hc) hnot
    rw [QMap.contains_eq_isSome]
    cases hf : QMap.find? s1.applications e.1 with
    | none => rfl
    | some v =>
      have hmem := QMap.mem_of_find? _ hf
      rw [happs] at hmem
      obtain ⟨hmem1, hkept⟩ := List.mem_filter.1 hmem
      have hv : v = e.2 := by
        have hfs : (QMap.find? s.applications e.1).isSome = true :=
          QMap.find?_isSome_of_mem _ he
        cases hf2 : QMap.find? s.applications e.1 with
        | none => simp [hf2] at hfs
        | some w =>
          rw [value_of_unique _ e.1 w v hu hf2 hmem1,
            value_of_unique _ e.1 w e.2 hu hf2 he]
      rw [hv] at hkept
      simp only [hsys, hnot1, Bool.or_false, Bool.false_eq_true] at hkept
  · intro e he h
    apply hkeep e he
    rcases h with h | h
    · exact Or.inl h
    · exact Or.inr ((persistedNames_contains_iff s e.1).2 h)
  · rw [happs]
    exact List.filter_sublist _

/-- C20 at `threeApps`, whose store holds the record of `reader` alone: `clock`, which is
not system-flagged and has no record, is unregistered; `reader`, which is not
system-flagged and has a record, stays; the system application, which has no record,
stays. -/
theorem unregisterAbsent_spec_witness :
    (persistedIn threeApps.settings "reader" ∧ ¬ persistedIn threeApps.settings "clock"
      ∧ ¬ persistedIn threeApps.settings "codes.eeems.erode"
      ∧ readerApp.systemApp = false ∧ clockApp.systemApp = false
      ∧ erodeApp.systemApp = true)
    ∧ ∃ s1, AppsAPI.unregisterAbsent threeApps = some s1
        ∧ QMap.contains s1.applications "clock" = false
        ∧ ("reader", readerApp) ∈ s1.applications
        ∧ ("codes.eeems.erode", erodeApp) ∈ s1.applications := by
  have hsize : (QMap.value threeApps.settings "applications/size" QVariant.invalid).toInt
      = 1 := by decide
  have hreader : persistedIn threeApps.settings "reader" := ⟨0, by decide, by decide⟩
  have hothers : ∀ name, name ≠ "reader" → ¬ persistedIn threeApps.settings name := by
    rintro name hne ⟨i, hi, hn⟩
    rw [hsize] at hi
    have hi0 : i = 0 := by omega
    subst hi0
    apply hne
    rw [← hn]
    decide
  have hclock := hothers "clock" (by decide)
  have herode := hothers "codes.eeems.erode" (by decide)
  refine ⟨⟨hreader, hclock, herode, by decide, by decide, by decide⟩, ?_⟩
  obtain ⟨s1, hrun, hgone, hstay, _⟩ := unregisterAbsent_spec threeApps (by decide)
    (by unfold UniqueKeys; decide)
  exact ⟨s1, hrun, hgone ("clock", clockApp) (by decide) (by decide) hclock,
    hstay ("reader", readerApp) (by decide) (Or.inr hreader),
    hstay ("codes.eeems.erode", erodeApp) (by decide) (Or.inl (by decide))⟩

/-! ## Reconciliation: which keys stay -/

theorem contains_iff_mem_keys {V : Type} (m : QMap V) (k : String) :
    QMap.contains m k = true ↔ k ∈ QMap.keys m := by
  unfold QMap.contains QMap.keys
  simp only [List.any_eq_true, beq_iff_eq, List.mem_map]

theorem contains_insert_of_contains {V : Type} (m : QMap V) (k k1 : String) (v : V)
    (h : QMap.contains m k1 = true) : QMap.contains (QMap.insert m k v) k1 = true := by
  rw [QMap.contains_eq_isSome] at h ⊢
  by_cases hk : k1 = k
  · rw [hk, QMap.find?_insert_self]; rfl
  · rw [QMap.find?_insert_other _ _ hk]; exact h

theorem contains_modify {V : Type} (m : QMap V) (k k1 : String) (f : V → V) :
    QMap.contains (QMap.modify m k f) k1 = QMap.contains m k1 := by
  rw [Bool.eq_iff_iff, contains_iff_mem_keys, contains_iff_mem_keys, keys_modify]

theorem contains_remove_of_ne {V : Type} (m : QMap V) (k k1 : String) (hne : k1 ≠ k)
    (h : QMap.contains m k1 = true) : QMap.contains (QMap.remove m k) k1 = true := by
  rw [QMap.contains_eq_isSome] at h ⊢
  rw [QMap.find?_remove_other _ hne]; exact h

theorem contains_of_contains_remove {V : Type} (m : QMap V) (k k1 : String)
    (h : QMap.contains (QMap.remove m k) k1 = true) : QMap.contains m k1 = true := by
  rw [contains_iff_mem_keys] at h ⊢
  obtain ⟨e, he, hek⟩ := List.mem_map.1 h
  exact List.mem_map.2 ⟨e, List.mem_of_mem_filter he, hek⟩

theorem KeysKept.refl (s : AppsAPI) : KeysKept s s := fun _ h => h

theorem KeysKept.trans {s s1 s2 : AppsAPI} (h1 : KeysKept s s1) (h2 : KeysKept s1 s2) :
    KeysKept s s2 := fun k h => h2 k (h1 k h)

/-- What a registration does to the map, in whatever group the settings are written. -/
theorem registerApplicationIn_applications (group : String) (env : Env) (s : AppsAPI)
    (properties : QVariantMap) :
    (AppsAPI.registerApplicationIn group env s properties).2 = s
    ∨ (QMap.find? s.applications (AppsAPI.propName properties) = none
      ∧ (AppsAPI.propName properties).isEmpty = false
      ∧ (AppsAPI.registerApplicationIn group env s properties).2.applications
          = QMap.insert s.applications (AppsAPI.propName properties)
              ((Application.create (AppsAPI.getPath env (AppsAPI.propName properties))).setConfig
                properties)) := by
  unfold AppsAPI.registerApplicationIn
  simp only
  split
  · exact Or.inl rfl
  · rename_i hvalid
    cases hfind : QMap.find? s.applications (AppsAPI.propName properties) with
    | some existing => exact Or.inl rfl
    | none =>
      refine Or.inr ⟨rfl, ?_, rfl⟩
      simp only [not_or] at hvalid
      simpa using hvalid.2.2.1

theorem registerApplicationIn_keysKept (group : String) (env : Env) (s : AppsAPI)
    (properties : QVariantMap) :
    KeysKept s (AppsAPI.registerApplicationIn group env s properties).2 := by
  rcases registerApplicationIn_applications group env s properties with h | ⟨_, _, h⟩
  · rw [h]; exact KeysKept.refl s
  · intro k hk
    rw [h]
    exact contains_insert_of_contains _ _ _ _ hk

theorem registerApplication_keysKept (env : Env) (s : AppsAPI) (properties : QVariantMap) :
    KeysKept s (AppsAPI.registerApplication env s properties).2 := by
  by_cases hv : AppsAPI.propType properties < Foreground
    ∨ AppsAPI.propType properties > Background
    ∨ (AppsAPI.propName properties).isEmpty = true
    ∨ (AppsAPI.propBin properties).isEmpty = true
    ∨ env.fileExists (AppsAPI.propBin properties) = false
  · rw [AppsAPI.registerApplication_of_invalid env s properties hv]
    exact KeysKept.refl s
  · cases hfind : QMap.find? s.applications (AppsAPI.propName properties) with
    | some existing =>
      rw [AppsAPI.registerApplication_of_existing env s properties existing hv hfind]
      exact KeysKept.refl s
    | none =>
      intro k hk
      rw [(AppsAPI.registerApplication_of_new env s properties hv hfind).2.1]
      exact contains_insert_of_contains _ _ _ _ hk

theorem writeApplicationsIn_applications (group : String) (s : AppsAPI) :
    (AppsAPI.writeApplicationsIn group s).applications = s.applications := rfl

theorem writeApplicationsIn_trace (group : String) (s : AppsAPI) :
    (AppsAPI.writeApplicationsIn group s).trace = s.trace := rfl

theorem readRecord_keysKept (env : Env) (s : AppsAPI) (i : Nat) :
    KeysKept s (AppsAPI.readRecord env s i) := by
  unfold AppsAPI.readRecord
  split
  · exact KeysKept.refl s
  · simp only
    split
    · intro k hk
      rw [writeApplicationsIn_applications]
      simp only [contains_modify]; exact hk
    · exact registerApplicationIn_keysKept _ env s _

theorem readPersisted_keysKept (env : Env) (s : AppsAPI) :
    KeysKept s (AppsAPI.readPersisted env s) := by
  unfold AppsAPI.readPersisted
  generalize List.range (AppsAPI.beginReadArray s) = l
  induction l generalizing s with
  | nil => exact KeysKept.refl s
  | cons i rest ih =>
    exact KeysKept.trans (readRecord_keysKept env s i) (ih _)

theorem registerDescriptor_keysKept (env : Env) (s : AppsAPI) (app : QJsonObject) :
    KeysKept s (AppsAPI.registerDescriptor env s app) := by
  unfold AppsAPI.registerDescriptor
  split
  · exact KeysKept.refl s
  · simp only
    split
    · intro k hk
      rw [AppsAPI.writeApplications_applications]
      simp only [contains_modify]; exact hk
    · exact registerApplication_keysKept env s _

theorem registerDescriptors_keysKept (env : Env) (apps : QMap QJsonObject) (s : AppsAPI) :
    KeysKept s (AppsAPI.registerDescriptors env s apps) := by
  unfold AppsAPI.registerDescriptors
  generalize QMap.values apps = l
  induction l generalizing s with
  | nil => exact KeysKept.refl s
  | cons app rest ih =>
    exact KeysKept.trans (registerDescriptor_keysKept env s app) (ih _)

theorem unregisterApplicationPtr_applications (s : AppsAPI) (key : String)
    (app : Application) :
    (AppsAPI.unregisterApplicationPtr s key app).applications = s.applications
    ∨ (AppsAPI.unregisterApplicationPtr s key app).applications
        = QMap.remove s.applications app.name := by
  unfold AppsAPI.unregisterApplicationPtr
  by_cases hc : QMap.contains s.applications app.name = true
  · simp only [hc, if_true]
    exact Or.inr rfl
  · simp only [hc]
    exact Or.inl rfl

/-- The loop over `applications.values()` keeps a key when every Application of that name
either has no descriptor or is system-flagged. -/
theorem matchDescriptors_keeps (apps0 : QMap QJsonObject) (key : String)
    (entries : List (String × Application))
    (hprot : ∀ e ∈ entries, e.2.name = key →
      QMap.contains apps0 key = false ∨ e.2.systemApp = true) :
    ∀ acc : AppsAPI × QMap QJsonObject,
      (∀ n, QMap.contains acc.2 n = true → QMap.contains apps0 n = true) →
      QMap.contains acc.1.applications key = true →
      QMap.contains (entries.foldl AppsAPI.matchDescriptor acc).1.applications key = true := by
  induction entries with
  | nil => intro acc _ h; exact h
  | cons e rest ih =>
    intro acc hsub hin
    simp only [List.foldl_cons, AppsAPI.matchDescriptor]
    have hprot' : ∀ e1 ∈ rest, e1.2.name = key →
        QMap.contains apps0 key = false ∨ e1.2.systemApp = true :=
      fun e1 he1 => hprot e1 (List.mem_cons_of_mem _ he1)
    by_cases hc : QMap.contains acc.2 e.2.name = true
    · by_cases hsys : e.2.systemApp = true
      · simp only [hc, hsys, Bool.not_true, Bool.false_eq_true, if_false]
        exact ih hprot' (acc.1, QMap.remove acc.2 e.2.name)
          (fun n hn => hsub n (contains_of_contains_remove _ _ _ hn)) hin
      · simp only [hc, hsys, Bool.not_true, Bool.false_eq_true, if_false, Bool.not_false,
          if_true]
        refine ih hprot' (Application.unregister acc.1 e.1 e.2, acc.2) hsub ?_
        have hne : key ≠ e.2.name := by
          intro heq
          rcases hprot e (List.mem_cons_self _ _) heq.symm with h | h
          · have := hsub _ hc
            rw [← heq, h] at this
            cases this
          · exact hsys h
        rcases unregisterApplicationPtr_applications acc.1 e.1 e.2 with h | h
        · show QMap.contains (AppsAPI.unregisterApplicationPtr acc.1 e.1 e.2).applications key
            = true
          rw [h]; exact hin
        · show QMap.contains (AppsAPI.unregisterApplicationPtr acc.1 e.1 e.2).applications key
            = true
          rw [h]; exact contains_remove_of_ne _ _ _ hne hin
    · simp only [hc, Bool.not_false, if_true]
      exact ih hprot' acc hsub hin

theorem reload_eq (env : Env) (s s1 : AppsAPI) (h : AppsAPI.unregisterAbsent s = some s1) :
    AppsAPI.reload env s
      = some (AppsAPI.writeApplications
          (AppsAPI.registerDescriptors env
            (AppsAPI.matchDescriptors (AppsAPI.readPersisted env s1)
              (AppsAPI.scanDescriptors env)).1
            (AppsAPI.matchDescriptors (AppsAPI.readPersisted env s1)
              (AppsAPI.scanDescriptors env)).2)) := by
  unfold AppsAPI.reload AppsAPI.readApplications
  rw [h]
  rfl

/-- C13 (what the code does): in a registry that holds every Application under its own
name, with distinct keys, a system-flagged Application whose descriptor is not in the
descriptor directory is still registered under its name after `reload`: the absence of
its descriptor unregisters no Application. -/
theorem reload_keeps_system_without_descriptor (env : Env) (s : AppsAPI) (key : String)
    (app : Application) (hk : KeyedByName s) (hu : UniqueKeys s)
    (hmem : (key, app) ∈ s.applications) (hsys : app.systemApp = true)
    (hdesc : QMap.contains (AppsAPI.scanDescriptors env) key = false) :
    ∃ s1, AppsAPI.reload env s = some s1 ∧ QMap.contains s1.applications key = true := by
  obtain ⟨s1, hrun, _, hkeep⟩ := unregisterAbsent_kept s hk hu
  have h1 : QMap.contains s1.applications key = true := by
    rw [QMap.contains_eq_isSome]
    exact QMap.find?_isSome_of_mem _ (hkeep (key, app) hmem (Or.inl hsys))
  have h2 := readPersisted_keysKept env s1 key h1
  have h3 := matchDescriptors_keeps (AppsAPI.scanDescriptors env) key
    (AppsAPI.readPersisted env s1).applications (fun _ _ _ => Or.inl hdesc)
    (AppsAPI.readPersisted env s1, AppsAPI.scanDescriptors env) (fun _ h => h) h2
  refine ⟨_, reload_eq env s s1 hrun, ?_⟩
  rw [AppsAPI.writeApplications_applications]
  exact registerDescriptors_keysKept env _ _ key h3

/-- C13 (amended), at the system application of `twoApps` with an empty descriptor
directory. -/
theorem reload_keeps_system_without_descriptor_witness :
    QMap.contains (AppsAPI.scanDescriptors env0) "codes.eeems.erode" = false
    ∧ ∃ s1, AppsAPI.reload env0 twoApps = some s1
        ∧ QMap.contains s1.applications "codes.eeems.erode" = true :=
  ⟨by decide,
   reload_keeps_system_without_descriptor env0 twoApps "codes.eeems.erode" erodeApp
     (by decide) (by unfold UniqueKeys; decide) (by decide) (by decide) (by decide)⟩

/-- C13 (counterexample): the system application `codes.eeems.erode` is registered, its
descriptor is not in the descriptor directory, and after `reload` it is still registered
under its name. -/
theorem reload_leaves_system_without_descriptor :
    erodeApp.systemApp = true
    ∧ env0.descriptors = []
    ∧ (AppsAPI.reload env0 twoApps).map (fun s => QMap.keys s.applications)
        = some ["codes.eeems.erode"] :=
  ⟨by decide, rfl, by decide⟩

/-! ## Reconciliation keeps the registry well-formed -/

theorem recordProperties_name (s : AppsAPI) (i : Nat) (properties : QVariantMap)
    (h : AppsAPI.recordProperties s i = some properties) :
    QMap.find? properties "name"
      = some (QVariant.str (AppsAPI.recordValue s i "name" QVariant.invalid).toString) := by
  unfold AppsAPI.recordProperties at h
  simp only at h
  split at h
  · cases h
  · simp only [Option.some.injEq] at h
    rw [← h]
    split <;> split <;>
      simp [AppsAPI.ofList, QMap.find?_insert_self, QMap.find?_insert_other]

theorem name_of_setConfig (a : Application) (properties : QVariantMap) (name : String)
    (h : QMap.find? properties "name" = some (QVariant.str name)) :
    (a.setConfig properties).name = name := by
  unfold Application.name Application.setConfig QMap.value
  simp only [h]
  rfl

theorem mem_modify {V : Type} (m : QMap V) (k : String) (f : V → V) (e : String × V)
    (h : e ∈ QMap.modify m k f) :
    ∃ e0 ∈ m, e = (if e0.1 = k then (e0.1, f e0.2) else e0) := by
  unfold QMap.modify at h
  obtain ⟨e0, he0, heq⟩ := List.mem_map.1 h
  exact ⟨e0, he0, heq.symm⟩

/-- Setting the configuration of the Application under `name` to properties whose name
is `name` keeps the registry well-formed. -/
theorem modify_wellFormed (s s1 : AppsAPI) (name : String) (properties : QVariantMap)
    (hname : QMap.find? properties "name" = some (QVariant.str name))
    (happs : s1.applications
      = QMap.modify s.applications name (fun a => a.setConfig properties))
    (h : KeyedByName s ∧ UniqueKeys s) : KeyedByName s1 ∧ UniqueKeys s1 := by
  refine ⟨?_, ?_⟩
  · intro e he
    rw [happs] at he
    obtain ⟨e0, he0, heq⟩ := mem_modify _ _ _ _ he
    by_cases hk : e0.1 = name
    · rw [heq]
      simp only [hk, if_true]
      exact name_of_setConfig _ _ _ hname
    · rw [heq]
      simp only [hk, if_false]
      exact h.1 e0 he0
  · unfold UniqueKeys
    rw [happs, keys_modify]
    exact h.2

theorem insert_wellFormed (env : Env) (s s1 : AppsAPI) (properties : QVariantMap)
    (happs : s1.applications
      = QMap.insert s.applications (AppsAPI.propName properties)
          ((Application.create (AppsAPI.getPath env (AppsAPI.propName properties))).setConfig
            properties))
    (h : KeyedByName s ∧ UniqueKeys s) : KeyedByName s1 ∧ UniqueKeys s1 := by
  refine ⟨?_, ?_⟩
  · intro e he
    rw [happs] at he
    rcases (QMap.mem_insert _ _ _ e).1 he with rfl | ⟨he', _⟩
    · exact name_of_created _ _
    · exact h.1 e he'
  · unfold UniqueKeys
    rw [happs]
    exact nodup_keys_insert _ _ _ h.2

theorem readRecord_wellFormed (env : Env) (s : AppsAPI) (i : Nat)
    (h : KeyedByName s ∧ UniqueKeys s) :
    KeyedByName (AppsAPI.readRecord env s i) ∧ UniqueKeys (AppsAPI.readRecord env s i) := by
  unfold AppsAPI.readRecord
  cases hrec : AppsAPI.recordProperties s i with
  | none => exact h
  | some properties =>
    simp only
    split
    · exact modify_wellFormed s _ _ properties (recordProperties_name s i properties hrec)
        rfl h
    · rcases registerApplicationIn_applications (AppsAPI.arrayGroup i) env s properties
        with heq | ⟨_, _, happs⟩
      · rw [heq]; exact h
      · exact insert_wellFormed env s _ properties happs h

theorem readPersisted_wellFormed (env : Env) (s : AppsAPI)
    (h : KeyedByName s ∧ UniqueKeys s) :
    KeyedByName (AppsAPI.readPersisted env s) ∧ UniqueKeys (AppsAPI.readPersisted env s) := by
  unfold AppsAPI.readPersisted
  generalize List.range (AppsAPI.beginReadArray s) = l
  induction l generalizing s with
  | nil => exact h
  | cons i rest ih => exact ih _ (readRecord_wellFormed env s i h)

theorem filter_wellFormed (s s1 : AppsAPI) (p : String × Application → Bool)
    (happs : s1.applications = s.applications.filter p)
    (h : KeyedByName s ∧ UniqueKeys s) : KeyedByName s1 ∧ UniqueKeys s1 := by
  refine ⟨?_, ?_⟩
  · intro e he
    rw [happs] at he
    exact h.1 e (List.mem_of_mem_filter he)
  · unfold UniqueKeys QMap.keys
    rw [happs]
    exact h.2.sublist ((List.filter_sublist _).map Prod.fst)

/-- C14 (what the code does): in a registry that holds every Application under its own
name, with distinct keys, steps 1 and 2 of `reload` keep every system-flagged Application
registered, whether or not its name is in the persisted store; and an Application that is
still system-flagged once step 2 has applied the persisted records is still registered
under the same name after `reload`, whether its descriptor is present or not. -/
theorem reload_keeps_system_flagged (env : Env) (s : AppsAPI) (key : String)
    (app : Application) (hk : KeyedByName s) (hu : UniqueKeys s)
    (hmem : (key, app) ∈ s.applications) (hsys : app.systemApp = true) :
    (∃ s1, AppsAPI.unregisterAbsent s = some s1
      ∧ QMap.contains s1.applications key = true
      ∧ QMap.contains (AppsAPI.readPersisted env s1).applications key = true)
    ∧ (AppsAPI.systemAfterStep2 env s key = true →
        ∃ s2, AppsAPI.reload env s = some s2 ∧ QMap.contains s2.applications key = true) := by
  obtain ⟨s1, hrun, happs, hkeep⟩ := unregisterAbsent_kept s hk hu
  have h1 : QMap.contains s1.applications key = true := by
    rw [QMap.contains_eq_isSome]
    exact QMap.find?_isSome_of_mem _ (hkeep (key, app) hmem (Or.inl hsys))
  have h2 := readPersisted_keysKept env s1 key h1
  refine ⟨⟨s1, hrun, h1, h2⟩, ?_⟩
  intro hstill
  have hwf1 := filter_wellFormed s s1 _ happs ⟨hk, hu⟩
  have hwf2 := readPersisted_wellFormed env s1 hwf1
  unfold AppsAPI.systemAfterStep2 at hstill
  simp only [hrun] at hstill
  cases hfind : QMap.find? (AppsAPI.readPersisted env s1).applications key with
  | none => simp [hfind] at hstill
  | some app2 =>
    simp only [hfind] at hstill
    have h3 := matchDescriptors_keeps (AppsAPI.scanDescriptors env) key
      (AppsAPI.readPersisted env s1).applications
      (fun e he hname => by
        have hkey : e.1 = key := by rw [← hwf2.1 e he]; exact hname
        have : e.2 = app2 :=
          value_of_unique _ key app2 e.2 hwf2.2 hfind (by rw [← hkey]; exact he)
        exact Or.inr (this ▸ hstill))
      (AppsAPI.readPersisted env s1, AppsAPI.scanDescriptors env) (fun _ h => h) h2
    refine ⟨_, reload_eq env s s1 hrun, ?_⟩
    rw [AppsAPI.writeApplications_applications]
    exact registerDescriptors_keysKept env _ _ key h3

/-- C14 (amended), at the system application of `twoApps`, whose descriptor is present in
`env3` while its binary is not: nothing in the store takes its flag away, and it is still
registered after `reload`. -/
theorem reload_keeps_system_flagged_witness :
    QMap.contains (AppsAPI.scanDescriptors env3) "codes.eeems.erode" = true
    ∧ ∃ s2, AppsAPI.reload env3 twoApps = some s2
        ∧ QMap.contains s2.applications "codes.eeems.erode" = true :=
  ⟨by decide,
   (reload_keeps_system_flagged env3 twoApps "codes.eeems.erode" erodeApp
     (by decide) (by unfold UniqueKeys; decide) (by decide) (by decide)).2 (by decide)⟩

/-- C14 (counterexample): the system application is registered and its descriptor is in
the descriptor directory, but the persisted record of its name carries no flags and the
binary of the descriptor does not exist: step 2 takes the flag away, the loop over the
Applications unregisters it, the descriptor is skipped, and after `reload` the name is
no longer registered. -/
theorem reload_removes_system_with_descriptor :
    (erodeApp.systemApp = true
      ∧ QMap.contains erodeWithoutFlags.applications "codes.eeems.erode" = true
      ∧ QMap.contains (AppsAPI.scanDescriptors env3) "codes.eeems.erode" = true)
    ∧ (AppsAPI.reload env3 erodeWithoutFlags).map
        (fun s => QMap.contains s.applications "codes.eeems.erode") = some false := by
  decide

/-! ## The keys of the settings array -/

theorem digitChar_toNat (d : Nat) (h : d < 10) : (Nat.digitChar d).toNat = d + 48 := by
  interval_cases d <;> rfl

theorem digitChar_ne_slash (d : Nat) (h : d < 10) : Nat.digitChar d ≠ '/' := by
  interval_cases d <;> decide

theorem toDigitsCore_no_slash (fuel : Nat) :
    ∀ (n : Nat) (ds : List Char), '/' ∉ ds → '/' ∉ Nat.toDigitsCore 10 fuel n ds := by
  induction fuel with
  | zero => intro n ds h; exact h
  | succ fuel ih =>
    intro n ds h
    have hd : '/' ∉ Nat.digitChar (n % 10) :: ds := by
      simp only [List.mem_cons, not_or]
      exact ⟨(digitChar_ne_slash _ (Nat.mod_lt _ (by decide))).symm, h⟩
    simp only [Nat.toDigitsCore]
    split
    · exact hd
    · exact ih _ _ hd

theorem toDigitsCore_value (fuel : Nat) :
    ∀ (n : Nat) (ds : List Char), n < fuel →
      AppsAPI.decimalValue (Nat.toDigitsCore 10 fuel n ds)
        = n * 10 ^ ds.length + AppsAPI.decimalValue ds := by
  induction fuel with
  | zero => intro n ds h; omega
  | succ fuel ih =>
    intro n ds h
    have hmod : n % 10 < 10 := Nat.mod_lt _ (by decide)
    have hval : AppsAPI.decimalValue (Nat.digitChar (n % 10) :: ds)
        = n % 10 * 10 ^ ds.length + AppsAPI.decimalValue ds := by
      simp only [AppsAPI.decimalValue, digitChar_toNat _ hmod, Nat.add_sub_cancel]
    simp only [Nat.toDigitsCore]
    split
    · rename_i hzero
      rw [hval]
      have : n % 10 = n := by omega
      rw [this]
    · rename_i hpos
      have hlt : n / 10 < fuel := by omega
      rw [ih _ _ hlt, hval, List.length_cons, pow_succ]
      have hn : n = 10 * (n / 10) + n % 10 := (Nat.div_add_mod n 10).symm
      generalize n / 10 = q at hn ⊢
      generalize n % 10 = r at hn ⊢
      rw [hn]
      ring

theorem toString_nat_no_slash (n : Nat) : '/' ∉ (toString n).data :=
  toDigitsCore_no_slash _ _ _ (by simp)

theorem toString_nat_injective (a b : Nat) (h : toString a = toString b) : a = b := by
  have ha : AppsAPI.decimalValue (toString a).data = a := by
    show AppsAPI.decimalValue (Nat.toDigitsCore 10 (a + 1) a []) = a
    rw [toDigitsCore_value _ _ _ (Nat.lt_succ_self a)]
    simp [AppsAPI.decimalValue]
  have hb : AppsAPI.decimalValue (toString b).data = b := by
    show AppsAPI.decimalValue (Nat.toDigitsCore 10 (b + 1) b []) = b
    rw [toDigitsCore_value _ _ _ (Nat.lt_succ_self b)]
    simp [AppsAPI.decimalValue]
  rw [← ha, ← hb, h]

theorem append_cons_inj {α : Type} (a : α) (l1 : List α) :
    ∀ (l2 r1 r2 : List α), a ∉ l1 → a ∉ l2 → l1 ++ a :: r1 = l2 ++ a :: r2 →
      l1 = l2 ∧ r1 = r2 := by
  induction l1 with
  | nil =>
    intro l2 r1 r2 _ h2 h
    cases l2 with
    | nil => simpa using h
    | cons b l2 =>
      simp only [List.nil_append, List.cons_append, List.cons.injEq] at h
      exact absurd (h.1 ▸ List.mem_cons_self _ _) h2
  | cons c l1 ih =>
    intro l2 r1 r2 h1 h2 h
    cases l2 with
    | nil =>
      simp only [List.nil_append, List.cons_append, List.cons.injEq] at h
      exact absurd (h.1 ▸ List.mem_cons_self _ _) h1
    | cons b l2 =>
      simp only [List.cons_append, List.cons.injEq] at h
      obtain ⟨hl, hr⟩ := ih l2 r1 r2 (fun hm => h1 (List.mem_cons_of_mem _ hm))
        (fun hm => h2 (List.mem_cons_of_mem _ hm)) h.2
      exact ⟨by rw [h.1, hl], hr⟩

theorem arrayGroup_data (i : Nat) (a : String) :
    (AppsAPI.arrayGroup i ++ a).data
      = "applications/".data ++ ((toString (i + 1)).data ++ '/' :: a.data) := by
  simp [AppsAPI.arrayGroup, String.data_append]

/-- Two keys of array entries are the same only for the same index and the same rest. -/
theorem arrayGroup_append_inj (i j : Nat) (a b : String)
    (h : AppsAPI.arrayGroup i ++ a = AppsAPI.arrayGroup j ++ b) : i = j ∧ a = b := by
  have hd := congrArg String.data h
  rw [arrayGroup_data, arrayGroup_data] at hd
  have hd2 := List.append_cancel_left hd
  obtain ⟨h1, h2⟩ := append_cons_inj '/' _ _ _ _ (toString_nat_no_slash _)
    (toString_nat_no_slash _) hd2
  have := toString_nat_injective _ _ (String.ext h1)
  exact ⟨by omega, String.ext h2⟩

/-- The key of an array entry is not the key of the size of the array. -/
theorem arrayGroup_append_ne_size (i : Nat) (a : String) :
    AppsAPI.arrayGroup i ++ a ≠ "applications/size" := by
  intro h
  have hd := congrArg String.data h
  rw [arrayGroup_data] at hd
  have hd2 : (toString (i + 1)).data ++ '/' :: a.data = "size".data :=
    List.append_cancel_left hd
  have hmem : '/' ∈ "size".data := by
    rw [← hd2]; simp
  revert hmem
  decide

/-! ## Reading the settings back after `writeApplications` -/

theorem find?_foldl_insert_other {V : Type} (ws : List (String × V)) (q : String)
    (h : ∀ w ∈ ws, w.1 ≠ q) :
    ∀ m : QMap V,
      QMap.find? (ws.foldl (fun m w => QMap.insert m w.1 w.2) m) q = QMap.find? m q := by
  induction ws with
  | nil => intro m; rfl
  | cons w rest ih =>
    intro m
    simp only [List.foldl_cons]
    rw [ih (fun w1 hw1 => h w1 (List.mem_cons_of_mem _ hw1))]
    exact QMap.find?_insert_other _ _ (h w (List.mem_cons_self _ _)).symm

theorem find?_foldl_insert_self {V : Type} (ws : List (String × V)) (q : String) (v : V)
    (hval : ∀ w ∈ ws, w.1 = q → w.2 = v) :
    ∀ m : QMap V, ((∃ w ∈ ws, w.1 = q) ∨ QMap.find? m q = some v) →
      QMap.find? (ws.foldl (fun m w => QMap.insert m w.1 w.2) m) q = some v := by
  induction ws with
  | nil =>
    intro m h
    rcases h with ⟨w, hw, _⟩ | h
    · cases hw
    · exact h
  | cons w rest ih =>
    intro m h
    simp only [List.foldl_cons]
    apply ih (fun w1 hw1 => hval w1 (List.mem_cons_of_mem _ hw1))
    by_cases hw : w.1 = q
    · right
      rw [← hw, QMap.find?_insert_self, hval w (List.mem_cons_self _ _) hw]
    · rcases h with ⟨w0, hw0, hq⟩ | h
      · rcases List.mem_cons.1 hw0 with heq | hmem
        · exact absurd (heq ▸ hq) hw
        · exact Or.inl ⟨w0, hmem, hq⟩
      · right
        rw [QMap.find?_insert_other _ _ (Ne.symm hw)]
        exact h

theorem string_append_cancel_left (g a b : String) (h : g ++ a = g ++ b) : a = b := by
  have hd := congrArg String.data h
  simp only [String.data_append] at hd
  exact String.ext (List.append_cancel_left hd)

theorem writeConfigIn_eq (group : String) (settings : QMap QVariant) (i : Nat)
    (config : QVariantMap) :
    AppsAPI.writeConfigIn group settings i config
      = ((QMap.keys config).map (fun key => (group ++ AppsAPI.arrayGroup i ++ key,
            QMap.value config key QVariant.invalid))).foldl
          (fun m w => QMap.insert m w.1 w.2) settings := by
  unfold AppsAPI.writeConfigIn
  rw [List.foldl_map]

theorem writeConfigIn_find?_other (group : String) (settings : QMap QVariant) (i : Nat)
    (config : QVariantMap) (q : String)
    (h : ∀ key, group ++ AppsAPI.arrayGroup i ++ key ≠ q) :
    QMap.find? (AppsAPI.writeConfigIn group settings i config) q = QMap.find? settings q := by
  rw [writeConfigIn_eq]
  apply find?_foldl_insert_other
  intro w hw
  obtain ⟨key, _, hkey⟩ := List.mem_map.1 hw
  rw [← hkey]
  exact h key

theorem writeConfigIn_find?_self (group : String) (settings : QMap QVariant) (i : Nat)
    (config : QVariantMap) (f : String) (hf : f ∈ QMap.keys config) :
    QMap.find? (AppsAPI.writeConfigIn group settings i config)
        (group ++ AppsAPI.arrayGroup i ++ f)
      = some (QMap.value config f QVariant.invalid) := by
  rw [writeConfigIn_eq]
  apply find?_foldl_insert_self
  · intro w hw hq
    obtain ⟨key, _, hkey⟩ := List.mem_map.1 hw
    rw [← hkey] at hq ⊢
    simp only at hq ⊢
    rw [String.append_assoc, String.append_assoc] at hq
    have := (arrayGroup_append_inj i i key f (string_append_cancel_left _ _ _ hq)).2
    rw [this]
  · exact Or.inl ⟨_, List.mem_map.2 ⟨f, hf, rfl⟩, rfl⟩

/-- The outer loop of `writeApplications`, over a list of indices. -/
theorem writeLoop_find?_other (group : String) (apps : List Application) (q : String)
    (is : List Nat) (h : ∀ j ∈ is, ∀ key, group ++ AppsAPI.arrayGroup j ++ key ≠ q) :
    ∀ st : QMap QVariant,
      QMap.find? (is.foldl
        (fun st i =>
          match apps.get? i with
          | some app => AppsAPI.writeConfigIn group st i app.getConfig
          | none => st)
        st) q = QMap.find? st q := by
  induction is with
  | nil => intro st; rfl
  | cons j rest ih =>
    intro st
    simp only [List.foldl_cons]
    rw [ih (fun j1 hj1 => h j1 (List.mem_cons_of_mem _ hj1))]
    cases apps.get? j with
    | none => rfl
    | some app => exact writeConfigIn_find?_other _ _ _ _ _ (h j (List.mem_cons_self _ _))

theorem writeLoop_find?_self (group : String) (apps : List Application) (i : Nat)
    (app : Application) (f : String) (hget : apps.get? i = some app)
    (hf : f ∈ QMap.keys app.getConfig) (is : List Nat) (hnd : is.Nodup) (hi : i ∈ is) :
    ∀ st : QMap QVariant,
      QMap.find? (is.foldl
        (fun st i =>
          match apps.get? i with
          | some app => AppsAPI.writeConfigIn group st i app.getConfig
          | none => st)
        st) (group ++ AppsAPI.arrayGroup i ++ f)
      = some (QMap.value app.getConfig f QVariant.invalid) := by
  induction is with
  | nil => cases hi
  | cons j rest ih =>
    intro st
    obtain ⟨hj, hnd'⟩ := List.nodup_cons.1 hnd
    simp only [List.foldl_cons]
    by_cases hji : j = i
    · subst hji
      rw [writeLoop_find?_other]
      · simp only [hget]
        exact writeConfigIn_find?_self _ _ _ _ _ hf
      · intro j1 hj1 key hq
        rw [String.append_assoc, String.append_assoc] at hq
        have := (arrayGroup_append_inj _ _ _ _ (string_append_cancel_left _ _ _ hq)).1
        exact hj (this ▸ hj1)
    · rcases List.mem_cons.1 hi with h | h
      · exact absurd h.symm hji
      · exact ih hnd' h _

theorem writeApplicationsIn_empty (s : AppsAPI) :
    AppsAPI.writeApplicationsIn "" s = AppsAPI.writeApplications s := rfl

/-- After `writeApplications` the stored size is the number of Applications. -/
theorem writeApplications_size (s : AppsAPI) (hfits : s.applications.length < 2147483648) :
    AppsAPI.beginReadArray (AppsAPI.writeApplications s) = s.applications.length := by
  have hfind : QMap.find? (AppsAPI.writeApplications s).settings "applications/size"
      = some (QVariant.int (QMap.values s.applications).length) := by
    rw [← writeApplicationsIn_empty]
    unfold AppsAPI.writeApplicationsIn
    simp only
    rw [writeLoop_find?_other]
    · exact QMap.find?_insert_self _ _ _
    · intro j _ key
      rw [String.empty_append]
      exact arrayGroup_append_ne_size j key
  unfold AppsAPI.beginReadArray QMap.value
  rw [hfind]
  have hlen : (QMap.values s.applications).length = s.applications.length := by
    simp [QMap.values]
  simp only [Option.getD_some, QVariant.toInt, hlen]
  rw [toInt32_of_fits _ (by omega) (by omega)]
  rfl

/-- After `writeApplications` the record at the index of an Application holds each key of
its configuration with its value. -/
theorem writeApplications_field (s : AppsAPI) (i : Nat) (app : Application) (f : String)
    (hget : (QMap.values s.applications).get? i = some app)
    (hf : f ∈ QMap.keys app.getConfig) :
    QMap.find? (AppsAPI.writeApplications s).settings (AppsAPI.arrayGroup i ++ f)
      = some (QMap.value app.getConfig f QVariant.invalid) := by
  rw [← writeApplicationsIn_empty]
  unfold AppsAPI.writeApplicationsIn
  simp only
  have hlt : i < (QMap.values s.applications).length := by
    rw [List.get?_eq_some] at hget
    exact hget.1
  have := writeLoop_find?_self "" (QMap.values s.applications) i app f hget hf
    (List.range (QMap.values s.applications).length) (List.nodup_range _)
    (List.mem_range.2 hlt)
    (QMap.insert s.settings ("" ++ "applications/size")
      (QVariant.int (QMap.values s.applications).length))
  simpa using this

/-! ## What one `reload` establishes -/

theorem wellFormed_of_filter (s s1 : AppsAPI) (p : String × Application → Bool)
    (happs : s1.applications = s.applications.filter p) (h : WellFormed s) :
    WellFormed s1 := by
  obtain ⟨hk, hu⟩ := filter_wellFormed s s1 p happs ⟨h.1, h.2.1⟩
  refine ⟨hk, hu, ?_⟩
  intro e he
  rw [happs] at he
  exact h.2.2 e (List.mem_of_mem_filter he)

theorem wellFormed_of_modify (s s1 : AppsAPI) (name : String) (properties : QVariantMap)
    (hname : QMap.find? properties "name" = some (QVariant.str name))
    (happs : s1.applications
      = QMap.modify s.applications name (fun a => a.setConfig properties))
    (h : WellFormed s) : WellFormed s1 := by
  obtain ⟨hk, hu⟩ := modify_wellFormed s s1 name properties hname happs ⟨h.1, h.2.1⟩
  refine ⟨hk, hu, ?_⟩
  intro e he
  rw [happs] at he
  obtain ⟨e0, he0, heq⟩ := mem_modify _ _ _ _ he
  have : e.1 = e0.1 := by
    rw [heq]; split <;> rfl
  rw [this]
  exact h.2.2 e0 he0

theorem wellFormed_of_insert (env : Env) (s s1 : AppsAPI) (properties : QVariantMap)
    (hne : (AppsAPI.propName properties).isEmpty = false)
    (happs : s1.applications
      = QMap.insert s.applications (AppsAPI.propName properties)
          ((Application.create (AppsAPI.getPath env (AppsAPI.propName properties))).setConfig
            properties))
    (h : WellFormed s) : WellFormed s1 := by
  obtain ⟨hk, hu⟩ := insert_wellFormed env s s1 properties happs ⟨h.1, h.2.1⟩
  refine ⟨hk, hu, ?_⟩
  intro e he
  rw [happs] at he
  rcases (QMap.mem_insert _ _ _ e).1 he with rfl | ⟨he', _⟩
  · intro heq
    simp only at heq
    rw [heq] at hne
    exact absurd hne (by decide)
  · exact h.2.2 e he'

theorem readRecord_wellFormed3 (env : Env) (s : AppsAPI) (i : Nat) (h : WellFormed s) :
    WellFormed (AppsAPI.readRecord env s i) := by
  unfold AppsAPI.readRecord
  cases hrec : AppsAPI.recordProperties s i with
  | none => exact h
  | some properties =>
    simp only
    split
    · exact wellFormed_of_modify s _ _ properties (recordProperties_name s i properties hrec)
        rfl h
    · rcases registerApplicationIn_applications (AppsAPI.arrayGroup i) env s properties
        with heq | ⟨_, hne, happs⟩
      · rw [heq]; exact h
      · exact wellFormed_of_insert env s _ properties hne happs h

theorem readPersisted_wellFormed3 (env : Env) (s : AppsAPI) (h : WellFormed s) :
    WellFormed (AppsAPI.readPersisted env s) := by
  unfold AppsAPI.readPersisted
  generalize List.range (AppsAPI.beginReadArray s) = l
  induction l generalizing s with
  | nil => exact h
  | cons i rest ih => exact ih _ (readRecord_wellFormed3 env s i h)

theorem value_unique_of_mem {V : Type} (m : QMap V) (k : String) (v v1 : V)
    (hnd : (QMap.keys m).Nodup) (h : (k, v) ∈ m) (h1 : (k, v1) ∈ m) : v = v1 := by
  have hs := QMap.find?_isSome_of_mem m h
  cases hf : QMap.find? m k with
  | none => simp [hf] at hs
  | some w => rw [value_of_unique m k w v hnd hf h, value_of_unique m k w v1 hnd hf h1]

theorem mem_of_contains {V : Type} (m : QMap V) (k : String)
    (h : QMap.contains m k = true) : ∃ v, (k, v) ∈ m := by
  rw [QMap.contains_eq_isSome] at h
  cases hf : QMap.find? m k with
  | none => simp [hf] at h
  | some v => exact ⟨v, QMap.mem_of_find? _ hf⟩

theorem contains_of_mem {V : Type} (m : QMap V) (e : String × V) (h : e ∈ m) :
    QMap.contains m e.1 = true := by
  rw [QMap.contains_eq_isSome]
  exact QMap.find?_isSome_of_mem m h

theorem contains_remove_self {V : Type} (m : QMap V) (k : String) :
    QMap.contains (QMap.remove m k) k = false := by
  rw [QMap.contains_eq_isSome, QMap.find?_remove_self]
  rfl

theorem contains_remove_other {V : Type} (m : QMap V) (k k1 : String) (hne : k1 ≠ k) :
    QMap.contains (QMap.remove m k) k1 = QMap.contains m k1 := by
  rw [QMap.contains_eq_isSome, QMap.contains_eq_isSome, QMap.find?_remove_other _ hne]

/-- The invariant of the loop over `applications.values()`: `rest` holds the entries that
the loop has not reached yet. -/
theorem matchDescriptors_invariant (scan : QMap QJsonObject) (rest : List (String × Application)) :
    ∀ acc : AppsAPI × QMap QJsonObject,
      WellFormed acc.1 →
      (QMap.keys rest).Nodup →
      (∀ e ∈ rest, e ∈ acc.1.applications) →
      (∀ e ∈ acc.1.applications,
        e ∈ rest ∨ QMap.contains scan e.1 = false ∨ e.2.systemApp = true) →
      (∀ n, QMap.contains scan n = true → QMap.contains acc.2 n = false →
        ∃ a, (n, a) ∈ acc.1.applications ∧ a.systemApp = true) →
      (∀ e ∈ acc.2, e ∈ scan) →
      WellFormed (rest.foldl AppsAPI.matchDescriptor acc).1
      ∧ (∀ e ∈ (rest.foldl AppsAPI.matchDescriptor acc).1.applications,
          QMap.contains scan e.1 = false ∨ e.2.systemApp = true)
      ∧ (∀ n, QMap.contains scan n = true →
          QMap.contains (rest.foldl AppsAPI.matchDescriptor acc).2 n = false →
          ∃ a, (n, a) ∈ (rest.foldl AppsAPI.matchDescriptor acc).1.applications
            ∧ a.systemApp = true)
      ∧ (∀ e ∈ (rest.foldl AppsAPI.matchDescriptor acc).2, e ∈ scan) := by
  induction rest with
  | nil =>
    intro acc hw _ _ hj hiii hsub
    refine ⟨hw, ?_, hiii, hsub⟩
    intro e he
    rcases hj e he with h | h
    · cases h
    · exact h
  | cons e0 rest ih =>
    intro acc hw hnd hiv hj hiii hsub
    simp only [QMap.keys, List.map_cons, List.nodup_cons] at hnd
    have he0 : e0 ∈ acc.1.applications := hiv e0 (List.mem_cons_self _ _)
    have hname : e0.2.name = e0.1 := hw.1 e0 he0
    have hiv' : ∀ e ∈ rest, e ∈ acc.1.applications :=
      fun e he => hiv e (List.mem_cons_of_mem _ he)
    have hkey_rest : ∀ e ∈ rest, e.1 ≠ e0.1 := fun e he heq =>
      hnd.1 (List.mem_map.2 ⟨e, he, heq⟩)
    simp only [List.foldl_cons]
    by_cases hc : QMap.contains acc.2 e0.2.name = true
    · by_cases hsys : e0.2.systemApp = true
      · have hstep : AppsAPI.matchDescriptor acc e0 = (acc.1, QMap.remove acc.2 e0.2.name) := by
          simp [AppsAPI.matchDescriptor, hc, hsys]
        rw [hstep]
        refine ih (acc.1, QMap.remove acc.2 e0.2.name) hw hnd.2 hiv' ?_ ?_ ?_
        · intro e he
          rcases hj e he with h | h
          · rcases List.mem_cons.1 h with heq | hmem
            · exact Or.inr (Or.inr (heq ▸ hsys))
            · exact Or.inl hmem
          · exact Or.inr h
        · intro n hn hnot
          by_cases hne : n = e0.2.name
          · refine ⟨e0.2, ?_, hsys⟩
            rw [hne, hname]
            exact he0
          · rw [show (acc.1, QMap.remove acc.2 e0.2.name).2 = QMap.remove acc.2 e0.2.name
              from rfl, contains_remove_other _ _ _ hne] at hnot
            exact hiii n hn hnot
        · intro e he
          exact hsub e (List.mem_of_mem_filter he)
      · have hstep : AppsAPI.matchDescriptor acc e0
            = (Application.unregister acc.1 e0.1 e0.2, acc.2) := by
          simp [AppsAPI.matchDescriptor, hc, hsys]
        rw [hstep]
        obtain ⟨ha, _, _⟩ := AppsAPI.unregisterApplicationPtr_of_keyed acc.1 e0.1 e0.2 hw.1 he0
        rw [hname] at ha
        have happs : (Application.unregister acc.1 e0.1 e0.2).applications
            = acc.1.applications.filter (fun e => e.1 ≠ e0.1) := ha
        have hmem_iff : ∀ e, e ∈ (Application.unregister acc.1 e0.1 e0.2).applications
            ↔ e ∈ acc.1.applications ∧ e.1 ≠ e0.1 := by
          intro e
          rw [happs, List.mem_filter]
          simp
        refine ih (Application.unregister acc.1 e0.1 e0.2, acc.2)
          (wellFormed_of_filter acc.1 _ _ happs hw) hnd.2 ?_ ?_ ?_ hsub
        · intro e he
          exact (hmem_iff e).2 ⟨hiv' e he, hkey_rest e he⟩
        · intro e he
          obtain ⟨hmem, hne⟩ := (hmem_iff e).1 he
          rcases hj e hmem with h | h
          · rcases List.mem_cons.1 h with heq | hmem'
            · exact absurd (heq ▸ rfl) hne
            · exact Or.inl hmem'
          · exact Or.inr h
        · intro n hn hnot
          obtain ⟨a, hmem, hasys⟩ := hiii n hn hnot
          refine ⟨a, (hmem_iff (n, a)).2 ⟨hmem, ?_⟩, hasys⟩
          intro heq
          simp only at heq
          have : a = e0.2 :=
            value_unique_of_mem _ e0.1 a e0.2 hw.2.1 (heq ▸ hmem) he0
          exact hsys (this ▸ hasys)
    · have hstep : AppsAPI.matchDescriptor acc e0 = acc := by
        simp [AppsAPI.matchDescriptor, hc]
      rw [hstep]
      refine ih acc hw hnd.2 hiv' ?_ hiii hsub
      intro e he
      rcases hj e he with h | h
      · rcases List.mem_cons.1 h with heq | hmem
        · right
          by_cases hscan : QMap.contains scan e.1 = true
          · right
            have hnot : QMap.contains acc.2 e.1 = false := by
              rw [heq, ← hname]
              simpa using hc
            obtain ⟨a, hmem, hasys⟩ := hiii e.1 hscan hnot
            have : a = e.2 := value_unique_of_mem _ e.1 a e.2 hw.2.1 hmem he
            exact this ▸ hasys
          · left
            simpa using hscan
        · exact Or.inl hmem
      · exact Or.inr h

theorem scanDescriptors_invariant (entries : List (String × Option QJsonObject)) :
    ∀ acc : QMap QJsonObject,
      (QMap.keys acc).Nodup → (∀ e ∈ acc, (jsonAt e.2 "name").toString = e.1) →
      (QMap.keys (entries.foldl
        (fun apps entry =>
          match entry.2 with
          | none => apps
          | some app =>
            QMap.insert apps entry.1 (QMap.insert app "name" (QJsonValue.string entry.1)))
        acc)).Nodup
      ∧ ∀ e ∈ entries.foldl
          (fun apps entry =>
            match entry.2 with
            | none => apps
            | some app =>
              QMap.insert apps entry.1 (QMap.insert app "name" (QJsonValue.string entry.1)))
          acc, (jsonAt e.2 "name").toString = e.1 := by
  induction entries with
  | nil => intro acc h1 h2; exact ⟨h1, h2⟩
  | cons entry rest ih =>
    intro acc h1 h2
    simp only [List.foldl_cons]
    cases hentry : entry.2 with
    | none => exact ih acc h1 h2
    | some app =>
      apply ih
      · exact nodup_keys_insert _ _ _ h1
      · intro e he
        rcases (QMap.mem_insert _ _ _ e).1 he with rfl | ⟨he', _⟩
        · simp [jsonAt, QMap.value, QMap.find?_insert_self, QJsonValue.toString]
        · exact h2 e he'

theorem scanDescriptors_nodup (env : Env) : (QMap.keys (AppsAPI.scanDescriptors env)).Nodup :=
  (scanDescriptors_invariant env.descriptors [] List.nodup_nil (fun _ h => by cases h)).1

theorem scanDescriptors_name (env : Env) :
    ∀ e ∈ AppsAPI.scanDescriptors env, (jsonAt e.2 "name").toString = e.1 :=
  (scanDescriptors_invariant env.descriptors [] List.nodup_nil (fun _ h => by cases h)).2

theorem descriptorProperties_some (env : Env) (app : QJsonObject) (properties : QVariantMap)
    (h : AppsAPI.descriptorProperties env app = some properties) :
    QMap.find? properties "name" = some (QVariant.str (jsonAt app "name").toString)
    ∧ QMap.find? properties "flags"
        = some (QVariant.strList (AppsAPI.descriptorFlags app)) := by
  by_cases hbin : env.fileExists (jsonAt app "bin").toString = true
  · obtain ⟨p1, hp1, hname, _, _, hflags⟩ := descriptorProperties_find? env app hbin
    rw [h] at hp1
    cases hp1
    exact ⟨hname, hflags⟩
  · unfold AppsAPI.descriptorProperties at h
    simp only [Bool.not_eq_true] at hbin
    simp [hbin] at h

theorem systemApp_of_descriptor (a : Application) (app : QJsonObject)
    (properties : QVariantMap)
    (h : QMap.find? properties "flags"
      = some (QVariant.strList (AppsAPI.descriptorFlags app))) :
    (a.setConfig properties).systemApp = true := by
  unfold Application.systemApp Application.setConfig QMap.value
  simp only [h, Option.getD_some, QVariant.toStringList]
  rw [descriptorFlags_eq]
  simp

theorem propName_of_find? (properties : QVariantMap) (name : String)
    (h : QMap.find? properties "name" = some (QVariant.str name)) :
    AppsAPI.propName properties = name := by
  unfold AppsAPI.propName QMap.value
  rw [h]
  rfl

/-- One round of the loop over the descriptors left in `apps`. -/
theorem registerDescriptor_invariant (env : Env) (s : AppsAPI) (app : QJsonObject)
    (hw : WellFormed s) :
    WellFormed (AppsAPI.registerDescriptor env s app)
    ∧ (∀ e ∈ (AppsAPI.registerDescriptor env s app).applications,
        e ∈ s.applications ∨ e.2.systemApp = true)
    ∧ (QMap.contains (AppsAPI.registerDescriptor env s app).applications
          (jsonAt app "name").toString = true
        ∨ Refused env app) := by
  unfold AppsAPI.registerDescriptor
  cases hprops : AppsAPI.descriptorProperties env app with
  | none =>
    refine ⟨hw, fun e he => Or.inl he, Or.inr ?_⟩
    unfold Refused
    rw [hprops]
    trivial
  | some properties =>
    obtain ⟨hname, hflags⟩ := descriptorProperties_some env app properties hprops
    simp only
    by_cases hc : QMap.contains s.applications (jsonAt app "name").toString = true
    · simp only [hc, if_true]
      refine ⟨wellFormed_of_modify s _ _ properties hname rfl hw, ?_, Or.inl ?_⟩
      · intro e he
        rw [AppsAPI.writeApplications_applications] at he
        have he' : e ∈ QMap.modify s.applications (jsonAt app "name").toString
            (fun a => a.setConfig properties) := he
        obtain ⟨e0, he0, heq⟩ := mem_modify _ _ _ _ he'
        by_cases hk : e0.1 = (jsonAt app "name").toString
        · right
          rw [heq]
          simp only [hk, if_true]
          exact systemApp_of_descriptor _ app properties hflags
        · left
          rw [heq]
          simp only [hk, if_false]
          exact he0
      · rw [AppsAPI.writeApplications_applications]
        simp only [contains_modify]
        exact hc
    · simp only [hc, Bool.false_eq_true, if_false]
      have hpn := propName_of_find? properties _ hname
      by_cases hv : refuses env properties
      · rw [AppsAPI.registerApplication_of_invalid env s properties hv]
        refine ⟨hw, fun e he => Or.inl he, Or.inr ?_⟩
        unfold Refused
        rw [hprops]
        exact hv
      · cases hfind : QMap.find? s.applications (AppsAPI.propName properties) with
        | some existing =>
          rw [hpn] at hfind
          rw [QMap.contains_eq_isSome, hfind] at hc
          simp at hc
        | none =>
          have ha := (AppsAPI.registerApplication_of_new env s properties hv hfind).2.1
          have hne : (AppsAPI.propName properties).isEmpty = false := by
            unfold refuses at hv
            simp only [not_or] at hv
            simpa using hv.2.2.1
          refine ⟨wellFormed_of_insert env s _ properties hne ha hw, ?_, Or.inl ?_⟩
          · intro e he
            rw [ha] at he
            rcases (QMap.mem_insert _ _ _ e).1 he with rfl | ⟨he', _⟩
            · right
              exact systemApp_of_descriptor _ app properties hflags
            · exact Or.inl he'
          · rw [ha, ← hpn, QMap.contains_eq_isSome, QMap.find?_insert_self]
            rfl

theorem registerDescriptors_invariant (env : Env) (ds : List QJsonObject) :
    ∀ s : AppsAPI, WellFormed s →
      WellFormed (ds.foldl (AppsAPI.registerDescriptor env) s)
      ∧ (∀ e ∈ (ds.foldl (AppsAPI.registerDescriptor env) s).applications,
          e ∈ s.applications ∨ e.2.systemApp = true)
      ∧ (∀ d ∈ ds,
          QMap.contains (ds.foldl (AppsAPI.registerDescriptor env) s).applications
            (jsonAt d "name").toString = true
          ∨ Refused env d) := by
  induction ds with
  | nil =>
    intro s hw
    exact ⟨hw, fun e he => Or.inl he, fun d hd => by cases hd⟩
  | cons d rest ih =>
    intro s hw
    simp only [List.foldl_cons]
    obtain ⟨hw1, hsys1, hd1⟩ := registerDescriptor_invariant env s d hw
    obtain ⟨hw2, hsys2, hd2⟩ := ih _ hw1
    refine ⟨hw2, ?_, ?_⟩
    · intro e he
      rcases hsys2 e he with h | h
      · exact hsys1 e h
      · exact Or.inr h
    · intro d1 hd1m
      rcases List.mem_cons.1 hd1m with heq | hmem
      · rw [heq]
        rcases hd1 with h | h
        · left
          have hkept : KeysKept (AppsAPI.registerDescriptor env s d)
              (rest.foldl (AppsAPI.registerDescriptor env)
                (AppsAPI.registerDescriptor env s d)) := by
            have := registerDescriptors_keysKept env (rest.map (fun d => ("", d)))
              (AppsAPI.registerDescriptor env s d)
            simpa [AppsAPI.registerDescriptors, QMap.values, List.map_map] using this
          exact hkept _ h
        · exact Or.inr h
      · exact hd2 d1 hmem

/-- One `reload` leaves a registry that is the result of `writeApplications` on a
reconciled registry. -/
theorem reload_reconciled (env : Env) (s s1 : AppsAPI) (hw : WellFormed s)
    (h : AppsAPI.reload env s = some s1) :
    ∃ t, s1 = AppsAPI.writeApplications t ∧ Reconciled env t := by
  obtain ⟨s0, hrun, happs, _⟩ := unregisterAbsent_kept s hw.1 hw.2.1
  rw [reload_eq env s s0 hrun] at h
  simp only [Option.some.injEq] at h
  have hw0 : WellFormed s0 := wellFormed_of_filter s s0 _ happs hw
  have hw2 := readPersisted_wellFormed3 env s0 hw0
  obtain ⟨hwm, hr2m, hiiim, hsubm⟩ := matchDescriptors_invariant (AppsAPI.scanDescriptors env)
    (AppsAPI.readPersisted env s0).applications
    (AppsAPI.readPersisted env s0, AppsAPI.scanDescriptors env) hw2 hw2.2.1
    (fun e he => he) (fun e he => Or.inl he)
    (fun n hn hnot => by simp only [hn] at hnot; cases hnot) (fun e he => he)
  have hmatch : (AppsAPI.readPersisted env s0).applications.foldl AppsAPI.matchDescriptor
      (AppsAPI.readPersisted env s0, AppsAPI.scanDescriptors env)
      = AppsAPI.matchDescriptors (AppsAPI.readPersisted env s0)
          (AppsAPI.scanDescriptors env) := rfl
  rw [hmatch] at hwm hr2m hiiim hsubm
  obtain ⟨hwt, hsyst, hdt⟩ := registerDescriptors_invariant env
    (QMap.values (AppsAPI.matchDescriptors (AppsAPI.readPersisted env s0)
      (AppsAPI.scanDescriptors env)).2)
    (AppsAPI.matchDescriptors (AppsAPI.readPersisted env s0)
      (AppsAPI.scanDescriptors env)).1 hwm
  refine ⟨_, h.symm, hwt, ?_, ?_⟩
  · intro e he hscan
    rcases hsyst e he with hm | hsys
    · rcases hr2m e hm with h1 | h1
      · rw [hscan] at h1; cases h1
      · exact h1
    · exact hsys
  · intro e he hnot
    by_cases hc : QMap.contains (AppsAPI.matchDescriptors (AppsAPI.readPersisted env s0)
        (AppsAPI.scanDescriptors env)).2 e.1 = true
    · obtain ⟨d, hd⟩ := mem_of_contains _ _ hc
      have hdscan := hsubm _ hd
      have hde : d = e.2 :=
        value_unique_of_mem _ e.1 d e.2 (scanDescriptors_nodup env) hdscan he
      have hdv : d ∈ QMap.values (AppsAPI.matchDescriptors (AppsAPI.readPersisted env s0)
          (AppsAPI.scanDescriptors env)).2 := List.mem_map.2 ⟨_, hd, rfl⟩
      rcases hdt d hdv with h1 | h1
      · rw [hde, scanDescriptors_name env e he] at h1
        have hnot' : QMap.contains (AppsAPI.registerDescriptors env
            (AppsAPI.matchDescriptors (AppsAPI.readPersisted env s0)
              (AppsAPI.scanDescriptors env)).1
            (AppsAPI.matchDescriptors (AppsAPI.readPersisted env s0)
              (AppsAPI.scanDescriptors env)).2).applications e.1 = false := hnot
        unfold AppsAPI.registerDescriptors at hnot'
        rw [h1] at hnot'
        cases hnot'
      · exact hde ▸ h1
    · simp only [Bool.not_eq_true] at hc
      obtain ⟨a, hmem, _⟩ := hiiim e.1 (contains_of_mem _ e he) hc
      have := registerDescriptors_keysKept env
        (AppsAPI.matchDescriptors (AppsAPI.readPersisted env s0)
          (AppsAPI.scanDescriptors env)).2
        (AppsAPI.matchDescriptors (AppsAPI.readPersisted env s0)
          (AppsAPI.scanDescriptors env)).1 e.1 (contains_of_mem _ (e.1, a) hmem)
      rw [this] at hnot
      cases hnot

/-! ## A second `reload` -/

theorem find?_eq_none_of_not_mem_keys {V : Type} (m : QMap V) (k : String)
    (h : k ∉ QMap.keys m) : QMap.find? m k = none := by
  cases hf : QMap.find? m k with
  | none => rfl
  | some v =>
    exact absurd ((contains_iff_mem_keys m k).1
      (by rw [QMap.contains_eq_isSome, hf]; rfl)) h

theorem name_key_of_named (a : Application) (h : a.name ≠ "") :
    "name" ∈ QMap.keys a.getConfig := by
  by_contra hnot
  apply h
  unfold Application.name QMap.value
  have : QMap.find? a.config "name" = none := find?_eq_none_of_not_mem_keys _ _ hnot
  rw [this]
  rfl

theorem flags_key_of_system (a : Application) (h : a.systemApp = true) :
    "flags" ∈ QMap.keys a.getConfig := by
  by_contra hnot
  have hnone : QMap.find? a.config "flags" = none := find?_eq_none_of_not_mem_keys _ _ hnot
  unfold Application.systemApp QMap.value at h
  rw [hnone] at h
  simp [QVariant.toStringList] at h

theorem values_get? {V : Type} (m : QMap V) (i : Nat) (e : String × V)
    (h : m.get? i = some e) : (QMap.values m).get? i = some e.2 := by
  unfold QMap.values
  rw [List.get?_eq_getElem?] at h ⊢
  rw [List.getElem?_map, h]
  rfl

/-- After `writeApplications` on a well-formed registry the name of the record at an
index is the key of the Application at that index. -/
theorem written_record_name (t : AppsAPI) (hw : WellFormed t) (i : Nat)
    (e : String × Application) (hget : t.applications.get? i = some e) :
    (AppsAPI.recordValue (AppsAPI.writeApplications t) i "name" QVariant.invalid).toString
      = e.1 := by
  have hmem : e ∈ t.applications := List.get?_mem hget
  have hname : e.2.name = e.1 := hw.1 e hmem
  have hkey : "name" ∈ QMap.keys e.2.getConfig :=
    name_key_of_named e.2 (by rw [hname]; exact hw.2.2 e hmem)
  unfold AppsAPI.recordValue QMap.value
  rw [writeApplications_field t i e.2 "name" (values_get? _ _ _ hget) hkey]
  exact hname

/-- After `writeApplications` the flags of the record at the index of a system-flagged
Application are the flags of its configuration. -/
theorem written_record_flags (t : AppsAPI) (i : Nat) (e : String × Application)
    (hget : t.applications.get? i = some e) (hsys : e.2.systemApp = true) :
    QMap.find? (AppsAPI.writeApplications t).settings (AppsAPI.arrayGroup i ++ "flags")
      = some (QMap.value e.2.config "flags" QVariant.invalid) :=
  writeApplications_field t i e.2 "flags" (values_get? _ _ _ hget)
    (flags_key_of_system e.2 hsys)

theorem persistedNames_written (t : AppsAPI) (hw : WellFormed t)
    (hfits : t.applications.length < 2147483648) :
    ∀ e ∈ t.applications,
      (AppsAPI.persistedNames (AppsAPI.writeApplications t)).contains e.1 = true := by
  intro e he
  obtain ⟨i, hi⟩ := List.mem_iff_get?.1 he
  have hlt : i < t.applications.length := by
    rw [List.get?_eq_some] at hi
    exact hi.1
  apply List.elem_iff.2
  unfold AppsAPI.persistedNames
  rw [writeApplications_size t hfits]
  exact List.mem_map.2 ⟨i, List.mem_range.2 hlt, written_record_name t hw i e hi⟩

theorem unregisterAbsent_loop_noop (names : List String) (s : AppsAPI)
    (h : ∀ e ∈ s.applications, AppsAPI.keptByStep1 names e = true) (ks : List String)
    (hks : ∀ k ∈ ks, (QMap.find? s.applications k).isSome = true) :
    ks.foldlM
      (fun st name =>
        match QMap.find? st.applications name with
        | none => none
        | some app =>
          if !names.contains name && !app.systemApp then
            some (Application.unregister st name app)
          else some st)
      s = some s := by
  induction ks with
  | nil => rfl
  | cons k ks ih =>
    cases hfind : QMap.find? s.applications k with
    | none =>
      have := hks k (List.mem_cons_self _ _)
      simp [hfind] at this
    | some app =>
      have hkept := h (k, app) (QMap.mem_of_find? _ hfind)
      unfold AppsAPI.keptByStep1 at hkept
      have hcond : (!names.contains k && !app.systemApp) = false := by
        revert hkept
        cases names.contains k <;> cases app.systemApp <;> simp
      simp only [List.foldlM_cons, hfind, hcond, Bool.false_eq_true, if_false,
        Option.bind_eq_bind, Option.some_bind]
      exact ih (fun k1 hk1 => hks k1 (List.mem_cons_of_mem _ hk1))

/-- Step 1 changes nothing when every Application is persisted or system-flagged. -/
theorem unregisterAbsent_noop (s : AppsAPI)
    (h : ∀ e ∈ s.applications,
      AppsAPI.keptByStep1 (AppsAPI.persistedNames s) e = true) :
    AppsAPI.unregisterAbsent s = some s := by
  unfold AppsAPI.unregisterAbsent
  split
  · rfl
  · apply unregisterAbsent_loop_noop _ s h
    intro k hk
    obtain ⟨e, he, hek⟩ := List.mem_map.1 hk
    rw [← hek]
    exact QMap.find?_isSome_of_mem _ he

theorem writeApplicationsIn_find?_other (group : String) (s : AppsAPI) (q : String)
    (hsize : group ++ "applications/size" ≠ q)
    (hrec : ∀ j key, group ++ AppsAPI.arrayGroup j ++ key ≠ q) :
    QMap.find? (AppsAPI.writeApplicationsIn group s).settings q = QMap.find? s.settings q := by
  unfold AppsAPI.writeApplicationsIn
  simp only
  rw [writeLoop_find?_other group _ q _ (fun j _ key => hrec j key)]
  exact QMap.find?_insert_other _ _ (Ne.symm hsize)

/-- What `writeApplications` writes below the group of a record is neither the name nor
the flags of a record of the array itself. -/
theorem nested_key_ne_field (i m : Nat) (rest f : String) (hf : f = "name" ∨ f = "flags")
    (hrest : ∃ r, rest.data = 'a' :: r) :
    AppsAPI.arrayGroup i ++ rest ≠ AppsAPI.arrayGroup m ++ f := by
  intro h
  obtain ⟨_, h2⟩ := arrayGroup_append_inj _ _ _ _ h
  obtain ⟨r, hr⟩ := hrest
  have hd := congrArg String.data h2
  rw [hr] at hd
  rcases hf with rfl | rfl
  · have : 'a' = 'n' := (List.cons.inj hd).1
    revert this
    decide
  · have : 'a' = 'f' := (List.cons.inj hd).1
    revert this
    decide

theorem readRecordWrite_find?_field (i m : Nat) (s : AppsAPI) (f : String)
    (hf : f = "name" ∨ f = "flags") :
    QMap.find? (AppsAPI.writeApplicationsIn (AppsAPI.arrayGroup i) s).settings
        (AppsAPI.arrayGroup m ++ f)
      = QMap.find? s.settings (AppsAPI.arrayGroup m ++ f) := by
  apply writeApplicationsIn_find?_other
  · exact nested_key_ne_field i m _ f hf ⟨"pplications/size".data, rfl⟩
  · intro j key
    rw [String.append_assoc]
    refine nested_key_ne_field i m _ f hf
      ⟨"pplications/".data ++ ((toString (j + 1)).data ++ '/' :: key.data), ?_⟩
    rw [arrayGroup_data]
    rfl

theorem recordProperties_flags (s : AppsAPI) (i : Nat) (properties : QVariantMap)
    (h : AppsAPI.recordProperties s i = some properties) :
    QMap.find? properties "flags"
      = some (QVariant.strList
          (AppsAPI.recordValue s i "flags" (QVariant.strList [])).toStringList) := by
  unfold AppsAPI.recordProperties at h
  simp only at h
  split at h
  · cases h
  · simp only [Option.some.injEq] at h
    rw [← h]
    split <;> split <;>
      simp [AppsAPI.ofList, QMap.find?_insert_self, QMap.find?_insert_other]

theorem registered_modify_setConfig (m : QMap Application) (k : String)
    (properties : QVariantMap) :
    (QMap.modify m k (fun a => a.setConfig properties)).map
        (fun e => (e.1, e.2.path, e.2.state))
      = m.map (fun e => (e.1, e.2.path, e.2.state)) := by
  unfold QMap.modify
  rw [List.map_map]
  apply List.map_congr_left
  intro e _
  simp only [Function.comp]
  split <;> rfl

theorem keys_of_registered (s t : AppsAPI) (h : registered s = registered t) :
    QMap.keys s.applications = QMap.keys t.applications := by
  have h1 := congrArg (List.map (fun (e : String × String × AppState) => e.1)) h
  unfold registered at h1
  rw [List.map_map, List.map_map] at h1
  exact h1

theorem systemApp_of_flags (a : Application) (properties : QVariantMap) (v : QVariant)
    (h : QMap.find? properties "flags" = some (QVariant.strList v.toStringList)) :
    (a.setConfig properties).systemApp = v.toStringList.contains "system" := by
  unfold Application.systemApp Application.setConfig QMap.value
  simp only [h]
  rfl

theorem follows_refl (t : AppsAPI) (hw : WellFormed t) :
    Follows t (AppsAPI.writeApplications t) := by
  refine ⟨rfl, rfl, fun _ _ _ => rfl, ?_, hw⟩
  intro k a a1 ha ha1 hsys
  have ha1' : (k, a1) ∈ t.applications := ha1
  rw [← value_unique_of_mem _ k a a1 hw.2.1 ha ha1']
  exact hsys

theorem contains_of_registered (t st : AppsAPI) (h : registered st = registered t)
    (k : String) : QMap.contains st.applications k = QMap.contains t.applications k := by
  have hk := keys_of_registered st t h
  cases hc : QMap.contains t.applications k with
  | true =>
    rw [contains_iff_mem_keys, hk, ← contains_iff_mem_keys]
    exact hc
  | false =>
    cases hc1 : QMap.contains st.applications k with
    | false => rfl
    | true =>
      rw [contains_iff_mem_keys, hk, ← contains_iff_mem_keys, hc] at hc1
      cases hc1

/-- One round of step 2 of a second reconciliation: the record is the one
`writeApplications` wrote for the Application at its index, so that Application gets a
new configuration and nothing else changes. -/
theorem readRecord_follows (env : Env) (t st : AppsAPI) (i : Nat) (hw : WellFormed t)
    (hi : i < t.applications.length) (h : Follows t st) :
    Follows t (AppsAPI.readRecord env st i) := by
  obtain ⟨hreg, htrace, hset, hsys, hwst⟩ := h
  have hget : t.applications.get? i = some (t.applications.get ⟨i, hi⟩) :=
    List.get?_eq_get hi
  generalize t.applications.get ⟨i, hi⟩ = e at hget
  have hmem : e ∈ t.applications := List.get?_mem hget
  have hname : (AppsAPI.recordValue st i "name" QVariant.invalid).toString = e.1 := by
    have := written_record_name t hw i e hget
    unfold AppsAPI.recordValue QMap.value at this ⊢
    rw [hset i "name" (Or.inl rfl)]
    exact this
  have hcontains : QMap.contains st.applications e.1 = true := by
    rw [contains_of_registered t st hreg]
    exact contains_of_mem _ e hmem
  unfold AppsAPI.readRecord
  cases hprops : AppsAPI.recordProperties st i with
  | none => exact ⟨hreg, htrace, hset, hsys, hwst⟩
  | some properties =>
    simp only [hname, hcontains, if_true]
    have hpname : QMap.find? properties "name" = some (QVariant.str e.1) := by
      rw [recordProperties_name st i properties hprops, hname]
    refine ⟨?_, htrace, ?_, ?_, ?_⟩
    · rw [← hreg]
      exact registered_modify_setConfig st.applications e.1 properties
    · intro m f hf
      rw [readRecordWrite_find?_field i m _ f hf]
      exact hset m f hf
    · intro k a a1 ha ha1 hasys
      have ha1' : (k, a1) ∈ QMap.modify st.applications e.1
          (fun a => a.setConfig properties) := ha1
      obtain ⟨e0, he0, heq⟩ := mem_modify _ _ _ _ ha1'
      by_cases hk : e0.1 = e.1
      · rw [if_pos hk] at heq
        have hk1 : k = e.1 := by rw [← hk]; exact congrArg Prod.fst heq
        have ha2 : a1 = e0.2.setConfig properties := congrArg Prod.snd heq
        subst hk1
        have hae : a = e.2 := value_unique_of_mem _ e.1 a e.2 hw.2.1 ha hmem
        rw [hae] at hasys
        have hflags := written_record_flags t i e hget hasys
        rw [← hset i "flags" (Or.inr rfl)] at hflags
        have hrec : AppsAPI.recordValue st i "flags" (QVariant.strList [])
            = QMap.value e.2.config "flags" QVariant.invalid := by
          unfold AppsAPI.recordValue QMap.value
          rw [hflags]
          rfl
        have hp := recordProperties_flags st i properties hprops
        rw [hrec] at hp
        rw [ha2, systemApp_of_flags _ properties _ hp]
        exact hasys
      · rw [if_neg hk] at heq
        rw [← heq] at he0
        exact hsys k a a1 ha he0 hasys
    · exact wellFormed_of_modify st _ e.1 properties hpname rfl hwst

theorem readRecords_follows (env : Env) (t : AppsAPI) (hw : WellFormed t) (is : List Nat)
    (his : ∀ i ∈ is, i < t.applications.length) :
    ∀ st, Follows t st → Follows t (is.foldl (AppsAPI.readRecord env) st) := by
  induction is with
  | nil => intro st h; exact h
  | cons i rest ih =>
    intro st h
    simp only [List.foldl_cons]
    exact ih (fun j hj => his j (List.mem_cons_of_mem _ hj)) _
      (readRecord_follows env t st i hw (his i (List.mem_cons_self _ _)) h)

/-- Step 2 of a second reconciliation keeps the names, the object paths, the states and
the trace. -/
theorem readPersisted_follows (env : Env) (t st : AppsAPI) (hw : WellFormed t)
    (hsize : AppsAPI.beginReadArray st = t.applications.length) (h : Follows t st) :
    Follows t (AppsAPI.readPersisted env st) := by
  unfold AppsAPI.readPersisted
  rw [hsize]
  exact readRecords_follows env t hw _ (fun i hi => List.mem_range.1 hi) st h

/-- The loop over `applications.values()` changes nothing in a registry whose
Applications with a descriptor are all system-flagged; it only takes descriptors out of
`apps`. -/
theorem matchDescriptor_loop_noop (scan : QMap QJsonObject)
    (entries : List (String × Application))
    (h : ∀ e ∈ entries, QMap.contains scan e.2.name = true → e.2.systemApp = true) :
    ∀ acc : AppsAPI × QMap QJsonObject, (∀ e ∈ acc.2, e ∈ scan) →
      (entries.foldl AppsAPI.matchDescriptor acc).1 = acc.1
      ∧ (∀ e ∈ (entries.foldl AppsAPI.matchDescriptor acc).2, e ∈ scan) := by
  induction entries with
  | nil => intro acc hsub; exact ⟨rfl, hsub⟩
  | cons entry rest ih =>
    intro acc hsub
    simp only [List.foldl_cons]
    have hstep : (AppsAPI.matchDescriptor acc entry).1 = acc.1
        ∧ ∀ e ∈ (AppsAPI.matchDescriptor acc entry).2, e ∈ scan := by
      unfold AppsAPI.matchDescriptor
      simp only
      cases hc : QMap.contains acc.2 entry.2.name with
      | false => exact ⟨rfl, hsub⟩
      | true =>
        obtain ⟨d, hd⟩ := mem_of_contains _ _ hc
        have hsys : entry.2.systemApp = true :=
          h entry (List.mem_cons_self _ _) (contains_of_mem scan _ (hsub _ hd))
        simp only [hsys, Bool.not_true, Bool.false_eq_true, if_false]
        exact ⟨trivial, fun e he => hsub e (List.mem_of_mem_filter he)⟩
    obtain ⟨h1, h2⟩ := ih (fun e he => h e (List.mem_cons_of_mem _ he))
      (AppsAPI.matchDescriptor acc entry) hstep.2
    exact ⟨h1.trans hstep.1, h2⟩

/-- One round of the loop over the descriptors, in a registry that has the names of a
reconciled one: a registered name gets a new configuration, and a name that is not
registered is turned down again. -/
theorem registerDescriptor_second (env : Env) (t st : AppsAPI) (d : QJsonObject)
    (hrec : Reconciled env t) (hd : ∃ k, (k, d) ∈ AppsAPI.scanDescriptors env)
    (hreg : registered st = registered t) (htrace : st.trace = t.trace) :
    registered (AppsAPI.registerDescriptor env st d) = registered t
    ∧ (AppsAPI.registerDescriptor env st d).trace = t.trace := by
  obtain ⟨k, hk⟩ := hd
  have hname : (jsonAt d "name").toString = k := scanDescriptors_name env (k, d) hk
  unfold AppsAPI.registerDescriptor
  cases hp : AppsAPI.descriptorProperties env d with
  | none => exact ⟨hreg, htrace⟩
  | some properties =>
    simp only [hname]
    cases hc : QMap.contains st.applications k with
    | true =>
      simp only [if_true]
      refine ⟨?_, htrace⟩
      rw [← hreg]
      exact registered_modify_setConfig st.applications k properties
    | false =>
      simp only [Bool.false_eq_true, if_false]
      have hct : QMap.contains t.applications k = false := by
        rw [← contains_of_registered t st hreg]
        exact hc
      have href := hrec.2.2 (k, d) hk hct
      unfold Refused at href
      simp only [hp] at href
      rw [AppsAPI.registerApplication_of_invalid env st properties href]
      exact ⟨hreg, htrace⟩

theorem registerDescriptors_second (env : Env) (t : AppsAPI) (hrec : Reconciled env t)
    (ds : List QJsonObject) (hds : ∀ d ∈ ds, ∃ k, (k, d) ∈ AppsAPI.scanDescriptors env) :
    ∀ st, registered st = registered t → st.trace = t.trace →
      registered (ds.foldl (AppsAPI.registerDescriptor env) st) = registered t
      ∧ (ds.foldl (AppsAPI.registerDescriptor env) st).trace = t.trace := by
  induction ds with
  | nil => intro st h1 h2; exact ⟨h1, h2⟩
  | cons d rest ih =>
    intro st h1 h2
    simp only [List.foldl_cons]
    obtain ⟨h3, h4⟩ := registerDescriptor_second env t st d hrec
      (hds d (List.mem_cons_self _ _)) h1 h2
    exact ih (fun d1 hd1 => hds d1 (List.mem_cons_of_mem _ hd1)) _ h3 h4

/-- A reconciliation of a registry that `writeApplications` has just persisted from a
reconciled one: no fault, the same names with the same object paths and states, and the
same trace. -/
theorem reload_of_reconciled (env : Env) (t : AppsAPI) (hrec : Reconciled env t)
    (hfits : t.applications.length < 2147483648) :
    ∃ s2, AppsAPI.reload env (AppsAPI.writeApplications t) = some s2
      ∧ s2.trace = t.trace ∧ registered s2 = registered t := by
  have hw : WellFormed t := hrec.1
  have hstep1 : AppsAPI.unregisterAbsent (AppsAPI.writeApplications t)
      = some (AppsAPI.writeApplications t) := by
    apply unregisterAbsent_noop
    intro e he
    unfold AppsAPI.keptByStep1
    rw [persistedNames_written t hw hfits e he]
    rfl
  have hf := readPersisted_follows env t (AppsAPI.writeApplications t) hw
    (writeApplications_size t hfits) (follows_refl t hw)
  obtain ⟨hreg, htrace, _, hsys, hwst⟩ := hf
  have hmatch := matchDescriptor_loop_noop (AppsAPI.scanDescriptors env)
    (AppsAPI.readPersisted env (AppsAPI.writeApplications t)).applications
    (by
      intro e he hscan
      rw [hwst.1 e he] at hscan
      have hct : QMap.contains t.applications e.1 = true := by
        rw [← contains_of_registered t _ hreg]
        exact contains_of_mem _ e he
      obtain ⟨a, ha⟩ := mem_of_contains _ _ hct
      exact hsys e.1 a e.2 ha he (hrec.2.1 (e.1, a) ha hscan))
    (AppsAPI.readPersisted env (AppsAPI.writeApplications t), AppsAPI.scanDescriptors env)
    (fun e he => he)
  have hfold : (AppsAPI.readPersisted env (AppsAPI.writeApplications t)).applications.foldl
      AppsAPI.matchDescriptor
      (AppsAPI.readPersisted env (AppsAPI.writeApplications t), AppsAPI.scanDescriptors env)
      = AppsAPI.matchDescriptors (AppsAPI.readPersisted env (AppsAPI.writeApplications t))
          (AppsAPI.scanDescriptors env) := rfl
  rw [hfold] at hmatch
  obtain ⟨hm1, hm2⟩ := hmatch
  simp only at hm1
  have hlast := registerDescriptors_second env t hrec
    (QMap.values (AppsAPI.matchDescriptors
      (AppsAPI.readPersisted env (AppsAPI.writeApplications t))
      (AppsAPI.scanDescriptors env)).2)
    (by
      intro d hd
      obtain ⟨e, he, hed⟩ := List.mem_map.1 hd
      exact ⟨e.1, by rw [← hed]; exact hm2 e he⟩)
    (AppsAPI.matchDescriptors (AppsAPI.readPersisted env (AppsAPI.writeApplications t))
      (AppsAPI.scanDescriptors env)).1
    (by rw [hm1]; exact hreg) (by rw [hm1]; exact htrace)
  obtain ⟨hl1, hl2⟩ := hlast
  refine ⟨_, reload_eq env _ _ hstep1, ?_, ?_⟩
  · rw [AppsAPI.writeApplications_trace]
    unfold AppsAPI.registerDescriptors
    exact hl2
  · unfold registered at hl1 ⊢
    rw [AppsAPI.writeApplications_applications]
    unfold AppsAPI.registerDescriptors
    exact hl1

/-- C12, as the code has it: when `reload` has returned on a well-formed registry and left
fewer than 2^31 Applications (the size of the map is an `int`), a second `reload` with
nothing changed outside returns too, adds no step to the trace (no entry inserted or
removed, no signal emitted), so emits zero events, and leaves the same names registered
with the same object paths and lifecycle states. Nothing is said of the configurations
and of the persisted settings. -/
theorem reload_twice (env : Env) (s s1 : AppsAPI) (hw : WellFormed s)
    (h1 : AppsAPI.reload env s = some s1)
    (hfits : s1.applications.length < 2147483648) :
    ∃ s2, AppsAPI.reload env s1 = some s2
      ∧ s2.trace = s1.trace
      ∧ AppsAPI.events s2 = AppsAPI.events s1
      ∧ registered s2 = registered s1 := by
  obtain ⟨t, ht, hrec⟩ := reload_reconciled env s s1 hw h1
  subst ht
  obtain ⟨s2, h2, htrace, hreg⟩ := reload_of_reconciled env t hrec hfits
  refine ⟨s2, h2, htrace, ?_, hreg⟩
  unfold AppsAPI.events
  rw [htrace]
  rfl

/-- C12 at a registry that holds `reader` and the system application, with the descriptor
of the system application in the directory: the first `reload` leaves one Application,
and the second `reload` keeps the trace, the events and the registered names, paths and
states of the first. -/
theorem reload_twice_witness :
    WellFormed twoApps
    ∧ ∃ s1 s2, AppsAPI.reload env1 twoApps = some s1
        ∧ s1.applications.length < 2147483648
        ∧ registered s1 = [("codes.eeems.erode", erodePath, AppState.Inactive)]
        ∧ AppsAPI.reload env1 s1 = some s2
        ∧ s2.trace = s1.trace
        ∧ AppsAPI.events s2 = AppsAPI.events s1
        ∧ registered s2 = registered s1 := by
  have hw : WellFormed twoApps := ⟨by decide, by unfold UniqueKeys; decide, by decide⟩
  obtain ⟨s1, h1⟩ := Option.isSome_iff_exists.1
    (by decide : (AppsAPI.reload env1 twoApps).isSome = true)
  have hreg : (AppsAPI.reload env1 twoApps).map registered
      = some [("codes.eeems.erode", erodePath, AppState.Inactive)] := by decide
  rw [h1] at hreg
  have hreg1 : registered s1 = [("codes.eeems.erode", erodePath, AppState.Inactive)] :=
    Option.some.inj hreg
  have hfits : s1.applications.length < 2147483648 := by
    have hlen := congrArg List.length hreg1
    unfold registered at hlen
    rw [List.length_map] at hlen
    rw [hlen]
    decide
  obtain ⟨s2, h2, htrace, hevents, hsame⟩ := reload_twice env1 twoApps s1 hw h1 hfits
  exact ⟨hw, s1, s2, h1, hfits, hreg1, h2, htrace, hevents, hsame⟩

/-- C12 as stated fails. From the empty registry, with `clock.oxide` in the descriptor
directory, the first `reload` registers `clock` with the four properties of its descriptor
and writes five settings; the second `reload`, with nothing changed outside, replaces the
configuration of `clock` by the twelve properties that step 2 builds from the persisted
record and leaves twenty-six settings, thirteen of them below the group of the record that
was being read. -/
theorem reload_not_idempotent :
    WellFormed emptyRegistry
    ∧ (AppsAPI.reload env2 emptyRegistry).map
        (fun s => s.applications.map (fun e => (e.1, QMap.keys e.2.config)))
      = some [("clock", ["bin", "flags", "name", "type"])]
    ∧ ((AppsAPI.reload env2 emptyRegistry).bind (AppsAPI.reload env2)).map
        (fun s => s.applications.map (fun e => (e.1, QMap.keys e.2.config)))
      = some [("clock", ["bin", "description", "displayName", "environment", "flags", "icon",
          "name", "onPause", "onResume", "onStop", "type", "workingDirectory"])]
    ∧ (AppsAPI.reload env2 emptyRegistry).map (fun s => (QMap.keys s.settings).length)
      = some 5
    ∧ ((AppsAPI.reload env2 emptyRegistry).bind (AppsAPI.reload env2)).map
        (fun s => (QMap.keys s.settings).length)
      = some 26
    ∧ ((AppsAPI.reload env2 emptyRegistry).bind (AppsAPI.reload env2)).map
        (fun s => QMap.contains s.settings "applications/1/applications/size")
      = some true :=
  ⟨⟨by decide, by unfold UniqueKeys; decide, by decide⟩, by decide, by decide, by decide,
   by decide, by decide⟩

/-! ## A descriptor whose name is already registered -/

theorem find?_modify_other {V : Type} (m : QMap V) (k n : String) (f : V → V)
    (h : n ≠ k) : QMap.find? (QMap.modify m n f) k = QMap.find? m k := by
  induction m with
  | nil => rfl
  | cons e rest ih =>
    obtain ⟨k1, v⟩ := e
    have hcons : QMap.modify ((k1, v) :: rest) n f
        = (if k1 = n then (k1, f v) else (k1, v)) :: QMap.modify rest n f := rfl
    rw [hcons]
    by_cases h1 : k1 = n
    · have h2 : ¬ k1 = k := fun hk => h (h1.symm.trans hk)
      rw [if_pos h1]
      simp only [QMap.find?, h2, if_false]
      exact ih
    · rw [if_neg h1]
      simp only [QMap.find?]
      rw [ih]

theorem find?_modify_self {V : Type} (m : QMap V) (k : String) (f : V → V) :
    QMap.find? (QMap.modify m k f) k = (QMap.find? m k).map f := by
  induction m with
  | nil => rfl
  | cons e rest ih =>
    obtain ⟨k1, v⟩ := e
    have hcons : QMap.modify ((k1, v) :: rest) k f
        = (if k1 = k then (k1, f v) else (k1, v)) :: QMap.modify rest k f := rfl
    rw [hcons]
    by_cases h1 : k1 = k
    · rw [if_pos h1]
      simp only [QMap.find?, h1, if_true]
      rfl
    · rw [if_neg h1]
      simp only [QMap.find?, h1, if_false]
      exact ih

/-- The call `unregisterApplication(Application*)` for an Application of another name
leaves the entry under `k` alone. -/
theorem unregisterApplicationPtr_find?_other (s : AppsAPI) (key k : String)
    (app : Application) (h : app.name ≠ k) :
    QMap.find? (AppsAPI.unregisterApplicationPtr s key app).applications k
      = QMap.find? s.applications k := by
  rcases unregisterApplicationPtr_applications s key app with h1 | h1
  · rw [h1]
  · rw [h1]
    exact QMap.find?_remove_other _ (Ne.symm h)

theorem unregisterApplicationPtr_not_contains (s : AppsAPI) (key k : String)
    (app : Application) (h : QMap.contains s.applications k = false) :
    QMap.contains (AppsAPI.unregisterApplicationPtr s key app).applications k = false := by
  rcases unregisterApplicationPtr_applications s key app with h1 | h1
  · rw [h1]
    exact h
  · rw [h1]
    cases hc : QMap.contains (QMap.remove s.applications app.name) k with
    | false => rfl
    | true =>
      rw [contains_of_contains_remove _ _ _ hc] at h
      cases h

/-- The call `unregisterApplication(Application*)` leaves no Application under the name
of the one it is called for. -/
theorem unregisterApplicationPtr_removes_name (s : AppsAPI) (key : String)
    (app : Application) :
    QMap.contains (AppsAPI.unregisterApplicationPtr s key app).applications app.name
      = false := by
  unfold AppsAPI.unregisterApplicationPtr
  simp only
  split
  · exact contains_remove_self _ _
  · rename_i hc
    simpa using hc

/-- A registration under another name leaves the entry under `k` alone. -/
theorem registerApplication_find?_other (env : Env) (s : AppsAPI) (properties : QVariantMap)
    (k : String) (h : AppsAPI.propName properties ≠ k) :
    QMap.find? (AppsAPI.registerApplication env s properties).2.applications k
      = QMap.find? s.applications k := by
  by_cases hv : AppsAPI.propType properties < Foreground
    ∨ AppsAPI.propType properties > Background
    ∨ (AppsAPI.propName properties).isEmpty = true
    ∨ (AppsAPI.propBin properties).isEmpty = true
    ∨ env.fileExists (AppsAPI.propBin properties) = false
  · rw [AppsAPI.registerApplication_of_invalid env s properties hv]
  · cases hf : QMap.find? s.applications (AppsAPI.propName properties) with
    | some existing =>
      rw [AppsAPI.registerApplication_of_existing env s properties existing hv hf]
    | none =>
      rw [(AppsAPI.registerApplication_of_new env s properties hv hf).2.1]
      exact QMap.find?_insert_other _ _ (Ne.symm h)

/-- The three cases of one round of the loop over `applications.values()`. -/
theorem matchDescriptor_cases (acc : AppsAPI × QMap QJsonObject)
    (e : String × Application) :
    (QMap.contains acc.2 e.2.name = false ∧ AppsAPI.matchDescriptor acc e = acc)
    ∨ (QMap.contains acc.2 e.2.name = true ∧ e.2.systemApp = false
        ∧ AppsAPI.matchDescriptor acc e
            = (AppsAPI.unregisterApplicationPtr acc.1 e.1 e.2, acc.2))
    ∨ (QMap.contains acc.2 e.2.name = true ∧ e.2.systemApp = true
        ∧ AppsAPI.matchDescriptor acc e = (acc.1, QMap.remove acc.2 e.2.name)) := by
  unfold AppsAPI.matchDescriptor
  cases hc : QMap.contains acc.2 e.2.name with
  | false => exact Or.inl ⟨rfl, by simp [hc]⟩
  | true =>
    cases hs : e.2.systemApp with
    | false => exact Or.inr (Or.inl ⟨rfl, rfl, by simp [hc, hs, Application.unregister]⟩)
    | true => exact Or.inr (Or.inr ⟨rfl, rfl, by simp [hc, hs]⟩)

theorem not_contains_remove {V : Type} (m : QMap V) (k n : String)
    (h : QMap.contains m k = false) : QMap.contains (QMap.remove m n) k = false := by
  cases hc : QMap.contains (QMap.remove m n) k with
  | false => rfl
  | true =>
    rw [contains_of_contains_remove _ _ _ hc] at h
    cases h

theorem mem_remove_of_ne {V : Type} (m : QMap V) (n : String) (e : String × V)
    (h : e ∈ m) (hne : e.1 ≠ n) : e ∈ QMap.remove m n := by
  unfold QMap.remove
  exact List.mem_filter.2 ⟨h, by simpa using hne⟩

/-- The loop over `applications.values()` leaves the entry under `k` alone when every
Application of that name is system-flagged. -/
theorem matchDescriptor_loop_find? (k : String) (entries : List (String × Application))
    (h : ∀ e ∈ entries, e.2.name = k → e.2.systemApp = true) :
    ∀ acc : AppsAPI × QMap QJsonObject,
      QMap.find? (entries.foldl AppsAPI.matchDescriptor acc).1.applications k
        = QMap.find? acc.1.applications k := by
  induction entries with
  | nil => intro acc; rfl
  | cons e rest ih =>
    intro acc
    simp only [List.foldl_cons]
    rw [ih (fun x hx => h x (List.mem_cons_of_mem _ hx))]
    rcases matchDescriptor_cases acc e with ⟨_, h1⟩ | ⟨_, hs, h1⟩ | ⟨_, _, h1⟩
    · rw [h1]
    · rw [h1]
      apply unregisterApplicationPtr_find?_other
      intro hk
      rw [h e (List.mem_cons_self _ _) hk] at hs
      cases hs
    · rw [h1]

/-- The loop over `applications.values()` takes the descriptor named `k` out of `apps`
when a system-flagged Application has that name. -/
theorem matchDescriptor_loop_drops (k : String) (entries : List (String × Application)) :
    ∀ acc : AppsAPI × QMap QJsonObject,
      ((∃ e ∈ entries, e.2.name = k ∧ e.2.systemApp = true)
        ∨ QMap.contains acc.2 k = false) →
      QMap.contains (entries.foldl AppsAPI.matchDescriptor acc).2 k = false := by
  induction entries with
  | nil =>
    intro acc h
    rcases h with ⟨e, he, _⟩ | h
    · cases he
    · exact h
  | cons e rest ih =>
    intro acc h
    simp only [List.foldl_cons]
    apply ih
    by_cases hnow : QMap.contains (AppsAPI.matchDescriptor acc e).2 k = false
    · exact Or.inr hnow
    · left
      rcases h with ⟨x, hx, hxk, hxs⟩ | h
      · rcases List.mem_cons.1 hx with rfl | hx1
        · exfalso
          apply hnow
          rcases matchDescriptor_cases acc x with ⟨hc, h1⟩ | ⟨_, hs, _⟩ | ⟨_, _, h1⟩
          · rw [h1, ← hxk]
            exact hc
          · rw [hxs] at hs
            cases hs
          · rw [h1, ← hxk]
            exact contains_remove_self _ _
        · exact ⟨x, hx1, hxk, hxs⟩
      · exfalso
        apply hnow
        rcases matchDescriptor_cases acc e with ⟨_, h1⟩ | ⟨_, _, h1⟩ | ⟨_, _, h1⟩
        · rw [h1]
          exact h
        · rw [h1]
          exact h
        · rw [h1]
          exact not_contains_remove _ _ _ h

/-- The loop over `applications.values()` keeps the descriptor named `k` in `apps` when no
Application of that name is system-flagged. -/
theorem matchDescriptor_loop_keeps (k : String) (d : QJsonObject)
    (entries : List (String × Application))
    (h : ∀ e ∈ entries, e.2.name = k → e.2.systemApp = false) :
    ∀ acc : AppsAPI × QMap QJsonObject, (k, d) ∈ acc.2 →
      (k, d) ∈ (entries.foldl AppsAPI.matchDescriptor acc).2 := by
  induction entries with
  | nil => intro acc hd; exact hd
  | cons e rest ih =>
    intro acc hd
    simp only [List.foldl_cons]
    apply ih (fun x hx => h x (List.mem_cons_of_mem _ hx))
    rcases matchDescriptor_cases acc e with ⟨_, h1⟩ | ⟨_, _, h1⟩ | ⟨_, hs, h1⟩
    · rw [h1]
      exact hd
    · rw [h1]
      exact hd
    · rw [h1]
      apply mem_remove_of_ne _ _ _ hd
      intro hk
      rw [h e (List.mem_cons_self _ _) hk.symm] at hs
      cases hs

/-- The loop over `applications.values()` unregisters the Application named `k` when it has
a descriptor and is not system-flagged. -/
theorem matchDescriptor_loop_unregisters (k : String) (d : QJsonObject)
    (entries : List (String × Application))
    (h : ∀ e ∈ entries, e.2.name = k → e.2.systemApp = false) :
    ∀ acc : AppsAPI × QMap QJsonObject, (k, d) ∈ acc.2 →
      ((∃ e ∈ entries, e.2.name = k) ∨ QMap.contains acc.1.applications k = false) →
      QMap.contains (entries.foldl AppsAPI.matchDescriptor acc).1.applications k
        = false := by
  induction entries with
  | nil =>
    intro acc _ h1
    rcases h1 with ⟨e, he, _⟩ | h1
    · cases he
    · exact h1
  | cons e rest ih =>
    intro acc hd h1
    simp only [List.foldl_cons]
    have hd1 : (k, d) ∈ (AppsAPI.matchDescriptor acc e).2 := by
      have := matchDescriptor_loop_keeps k d [e]
        (fun x hx hxk => h x (by
          rcases List.mem_singleton.1 hx with rfl
          exact List.mem_cons_self _ _) hxk) acc hd
      exact this
    apply ih (fun x hx => h x (List.mem_cons_of_mem _ hx)) _ hd1
    by_cases hnow : QMap.contains (AppsAPI.matchDescriptor acc e).1.applications k = false
    · exact Or.inr hnow
    · left
      rcases h1 with ⟨x, hx, hxk⟩ | h1
      · rcases List.mem_cons.1 hx with rfl | hx1
        · exfalso
          apply hnow
          have hxs := h x (List.mem_cons_self _ _) hxk
          rcases matchDescriptor_cases acc x with ⟨hc, _⟩ | ⟨_, _, h2⟩ | ⟨_, hs, _⟩
          · rw [hxk, contains_of_mem acc.2 (k, d) hd] at hc
            cases hc
          · rw [h2, ← hxk]
            exact unregisterApplicationPtr_removes_name _ _ _
          · rw [hxs] at hs
            cases hs
        · exact ⟨x, hx1, hxk⟩
      · exfalso
        apply hnow
        rcases matchDescriptor_cases acc e with ⟨_, h2⟩ | ⟨_, _, h2⟩ | ⟨_, _, h2⟩
        · rw [h2]
          exact h1
        · rw [h2]
          exact unregisterApplicationPtr_not_contains _ _ _ _ h1
        · rw [h2]
          exact h1

/-- The loop over `applications.values()` only takes descriptors out of `apps`. -/
theorem matchDescriptor_loop_sub (entries : List (String × Application)) :
    ∀ acc : AppsAPI × QMap QJsonObject, (QMap.keys acc.2).Nodup →
      (QMap.keys (entries.foldl AppsAPI.matchDescriptor acc).2).Nodup
      ∧ ∀ x ∈ (entries.foldl AppsAPI.matchDescriptor acc).2, x ∈ acc.2 := by
  induction entries with
  | nil => intro acc h; exact ⟨h, fun _ hx => hx⟩
  | cons e rest ih =>
    intro acc h
    simp only [List.foldl_cons]
    rcases matchDescriptor_cases acc e with ⟨_, h1⟩ | ⟨_, _, h1⟩ | ⟨_, _, h1⟩
    · rw [h1]
      exact ih acc h
    · rw [h1]
      exact ih _ h
    · rw [h1]
      obtain ⟨h2, h3⟩ := ih (acc.1, QMap.remove acc.2 e.2.name) (nodup_keys_remove _ _ h)
      exact ⟨h2, fun x hx => List.mem_of_mem_filter (h3 x hx)⟩

/-- One round of the loop over the descriptors leaves the entry under another name
alone. -/
theorem registerDescriptor_find?_other (env : Env) (st : AppsAPI) (d : QJsonObject)
    (k : String) (hne : (jsonAt d "name").toString ≠ k) :
    QMap.find? (AppsAPI.registerDescriptor env st d).applications k
      = QMap.find? st.applications k := by
  unfold AppsAPI.registerDescriptor
  cases hp : AppsAPI.descriptorProperties env d with
  | none => rfl
  | some properties =>
    simp only
    split
    · rw [AppsAPI.writeApplications_applications]
      exact find?_modify_other st.applications k _ (fun a => a.setConfig properties) hne
    · apply registerApplication_find?_other
      rw [propName_of_find? properties _ (descriptorProperties_some env d properties hp).1]
      exact hne

theorem registerDescriptor_loop_find?_other (env : Env) (k : String)
    (ds : List QJsonObject) (h : ∀ d ∈ ds, (jsonAt d "name").toString ≠ k) :
    ∀ st : AppsAPI,
      QMap.find? (ds.foldl (AppsAPI.registerDescriptor env) st).applications k
        = QMap.find? st.applications k := by
  induction ds with
  | nil => intro st; rfl
  | cons d rest ih =>
    intro st
    simp only [List.foldl_cons]
    rw [ih (fun x hx => h x (List.mem_cons_of_mem _ hx))]
    exact registerDescriptor_find?_other env st d k (h d (List.mem_cons_self _ _))

/-- One round of the loop over the descriptors, for a descriptor whose name is not
registered and whose properties pass the validation: a new Application is registered with
the properties of the descriptor. -/
theorem registerDescriptor_new (env : Env) (st : AppsAPI) (d : QJsonObject)
    (properties : QVariantMap) (hp : AppsAPI.descriptorProperties env d = some properties)
    (hok : ¬ refuses env properties)
    (hnot : QMap.contains st.applications (jsonAt d "name").toString = false) :
    QMap.find? (AppsAPI.registerDescriptor env st d).applications (jsonAt d "name").toString
      = some ((Application.create
          (AppsAPI.getPath env (jsonAt d "name").toString)).setConfig properties) := by
  have hname : AppsAPI.propName properties = (jsonAt d "name").toString :=
    propName_of_find? properties _ (descriptorProperties_some env d properties hp).1
  have hfind : QMap.find? st.applications (AppsAPI.propName properties) = none := by
    rw [hname]
    rw [QMap.contains_eq_isSome] at hnot
    cases hf : QMap.find? st.applications (jsonAt d "name").toString with
    | none => rfl
    | some v => simp [hf] at hnot
  unfold AppsAPI.registerDescriptor
  simp only [hp, hnot, Bool.false_eq_true, if_false]
  rw [(AppsAPI.registerApplication_of_new env st properties hok hfind).2.1, hname]
  exact QMap.find?_insert_self _ _ _

/-- The loop over the descriptors, for a descriptor among them whose name is not
registered and whose properties pass the validation: after the loop the Application under
its name is a new one with the properties of the descriptor. -/
theorem registerDescriptor_loop_new (env : Env) (d : QJsonObject)
    (properties : QVariantMap) (hp : AppsAPI.descriptorProperties env d = some properties)
    (hok : ¬ refuses env properties) (ds : List QJsonObject)
    (hnd : (ds.map (fun x => (jsonAt x "name").toString)).Nodup) (hd : d ∈ ds) :
    ∀ st : AppsAPI, QMap.contains st.applications (jsonAt d "name").toString = false →
      QMap.find? (ds.foldl (AppsAPI.registerDescriptor env) st).applications
          (jsonAt d "name").toString
        = some ((Application.create
            (AppsAPI.getPath env (jsonAt d "name").toString)).setConfig properties) := by
  induction ds with
  | nil => cases hd
  | cons x rest ih =>
    intro st hnot
    simp only [List.foldl_cons]
    simp only [List.map_cons, List.nodup_cons] at hnd
    by_cases hx : (jsonAt x "name").toString = (jsonAt d "name").toString
    · have hxd : x = d := by
        rcases List.mem_cons.1 hd with h1 | h1
        · exact h1.symm
        · exact absurd (List.mem_map.2 ⟨d, h1, hx.symm⟩) hnd.1
      subst hxd
      rw [registerDescriptor_loop_find?_other env _ rest
        (fun y hy hyk => hnd.1 (List.mem_map.2 ⟨y, hy, hyk⟩))]
      exact registerDescriptor_new env st x properties hp hok hnot
    · have hd1 : d ∈ rest := by
        rcases List.mem_cons.1 hd with h1 | h1
        · exact absurd (by rw [h1]) hx
        · exact h1
      apply ih hnd.2 hd1
      rw [QMap.contains_eq_isSome, registerDescriptor_find?_other env st x _ hx,
        ← QMap.contains_eq_isSome]
      exact hnot

/-- One round of the loop over the descriptors, for a descriptor that cannot be
registered and whose name is not registered: nothing changes. -/
theorem registerDescriptor_refused (env : Env) (st : AppsAPI) (d : QJsonObject)
    (href : Refused env d)
    (hnot : QMap.contains st.applications (jsonAt d "name").toString = false) :
    AppsAPI.registerDescriptor env st d = st := by
  unfold AppsAPI.registerDescriptor
  unfold Refused at href
  cases hp : AppsAPI.descriptorProperties env d with
  | none => rfl
  | some properties =>
    simp only [hp] at href
    simp only [hnot, Bool.false_eq_true, if_false]
    rw [AppsAPI.registerApplication_of_invalid env st properties href]

theorem registerDescriptor_loop_refused (env : Env) (k : String) (ds : List QJsonObject)
    (h : ∀ x ∈ ds, (jsonAt x "name").toString = k → Refused env x) :
    ∀ st : AppsAPI, QMap.contains st.applications k = false →
      QMap.contains (ds.foldl (AppsAPI.registerDescriptor env) st).applications k
        = false := by
  induction ds with
  | nil => intro st hnot; exact hnot
  | cons x rest ih =>
    intro st hnot
    simp only [List.foldl_cons]
    apply ih (fun y hy => h y (List.mem_cons_of_mem _ hy))
    by_cases hx : (jsonAt x "name").toString = k
    · rw [registerDescriptor_refused env st x (h x (List.mem_cons_self _ _) hx)
        (by rw [hx]; exact hnot)]
      exact hnot
    · rw [QMap.contains_eq_isSome, registerDescriptor_find?_other env st x k hx,
        ← QMap.contains_eq_isSome]
      exact hnot

theorem find?_of_mem_unique {V : Type} (m : QMap V) (k : String) (v : V)
    (hnd : (QMap.keys m).Nodup) (h : (k, v) ∈ m) : QMap.find? m k = some v := by
  have hs := QMap.find?_isSome_of_mem m h
  cases hf : QMap.find? m k with
  | none => simp [hf] at hs
  | some w => rw [value_of_unique m k w v hnd hf h]

/-- What the loops over `applications.values()` and over the descriptors do with a
descriptor whose name is registered, in a well-formed registry `s2`: a system-flagged
Application stays as it is, and an Application that is not system-flagged is replaced by a
new one with the properties of the descriptor when they pass the validation. -/
theorem registerDescriptors_of_registered (env : Env) (s2 : AppsAPI) (name : String)
    (d : QJsonObject) (app : Application) (hw : WellFormed s2)
    (hd : (name, d) ∈ AppsAPI.scanDescriptors env)
    (happ : (name, app) ∈ s2.applications) :
    (app.systemApp = true →
      QMap.find? (AppsAPI.registerDescriptors env
          (AppsAPI.matchDescriptors s2 (AppsAPI.scanDescriptors env)).1
          (AppsAPI.matchDescriptors s2 (AppsAPI.scanDescriptors env)).2).applications name
        = some app)
    ∧ (app.systemApp = false →
        QMap.contains (AppsAPI.matchDescriptors s2
            (AppsAPI.scanDescriptors env)).1.applications name = false
        ∧ (Refused env d →
            QMap.contains (AppsAPI.registerDescriptors env
                (AppsAPI.matchDescriptors s2 (AppsAPI.scanDescriptors env)).1
                (AppsAPI.matchDescriptors s2
                  (AppsAPI.scanDescriptors env)).2).applications name = false)
        ∧ ∀ properties,
          AppsAPI.descriptorProperties env d = some properties → ¬ refuses env properties →
          QMap.find? (AppsAPI.registerDescriptors env
              (AppsAPI.matchDescriptors s2 (AppsAPI.scanDescriptors env)).1
              (AppsAPI.matchDescriptors s2
                (AppsAPI.scanDescriptors env)).2).applications name
            = some ((Application.create (AppsAPI.getPath env name)).setConfig
                properties)) := by
  have hnamed : ∀ e ∈ s2.applications, e.2.name = name → e.2 = app := by
    intro e he hen
    have hk : e.1 = name := by rw [← hw.1 e he]; exact hen
    have he1 : (name, e.2) ∈ s2.applications := by rw [← hk]; exact he
    exact value_unique_of_mem _ name e.2 app hw.2.1 he1 happ
  have hsub := matchDescriptor_loop_sub s2.applications (s2, AppsAPI.scanDescriptors env)
    (scanDescriptors_nodup env)
  have hfold : s2.applications.foldl AppsAPI.matchDescriptor
      (s2, AppsAPI.scanDescriptors env)
      = AppsAPI.matchDescriptors s2 (AppsAPI.scanDescriptors env) := rfl
  rw [hfold] at hsub
  obtain ⟨hnd, hsubset⟩ := hsub
  have hnames : ∀ e ∈ (AppsAPI.matchDescriptors s2 (AppsAPI.scanDescriptors env)).2,
      (jsonAt e.2 "name").toString = e.1 :=
    fun e he => scanDescriptors_name env e (hsubset e he)
  constructor
  · intro hsys
    have h1 := matchDescriptor_loop_find? name s2.applications
      (fun e he hen => by rw [hnamed e he hen]; exact hsys)
      (s2, AppsAPI.scanDescriptors env)
    have h2 := matchDescriptor_loop_drops name s2.applications
      (s2, AppsAPI.scanDescriptors env)
      (Or.inl ⟨(name, app), happ, hw.1 _ happ, hsys⟩)
    rw [hfold] at h1 h2
    unfold AppsAPI.registerDescriptors
    rw [registerDescriptor_loop_find?_other env name _ ?_, h1]
    · exact find?_of_mem_unique _ name app hw.2.1 happ
    · intro x hx hxn
      obtain ⟨e, he, hex⟩ := List.mem_map.1 hx
      have hk : e.1 = name := by rw [← hnames e he, hex]; exact hxn
      rw [← hk, contains_of_mem _ e he] at h2
      cases h2
  · intro hsys
    have hall : ∀ e ∈ s2.applications, e.2.name = name → e.2.systemApp = false :=
      fun e he hen => by rw [hnamed e he hen]; exact hsys
    have h1 := matchDescriptor_loop_keeps name d s2.applications hall
      (s2, AppsAPI.scanDescriptors env) hd
    have h2 := matchDescriptor_loop_unregisters name d s2.applications hall
      (s2, AppsAPI.scanDescriptors env) hd (Or.inl ⟨(name, app), happ, hw.1 _ happ⟩)
    rw [hfold] at h1 h2
    have hdname : (jsonAt d "name").toString = name := scanDescriptors_name env (name, d) hd
    refine ⟨h2, ?_, ?_⟩
    · intro href
      unfold AppsAPI.registerDescriptors
      apply registerDescriptor_loop_refused env name _ ?_ _ h2
      intro x hx hxn
      obtain ⟨e, he, hex⟩ := List.mem_map.1 hx
      have hk : e.1 = name := by rw [← hnames e he, hex]; exact hxn
      have hes : (name, x) ∈ AppsAPI.scanDescriptors env := by
        have := hsubset e he
        rw [← hk, ← hex]
        exact this
      rw [value_unique_of_mem _ name x d (scanDescriptors_nodup env) hes hd]
      exact href
    intro properties hp hok
    have hmap : (QMap.values (AppsAPI.matchDescriptors s2 (AppsAPI.scanDescriptors env)).2).map
        (fun x => (jsonAt x "name").toString)
        = QMap.keys (AppsAPI.matchDescriptors s2 (AppsAPI.scanDescriptors env)).2 := by
      unfold QMap.values QMap.keys
      rw [List.map_map]
      exact List.map_congr_left (fun e he => hnames e he)
    have h3 := registerDescriptor_loop_new env d properties hp hok
      (QMap.values (AppsAPI.matchDescriptors s2 (AppsAPI.scanDescriptors env)).2)
      (by rw [hmap]; exact hnd) (List.mem_map.2 ⟨(name, d), h1, rfl⟩)
      (AppsAPI.matchDescriptors s2 (AppsAPI.scanDescriptors env)).1
      (by rw [hdname]; exact h2)
    rw [hdname] at h3
    exact h3

/-- What `reload` does with a descriptor of the directory in a well-formed registry: it
returns and leaves at most one Application under the name of the descriptor. If the
Application registered under that name after steps 1 and 2 is system-flagged, the
descriptor is dropped and the Application stays exactly as step 2 left it: the properties
of the descriptor are not applied. If it is not system-flagged, the loop over
`applications.values()` unregisters it; then, when the descriptor cannot be registered,
no Application is left under the name, and when its binary exists and its properties pass
the validation of `registerApplication`, a new Application is registered under the name
with the configuration built from the descriptor. -/
theorem reload_descriptor_of_registered (env : Env) (s : AppsAPI) (name : String)
    (d : QJsonObject) (hw : WellFormed s)
    (hd : (name, d) ∈ AppsAPI.scanDescriptors env) :
    ∃ s1 s3, AppsAPI.unregisterAbsent s = some s1 ∧ AppsAPI.reload env s = some s3
      ∧ countUnder s3 name ≤ 1
      ∧ ∀ app, (name, app) ∈ (AppsAPI.readPersisted env s1).applications →
          (app.systemApp = true → QMap.find? s3.applications name = some app)
          ∧ (app.systemApp = false →
              QMap.contains (AppsAPI.matchDescriptors (AppsAPI.readPersisted env s1)
                (AppsAPI.scanDescriptors env)).1.applications name = false
              ∧ (Refused env d → QMap.contains s3.applications name = false)
              ∧ ∀ properties,
                AppsAPI.descriptorProperties env d = some properties →
                ¬ refuses env properties →
                QMap.find? s3.applications name
                  = some ((Application.create (AppsAPI.getPath env name)).setConfig
                      properties)) := by
  obtain ⟨s1, hrun, happs, _⟩ := unregisterAbsent_kept s hw.1 hw.2.1
  have hw1 : WellFormed s1 := wellFormed_of_filter s s1 _ happs hw
  have hw2 := readPersisted_wellFormed3 env s1 hw1
  have hreload := reload_eq env s s1 hrun
  obtain ⟨t, ht, hrec⟩ := reload_reconciled env s _ hw hreload
  refine ⟨s1, _, hrun, hreload, ?_, ?_⟩
  · rw [ht]
    unfold countUnder
    rw [AppsAPI.writeApplications_applications]
    exact count_key_le_one name _ hrec.1.2.1
  · intro app happ
    have h := registerDescriptors_of_registered env (AppsAPI.readPersisted env s1) name d app
      hw2 hd happ
    rw [AppsAPI.writeApplications_applications]
    exact h

/-- The two cases at concrete registries. In `erodeAlone`, with the descriptor of the
system application in the directory, the system application is after `reload` the
Application it was. In `readerAlone`, with `reader.oxide` in the directory, `reader` is not
system-flagged and is after `reload` a new Application with the properties of the
descriptor. -/
theorem reload_descriptor_of_registered_witness :
    (WellFormed erodeAlone
      ∧ ("codes.eeems.erode",
          QMap.insert erodeDescriptor "name" (QJsonValue.string "codes.eeems.erode"))
          ∈ AppsAPI.scanDescriptors env1
      ∧ ∃ s3, AppsAPI.reload env1 erodeAlone = some s3
        ∧ countUnder s3 "codes.eeems.erode" ≤ 1
        ∧ QMap.find? s3.applications "codes.eeems.erode" = some erodeApp)
    ∧ (WellFormed readerAlone
      ∧ ("reader", QMap.insert readerDescriptor "name" (QJsonValue.string "reader"))
          ∈ AppsAPI.scanDescriptors env4
      ∧ ∃ s3, AppsAPI.reload env4 readerAlone = some s3
        ∧ countUnder s3 "reader" ≤ 1
        ∧ QMap.find? s3.applications "reader"
            = some ((Application.create readerPath).setConfig
                [("bin", QVariant.str "/opt/bin/reader"),
                 ("displayName", QVariant.str "Reader"),
                 ("flags", QVariant.strList ["system"]),
                 ("name", QVariant.str "reader"),
                 ("type", QVariant.int Foreground)])) := by
  have hw1 : WellFormed erodeAlone := ⟨by decide, by unfold UniqueKeys; decide, by decide⟩
  have hw4 : WellFormed readerAlone := ⟨by decide, by unfold UniqueKeys; decide, by decide⟩
  have hd1 : ("codes.eeems.erode",
      QMap.insert erodeDescriptor "name" (QJsonValue.string "codes.eeems.erode"))
      ∈ AppsAPI.scanDescriptors env1 := List.Mem.head _
  have hd4 : ("reader", QMap.insert readerDescriptor "name" (QJsonValue.string "reader"))
      ∈ AppsAPI.scanDescriptors env4 := List.Mem.head _
  refine ⟨⟨hw1, hd1, ?_⟩, ⟨hw4, hd4, ?_⟩⟩
  · obtain ⟨s1, s3, h1, h3, hcount, hall⟩ :=
      reload_descriptor_of_registered env1 erodeAlone "codes.eeems.erode" _ hw1 hd1
    have hs1 : s1 = erodeAlone :=
      (Option.some.inj ((h1.symm).trans (rfl : AppsAPI.unregisterAbsent erodeAlone
        = some erodeAlone)))
    subst hs1
    exact ⟨s3, h3, hcount, (hall erodeApp (by decide)).1 (by decide)⟩
  · obtain ⟨s1, s3, h1, h3, hcount, hall⟩ :=
      reload_descriptor_of_registered env4 readerAlone "reader" _ hw4 hd4
    have hs1 : s1 = readerAlone :=
      (Option.some.inj ((h1.symm).trans (rfl : AppsAPI.unregisterAbsent readerAlone
        = some readerAlone)))
    subst hs1
    obtain ⟨app, happ⟩ := mem_of_contains (AppsAPI.readPersisted env4 readerAlone).applications
      "reader" (by decide)
    have hns : app.systemApp = false := by
      have hf := find?_of_mem_unique _ "reader" app
        (readPersisted_wellFormed3 env4 readerAlone hw4).2.1 happ
      have hv : (QMap.find? (AppsAPI.readPersisted env4 readerAlone).applications
          "reader").map Application.systemApp = some false := by decide
      rw [hf] at hv
      exact Option.some.inj hv
    exact ⟨s3, h3, hcount, ((hall app happ).2 hns).2.2 _ rfl (by unfold refuses; decide)⟩

/-- C21, where the code departs from it. In `erodeAlone` the system application is
registered with the flags `system`; the directory holds its descriptor, whose binary
exists and which now declares the flags `system` and `chroot`. After `reload` the
configuration of the Application is the one it had, not the one built from the
descriptor: line 363 takes the descriptor out of `apps`, so the update of lines 433 to 435
is never reached. And in `readerAlone`, where `reader` is in the foreground and not
system-flagged, `reload` with `reader.oxide` in the directory does not update it in
place: it is unregistered, deleted and registered anew, in the state `Inactive`. -/
theorem reload_drops_descriptor_of_system :
    (QMap.keys erodeAlone.applications = ["codes.eeems.erode"]
      ∧ erodeApp.systemApp = true
      ∧ QMap.keys (AppsAPI.scanDescriptors env1) = ["codes.eeems.erode"]
      ∧ env1.fileExists "/opt/bin/erode" = true
      ∧ (QMap.values (AppsAPI.scanDescriptors env1)).map (AppsAPI.descriptorProperties env1)
          = [some [("bin", QVariant.str "/opt/bin/erode"),
                   ("flags", QVariant.strList ["system", "chroot"]),
                   ("name", QVariant.str "codes.eeems.erode"),
                   ("type", QVariant.int Background)]]
      ∧ (AppsAPI.reload env1 erodeAlone).map
            (fun s => s.applications.map (fun e => (e.1, e.2.config)))
          = some [("codes.eeems.erode",
              [("bin", QVariant.str "/opt/bin/erode"),
               ("flags", QVariant.strList ["system"]),
               ("name", QVariant.str "codes.eeems.erode"),
               ("type", QVariant.int Background)])])
    ∧ (registered readerAlone = [("reader", readerPath, AppState.InForeground)]
      ∧ QMap.keys (AppsAPI.scanDescriptors env4) = ["reader"]
      ∧ (AppsAPI.reload env4 readerAlone).map (fun s => (registered s, s.trace))
          = some ([("reader", readerPath, AppState.Inactive)],
              [Action.removed "reader",
               Action.emitted (Signal.applicationUnregistered readerPath),
               Action.called "reader" Method.deleteLater,
               Action.inserted "reader",
               Action.called "reader" Method.registerPath,
               Action.emitted (Signal.applicationRegistered readerPath)])) :=
  ⟨⟨by decide, by decide, by decide, by decide, by decide, by decide⟩,
   ⟨by decide, by decide, by decide⟩⟩

end Oxide
